import Mathlib

/-!
# A shallow embedding of `skiplist.go`

The Go program keeps a skip list of heap-allocated `Node`s linked by pointers.
The embedding makes the heap explicit: a heap is the list of the nodes
allocated so far, a pointer `*Node` is `none` (Go `nil`) or `some a` with `a`
the position of the node in the heap.  A value of type `interface{}` is an
`Option α`, `none` being the `nil` interface value.  Run-time panics are the
`Fault`s of an `Except`; loops that follow pointers take fuel and report
`Fault.outOfFuel` when it is used up.  Integers are unbounded and allocation
never fails for a non-negative size.  The random source of `randLevel` is a
stream `rand : Nat → Bool` of coin outcomes together with the number of
outcomes drawn so far.  The field `prob` (a `float64`, always `0.5`) only
parameterises that random source and is not represented.
-/

namespace Skiplist

/-- The ways a Go operation can fail to return. -/
inductive Fault where
  | nilDeref
  | indexOutOfRange
  | makeslice
  | outOfFuel
  deriving DecidableEq

/-- The Go struct `Node`. -/
structure Node (α : Type) where
  score : Int
  obj : Option α
  level : Int
  nextNodeByLevel : List (Option Nat)
  deriving DecidableEq

/-- The Go struct `SkipList`, together with the heap its pointers refer to. -/
structure SkipList (α : Type) where
  heap : List (Node α)
  head : Option Nat
  tail : Option Nat
  maxLevel : Int
  deriving DecidableEq

variable {α : Type}

/-! ## Primitive steps -/

/-- The Go expression `make([]T, n)` filled with `zero`. -/
def makeSlice {β : Type} (zero : β) (n : Int) : Except Fault (List β) :=
  if n < 0 then .error .makeslice else .ok (List.replicate n.toNat zero)

/-- The Go expression `l[i]`. -/
def getIdx {β : Type} (l : List β) (i : Int) : Except Fault β :=
  if i < 0 then .error .indexOutOfRange
  else match l[i.toNat]? with
    | some x => .ok x
    | none => .error .indexOutOfRange

/-- The Go statement `l[i] = x`. -/
def setIdx {β : Type} (l : List β) (i : Int) (x : β) : Except Fault (List β) :=
  if i < 0 then .error .indexOutOfRange
  else if i.toNat < l.length then .ok (l.set i.toNat x)
  else .error .indexOutOfRange

/-- Following a pointer to the node it points to. -/
def deref (h : List (Node α)) : Option Nat → Except Fault (Node α)
  | none => .error .nilDeref
  | some a =>
    match h[a]? with
    | some n => .ok n
    | none => .error .nilDeref

/-- The Go expression `p.nextNodeByLevel[i]`. -/
def nextOf (h : List (Node α)) (p : Option Nat) (i : Int) : Except Fault (Option Nat) :=
  match deref h p with
  | .error e => .error e
  | .ok n => getIdx n.nextNodeByLevel i

/-- The Go statement `p.nextNodeByLevel[i] = q`. -/
def setNext (h : List (Node α)) (p : Option Nat) (i : Int) (q : Option Nat) :
    Except Fault (List (Node α)) :=
  match p with
  | none => .error .nilDeref
  | some a =>
    match h[a]? with
    | none => .error .nilDeref
    | some n =>
      match setIdx n.nextNodeByLevel i q with
      | .error e => .error e
      | .ok l => .ok (h.set a { n with nextNodeByLevel := l })

/-- The Go statement `p.obj = v`. -/
def setObj (h : List (Node α)) (p : Option Nat) (v : Option α) : Except Fault (List (Node α)) :=
  match p with
  | none => .error .nilDeref
  | some a =>
    match h[a]? with
    | none => .error .nilDeref
    | some n => .ok (h.set a { n with obj := v })

/-! ## Construction -/

/-- The Go function `NewNode`: allocates the node at the end of the heap and returns the new
heap with the node's address. -/
def NewNode (h : List (Node α)) (score : Int) (obj : Option α) (level : Int) :
    Except Fault (List (Node α) × Option Nat) :=
  match makeSlice (none : Option Nat) (level + 1) with
  | .error e => .error e
  | .ok nodeLevel =>
    .ok (h ++ [{ score := score, obj := obj, level := level, nextNodeByLevel := nodeLevel }],
         some h.length)

/-- The Go function `NewSkipList`, run on an empty heap. -/
def NewSkipList (maxLevel : Int) : Except Fault (SkipList α) :=
  match NewNode ([] : List (Node α)) 0 none maxLevel with
  | .error e => .error e
  | .ok (h, head) => .ok { heap := h, head := head, tail := none, maxLevel := maxLevel }

/-! ## Level generation -/

/-- The loop of the Go function `randLevel`; the first argument is `max - l`, the number of
iterations the guard `l < max` still allows. -/
def randLevelLoop (rand : Nat → Bool) : Nat → Int → Nat → Int × Nat
  | 0, l, calls => (l, calls)
  | n + 1, l, calls =>
    if rand calls then randLevelLoop rand n (l + 1) (calls + 1) else (l, calls + 1)

/-- The Go function `randLevel`: returns the level and the number of coin outcomes drawn
so far. -/
def randLevel (max : Int) (rand : Nat → Bool) (calls : Nat) : Int × Nat :=
  randLevelLoop rand (max - 0).toNat 0 calls

/-- The Go method `SkipList.randLevel`. -/
def SkipList.randLevel (s : SkipList α) (rand : Nat → Bool) (calls : Nat) : Int × Nat :=
  Skiplist.randLevel s.maxLevel rand calls

/-! ## Insert -/

/-- The inner loop of `Insert`:
`for p.nextNodeByLevel[i] != nil && p.nextNodeByLevel[i].score < score`. -/
def advance (h : List (Node α)) (i : Int) (score : Int) :
    Nat → Option Nat → Except Fault (Option Nat)
  | 0, _ => .error .outOfFuel
  | fuel + 1, p =>
    match nextOf h p i with
    | .error e => .error e
    | .ok none => .ok p
    | .ok (some b) =>
      match deref h (some b) with
      | .error e => .error e
      | .ok nb => if nb.score < score then advance h i score fuel (some b) else .ok p

/-- The outer loop of `Insert`, `for i := s.maxLevel - 1; i >= 0; i--`; the first argument
is `i + 1`. -/
def insertSearch (h : List (Node α)) (score : Int) :
    Nat → List (Option Nat) → Except Fault (List (Option Nat))
  | 0, preNodes => .ok preNodes
  | i + 1, preNodes =>
    match getIdx preNodes ((i : Int) + 1) with
    | .error e => .error e
    | .ok p =>
      match nextOf h p i with
      | .error e => .error e
      | .ok none =>
        match setIdx preNodes i p with
        | .error e => .error e
        | .ok preNodes1 => insertSearch h score i preNodes1
      | .ok (some _) =>
        match advance h i score (h.length + 1) p with
        | .error e => .error e
        | .ok q =>
          match setIdx preNodes i q with
          | .error e => .error e
          | .ok preNodes1 => insertSearch h score i preNodes1

/-- The splice loop of `Insert`, `for i := 0; i <= level; i++`; the first argument is
`level + 1 - i`. -/
def spliceLoop (preNodes : List (Option Nat)) (node : Option Nat) :
    Nat → Int → List (Node α) → Except Fault (List (Node α))
  | 0, _, h => .ok h
  | n + 1, i, h =>
    match getIdx preNodes i with
    | .error e => .error e
    | .ok p =>
      match nextOf h p i with
      | .error e => .error e
      | .ok old =>
        match setNext h p i node with
        | .error e => .error e
        | .ok h1 =>
          match setNext h1 node i old with
          | .error e => .error e
          | .ok h2 => spliceLoop preNodes node n (i + 1) h2

/-- The Go method `Insert`; `calls` counts the coin outcomes drawn before the call, the
result carries the count after it. -/
def Insert (s : SkipList α) (score : Int) (val : Option α) (rand : Nat → Bool) (calls : Nat) :
    Except Fault (SkipList α × Nat) :=
  match makeSlice (none : Option Nat) (s.maxLevel + 1) with
  | .error e => .error e
  | .ok preNodes0 =>
    match setIdx preNodes0 s.maxLevel s.head with
    | .error e => .error e
    | .ok preNodes1 =>
      match insertSearch s.heap score s.maxLevel.toNat preNodes1 with
      | .error e => .error e
      | .ok preNodes =>
        match getIdx preNodes 0 with
        | .error e => .error e
        | .ok p0 =>
          match nextOf s.heap p0 0 with
          | .error e => .error e
          | .ok nx =>
            let fresh : Except Fault (SkipList α × Nat) :=
              let (level, calls1) := s.randLevel rand calls
              match NewNode s.heap score val level with
              | .error e => .error e
              | .ok (h1, node) =>
                match spliceLoop preNodes node (level + 1).toNat 0 h1 with
                | .error e => .error e
                | .ok h2 => .ok ({ s with heap := h2 }, calls1)
            match nx with
            | none => fresh
            | some b =>
              match deref s.heap (some b) with
              | .error e => .error e
              | .ok nb =>
                if nb.score = score then
                  match setObj s.heap (some b) val with
                  | .error e => .error e
                  | .ok h1 => .ok ({ s with heap := h1 }, calls)
                else fresh

/-! ## Level, Delete, Find, Len, String -/

/-- The loop of `Level`, `for i := s.maxLevel - 1; i > 0; i--`; the argument is `i`. -/
def levelLoop (h : List (Node α)) (head : Option Nat) : Nat → Except Fault Int
  | 0 => .ok 0
  | i + 1 =>
    match nextOf h head ((i : Int) + 1) with
    | .error e => .error e
    | .ok (some _) => .ok ((i : Int) + 1)
    | .ok none => levelLoop h head i

/-- The Go method `Level`. -/
def Level (s : SkipList α) : Except Fault Int :=
  levelLoop s.heap s.head (s.maxLevel - 1).toNat

/-- The search loop of `Delete`, `for p := s.head; level >= 0; { ... }`. -/
def deleteLoop (h : List (Node α)) (score : Int) :
    Nat → Option Nat → Int → List (Option Nat) → Except Fault (List (Option Nat))
  | 0, _, _, _ => .error .outOfFuel
  | fuel + 1, p, level, preNodes =>
    if level < 0 then .ok preNodes
    else
      match nextOf h p level with
      | .error e => .error e
      | .ok none =>
        match setIdx preNodes level none with
        | .error e => .error e
        | .ok preNodes1 => deleteLoop h score fuel p (level - 1) preNodes1
      | .ok (some b) =>
        match deref h (some b) with
        | .error e => .error e
        | .ok nb =>
          if nb.score = score then
            match setIdx preNodes level p with
            | .error e => .error e
            | .ok preNodes1 => deleteLoop h score fuel p (level - 1) preNodes1
          else if nb.score > score then
            match setIdx preNodes level none with
            | .error e => .error e
            | .ok preNodes1 => deleteLoop h score fuel p (level - 1) preNodes1
          else if nb.score < score then deleteLoop h score fuel (some b) level preNodes
          else deleteLoop h score fuel p level preNodes

/-- The relink loop of `Delete`, `for i := range preNodes`; the first argument is
`preNodes[i:]`. -/
def relinkLoop : List (Option Nat) → Int → List (Node α) → Except Fault (List (Node α))
  | [], _, h => .ok h
  | none :: rest, i, h => relinkLoop rest (i + 1) h
  | some a :: rest, i, h =>
    match nextOf h (some a) i with
    | .error e => .error e
    | .ok t =>
      match nextOf h t i with
      | .error e => .error e
      | .ok tn =>
        match setNext h (some a) i tn with
        | .error e => .error e
        | .ok h1 => relinkLoop rest (i + 1) h1

/-- The fuel given to the search loops of `Delete` and `Find`. -/
def searchFuel (h : List (Node α)) (level : Int) : Nat :=
  (level.toNat + 1) * (h.length + 1) + 1

/-- The Go method `Delete`. -/
def Delete (s : SkipList α) (score : Int) : Except Fault (SkipList α) :=
  match Level s with
  | .error e => .error e
  | .ok level =>
    match makeSlice (none : Option Nat) (level + 1) with
    | .error e => .error e
    | .ok preNodes0 =>
      match deleteLoop s.heap score (searchFuel s.heap level) s.head level preNodes0 with
      | .error e => .error e
      | .ok preNodes =>
        match relinkLoop preNodes 0 s.heap with
        | .error e => .error e
        | .ok h1 => .ok { s with heap := h1 }

/-- The loop of `Find`, `for p := s.head; level >= 0; { ... }`. -/
def findLoop (h : List (Node α)) (score : Int) :
    Nat → Option Nat → Int → Except Fault (Option α)
  | 0, _, _ => .error .outOfFuel
  | fuel + 1, p, level =>
    if level < 0 then .ok none
    else
      match nextOf h p level with
      | .error e => .error e
      | .ok none => findLoop h score fuel p (level - 1)
      | .ok (some b) =>
        match deref h (some b) with
        | .error e => .error e
        | .ok nb =>
          if nb.score > score then findLoop h score fuel p (level - 1)
          else if nb.score = score then .ok nb.obj
          else if nb.score < score then findLoop h score fuel (some b) level
          else findLoop h score fuel p level

/-- The Go method `Find`. -/
def Find (s : SkipList α) (score : Int) : Except Fault (Option α) :=
  match Level s with
  | .error e => .error e
  | .ok level => findLoop s.heap score (searchFuel s.heap level) s.head level

/-- The loop of `Len`, `for ; p != nil; l++`. -/
def lenLoop (h : List (Node α)) : Nat → Option Nat → Int → Except Fault Int
  | 0, _, _ => .error .outOfFuel
  | _ + 1, none, l => .ok l
  | fuel + 1, some a, l =>
    match nextOf h (some a) 0 with
    | .error e => .error e
    | .ok q => lenLoop h fuel q (l + 1)

/-- The Go method `Len`. -/
def Len (s : SkipList α) : Except Fault Int :=
  match nextOf s.heap s.head 0 with
  | .error e => .error e
  | .ok p => lenLoop s.heap (s.heap.length + 1) p 0

/-- The inner loop of `String`, `for i := 0; i < s.maxLevel; i++`; the first argument is
`s.maxLevel - i`.  `fmtv` is the rendering of a value by the verb `%v`. -/
def stringRow (fmtv : Option α → String) (maxLevel : Int) (n : Node α) :
    Nat → Int → List String → Except Fault (List String)
  | 0, _, strs => .ok strs
  | k + 1, i, strs =>
    match getIdx strs (maxLevel - i) with
    | .error e => .error e
    | .ok old =>
      let entry := if i ≤ n.level then fmtv n.obj ++ "\t" else "-" ++ "\t"
      match setIdx strs (maxLevel - i) (old ++ entry) with
      | .error e => .error e
      | .ok strs1 => stringRow fmtv maxLevel n k (i + 1) strs1

/-- The outer loop of `String`,
`for p := s.head.nextNodeByLevel[0]; p != nil; p = p.nextNodeByLevel[0]`. -/
def stringLoop (fmtv : Option α → String) (h : List (Node α)) (maxLevel : Int) :
    Nat → Option Nat → List String → Except Fault (List String)
  | 0, _, _ => .error .outOfFuel
  | _ + 1, none, strs => .ok strs
  | fuel + 1, some a, strs =>
    match deref h (some a) with
    | .error e => .error e
    | .ok n =>
      match stringRow fmtv maxLevel n maxLevel.toNat 0 strs with
      | .error e => .error e
      | .ok strs1 =>
        match nextOf h (some a) 0 with
        | .error e => .error e
        | .ok q => stringLoop fmtv h maxLevel fuel q strs1

/-- The Go method `String`. -/
def SkipList.String (fmtv : Option α → String) (s : SkipList α) : Except Fault String :=
  match makeSlice "" (s.maxLevel + 1) with
  | .error e => .error e
  | .ok strs =>
    match nextOf s.heap s.head 0 with
    | .error e => .error e
    | .ok p =>
      match stringLoop fmtv s.heap s.maxLevel (s.heap.length + 1) p strs with
      | .error e => .error e
      | .ok strs1 => .ok ("\n".intercalate strs1)

/-! ## Observations of the heap -/

/-- The level-`i` forward link of the node at address `a`, when both exist. -/
def link (h : List (Node α)) (i : Nat) (a : Nat) : Option (Option Nat) :=
  match h[a]? with
  | none => none
  | some n => n.nextNodeByLevel[i]?

/-- The key of the node at address `a`. -/
def key (h : List (Node α)) (a : Nat) : Int :=
  match h[a]? with
  | none => 0
  | some n => n.score

/-- The value of the node at address `a`. -/
def val (h : List (Node α)) (a : Nat) : Option α :=
  match h[a]? with
  | none => none
  | some n => n.obj

/-- The heap after `a.nextNodeByLevel[i] = q`. -/
def setLink (h : List (Node α)) (a : Nat) (i : Nat) (q : Option Nat) : List (Node α) :=
  match h[a]? with
  | none => h
  | some n => h.set a { n with nextNodeByLevel := n.nextNodeByLevel.set i q }

/-- The heap after `a.obj = v`. -/
def setVal (h : List (Node α)) (a : Nat) (v : Option α) : List (Node α) :=
  match h[a]? with
  | none => h
  | some n => h.set a { n with obj := v }

/-- The chain of level `i` after the node `a`: following the level-`i` links from `a` visits
exactly the nodes of the list, in order, and then reaches `nil`. -/
def Path (h : List (Node α)) (i : Nat) : Nat → List Nat → Prop
  | a, [] => link h i a = some none
  | a, b :: l => link h i a = some (some b) ∧ Path h i b l

/-- The last node of the chain `a :: l`. -/
def lastFrom : Nat → List Nat → Nat
  | a, [] => a
  | _, b :: l => lastFrom b l

/-- The longest prefix of a chain whose keys are smaller than `score`. -/
def below (h : List (Node α)) (score : Int) (l : List Nat) : List Nat :=
  l.takeWhile (fun a => decide (key h a < score))

/-- What follows `below` in a chain: it is empty or starts with a key `≥ score`. -/
def notBelow (h : List (Node α)) (score : Int) (l : List Nat) : List Nat :=
  l.dropWhile (fun a => decide (key h a < score))

/-- The keys of a chain are strictly increasing. -/
def Sorted (h : List (Node α)) (l : List Nat) : Prop :=
  l.Pairwise (fun a b => key h a < key h b)

/-- Every node has a level in `[0, M]` and `level + 1` forward links. -/
def Shape (M : Nat) (h : List (Node α)) : Prop :=
  ∀ n, n ∈ h → 0 ≤ n.level ∧ n.level ≤ (M : Int) ∧ n.nextNodeByLevel.length = n.level.toNat + 1

/-- The invariant of a list built with `maxLevel = M`; `c i` is the chain of level `i`.
Every level up to `M` has a finite chain without repetition; below `M` the chains are
sorted and each is a sublist of the one under it.  The levels that `Delete`, `Find` and
`Len` walk are those below `max M 1`. -/
structure Inv (s : SkipList α) (M : Nat) (c : Nat → List Nat) : Prop where
  maxLevel_eq : s.maxLevel = (M : Int)
  head_eq : s.head = some 0
  tail_eq : s.tail = none
  shape : Shape M s.heap
  top : ∃ q, link s.heap M 0 = some q
  path : ∀ i, i ≤ M → Path s.heap i 0 (c i)
  nodup : ∀ i, i ≤ M → (0 :: c i).Nodup
  sorted : ∀ i, i < M → Sorted s.heap (c i)
  sub : ∀ i, i + 1 < M → (c (i + 1)).Sublist (c i)

/-- The node `Insert` records in `preNodes[j]`: below the top level the last node of the
chain with a key smaller than `score`, at the top level the head. -/
def predAt (M : Nat) (h : List (Node α)) (c : Nat → List Nat) (score : Int) (j : Nat) : Nat :=
  if j < M then lastFrom 0 (below h score (c j)) else 0

/-- The part of the chain of level `j` up to `predAt`. -/
def leftAt (M : Nat) (h : List (Node α)) (c : Nat → List Nat) (score : Int) (j : Nat) :
    List Nat :=
  if j < M then below h score (c j) else []

/-- The part of the chain of level `j` after `predAt`. -/
def rightAt (M : Nat) (h : List (Node α)) (c : Nat → List Nat) (score : Int) (j : Nat) :
    List Nat :=
  if j < M then notBelow h score (c j) else c j

/-- The node of a chain that the searches of `Delete` and `Find` stop in front of, when it
carries `score`. -/
def foundAt (h : List (Node α)) (score : Int) (l : List Nat) : Option Nat :=
  match (notBelow h score l).head? with
  | some b => if key h b = score then some b else none
  | none => none

/-- A chain after `Delete` has unlinked the node found by its search. -/
def unlinked (h : List (Node α)) (score : Int) (l : List Nat) : List Nat :=
  below h score l ++
    (if (foundAt h score l).isSome then (notBelow h score l).tail else notBelow h score l)

/-- The highest level in `1 .. n` with a non-empty chain, `0` when there is none. -/
def topLevel (c : Nat → List Nat) : Nat → Nat
  | 0 => 0
  | n + 1 => if (c (n + 1)).isEmpty then topLevel c n else n + 1

/-- The forward link of the node that follows `b` at level `j`. -/
def skipLink (h : List (Node α)) (j : Nat) (b : Nat) : Option (Option Nat) :=
  match link h j b with
  | some (some t) => link h j t
  | _ => none

/-- The value `Find` returns when its search of the chain `l` decides: the value of the node
found, `nil` otherwise. -/
def lookup (h : List (Node α)) (score : Int) (l : List Nat) : Option α :=
  match foundAt h score l with
  | some b => val h b
  | none => none

/-- Walking the level-`i` links from the pointer `p` until `nil`, collecting the addresses
met. -/
def walkLevel (h : List (Node α)) (i : Nat) : Nat → Option Nat → Except Fault (List Nat)
  | 0, _ => .error .outOfFuel
  | _ + 1, none => .ok []
  | fuel + 1, some a =>
    match nextOf h (some a) (i : Int) with
    | .error e => .error e
    | .ok q =>
      match walkLevel h i fuel q with
      | .error e => .error e
      | .ok l => .ok (a :: l)

/-- The nodes met by walking level `i` from the head: `head.nextNodeByLevel[i]`, then each
node's `nextNodeByLevel[i]`. -/
def chainOf (s : SkipList α) (i : Nat) : Except Fault (List Nat) :=
  match nextOf s.heap s.head (i : Int) with
  | .error e => .error e
  | .ok p => walkLevel s.heap i (s.heap.length + 1) p

/-- The `(key, value)` pairs of the nodes at the given addresses. -/
def pairsAt (h : List (Node α)) (l : List Nat) : List (Int × Option α) :=
  l.map (fun a => (key h a, val h a))

/-- The level-0 sequence of `(key, value)` pairs of a list. -/
def entries (s : SkipList α) : Except Fault (List (Int × Option α)) :=
  match chainOf s 0 with
  | .error e => .error e
  | .ok l => .ok (pairsAt s.heap l)

/-- The part of a chain after the node that carries `score`, or after `below` when no node
does. -/
def above (h : List (Node α)) (score : Int) (l : List Nat) : List Nat :=
  if (foundAt h score l).isSome then (notBelow h score l).tail else notBelow h score l

/-! ## Sequences of calls -/

/-- A call of `Insert` or `Delete`. -/
inductive Op (α : Type) where
  | insert (score : Int) (val : Option α)
  | delete (score : Int)

/-- One call on a list, with the count of coin outcomes drawn so far. -/
def step (rand : Nat → Bool) (st : SkipList α × Nat) : Op α → Except Fault (SkipList α × Nat)
  | .insert score val => Insert st.1 score val rand st.2
  | .delete score =>
    match Delete st.1 score with
    | .error e => .error e
    | .ok s => .ok (s, st.2)

/-- A sequence of calls on a list, in order. -/
def runFrom (rand : Nat → Bool) : List (Op α) → SkipList α × Nat → Except Fault (SkipList α × Nat)
  | [], st => .ok st
  | op :: ops, st =>
    match step rand st op with
    | .error e => .error e
    | .ok st1 => runFrom rand ops st1

/-- A sequence of calls applied to `NewSkipList(maxLevel)`. -/
def run (maxLevel : Int) (rand : Nat → Bool) (ops : List (Op α)) :
    Except Fault (SkipList α × Nat) :=
  match NewSkipList maxLevel with
  | .error e => .error e
  | .ok s => runFrom rand ops (s, 0)

/-- The lists reachable from `NewSkipList(maxLevel)` by calls of `Insert` and `Delete`. -/
def Reachable (maxLevel : Int) (s : SkipList α) : Prop :=
  ∃ (rand : Nat → Bool) (ops : List (Op α)) (calls : Nat), run maxLevel rand ops = .ok (s, calls)

/-- The level-0 sequence of pairs after a sequence of calls on `NewSkipList(maxLevel)`. -/
def entriesAfter (maxLevel : Int) (rand : Nat → Bool) (ops : List (Op α)) :
    Except Fault (List (Int × Option α)) :=
  match run maxLevel rand ops with
  | .error e => .error e
  | .ok st => entries st.1

/-- The result of `Find` after a sequence of calls on `NewSkipList(maxLevel)`. -/
def findAfter (maxLevel : Int) (rand : Nat → Bool) (ops : List (Op α)) (score : Int) :
    Except Fault (Option α) :=
  match run maxLevel rand ops with
  | .error e => .error e
  | .ok st => Find st.1 score

/-! ## The finite map the list stands for -/

/-- A sequence of pairs with `(k, v)` placed at its sorted position: the pairs with a
smaller key, then `(k, v)`, then the pairs with a larger key. -/
def putPair (m : List (Int × Option α)) (k : Int) (v : Option α) : List (Int × Option α) :=
  m.filter (fun p => decide (p.1 < k)) ++ (k, v) :: m.filter (fun p => decide (k < p.1))

/-- A sequence of pairs without the pairs of key `k`. -/
def dropKey (m : List (Int × Option α)) (k : Int) : List (Int × Option α) :=
  m.filter (fun p => decide (p.1 ≠ k))

/-- The value a sequence of pairs gives to `k`, when it has a pair of key `k`. -/
def assoc (m : List (Int × Option α)) (k : Int) : Option (Option α) :=
  match m.find? (fun p => decide (p.1 = k)) with
  | some p => some p.2
  | none => none

/-- One call on a finite map from keys to values. -/
def mapStep (m : Int → Option (Option α)) : Op α → Int → Option (Option α)
  | .insert k v => fun x => if x = k then some v else m x
  | .delete k => fun x => if x = k then none else m x

/-- The finite map after a sequence of calls on the empty map: `mapRun ops k` is `some v`
when `k` was inserted and not deleted afterwards, `v` being the value of the most recent
`Insert(k, _)`, and `none` otherwise. -/
def mapRun (ops : List (Op α)) : Int → Option (Option α) :=
  ops.foldl mapStep (fun _ => none)

/-- The number of `Insert` calls of a sequence whose key is absent at the time of the call,
when the sequence is applied to the finite map `m`. -/
def freshInserts (m : Int → Option (Option α)) : List (Op α) → Nat
  | [] => 0
  | .insert k v :: ops =>
    (if (m k).isNone then 1 else 0) + freshInserts (mapStep m (.insert k v)) ops
  | .delete k :: ops => freshInserts (mapStep m (.delete k)) ops

/-- The number of `Delete` calls of a sequence whose key is present at the time of the call,
when the sequence is applied to the finite map `m`. -/
def presentDeletes (m : Int → Option (Option α)) : List (Op α) → Nat
  | [] => 0
  | .insert k v :: ops => presentDeletes (mapStep m (.insert k v)) ops
  | .delete k :: ops =>
    (if (m k).isSome then 1 else 0) + presentDeletes (mapStep m (.delete k)) ops

/-! ## A concrete list -/

/-- A stream of coin outcomes: true, true, false, true, true, false, ... -/
def exampleRand : Nat → Bool := fun n => n % 3 != 2

/-- Three calls of `Insert`. -/
def exampleOps : List (Op Nat) := [.insert 5 (some 1), .insert 3 (some 2), .insert 8 (some 3)]

/-- The list `exampleOps` builds from `NewSkipList(2)` with the coins `exampleRand`: the
head at address 0, then the nodes of the keys 5, 3 and 8 with the levels 2, 0 and 2. -/
def exampleList : SkipList Nat :=
  { heap := [⟨0, none, 2, [some 2, some 1, some 3]⟩, ⟨5, some 1, 2, [some 3, some 3, none]⟩,
      ⟨3, some 2, 0, [some 1]⟩, ⟨8, some 3, 2, [none, none, some 1]⟩],
    head := some 0, tail := none, maxLevel := 2 }

/-- The list `Insert(1, 10)`, `Insert(2, 20)` build from `NewSkipList(0)`: the head at
address 0 is followed at level 0 by the node of key 2, then the node of key 1. -/
def exampleListZero : SkipList Nat :=
  { heap := [⟨0, none, 0, [some 2]⟩, ⟨1, some 10, 0, [none]⟩, ⟨2, some 20, 0, [some 1]⟩],
    head := some 0, tail := none, maxLevel := 0 }

/-! ## Rendering -/

/-- The level of the node at address `a`. -/
def lvl (h : List (Node α)) (a : Nat) : Int :=
  match h[a]? with
  | none => 0
  | some n => n.level

/-- The entry `String` writes for the node at address `a` in the line of level `i`: the
node's value when `i ≤ level`, the placeholder otherwise, followed by a tab. -/
def renderCell (fmtv : Option α → String) (h : List (Node α)) (i : Nat) (a : Nat) : String :=
  if (i : Int) ≤ lvl h a then fmtv (val h a) ++ "\t" else "-" ++ "\t"

/-- The strings of a list written one after the other. -/
def concatAll : List String → String
  | [] => ""
  | x :: xs => x ++ concatAll xs

/-- The line of level `i`: the entries of the nodes of the chain `l`, in order. -/
def renderLine (fmtv : Option α → String) (h : List (Node α)) (i : Nat) (l : List Nat) :
    String :=
  concatAll (l.map (renderCell fmtv h i))

/-! ## Loops with explicit fuel and traces -/

/-- The outer loop of `Insert` as in `insertSearch`, with the fuel of the inner loop as a
parameter. -/
def insertSearchWith (h : List (Node α)) (score : Int) (fuel : Nat) :
    Nat → List (Option Nat) → Except Fault (List (Option Nat))
  | 0, preNodes => .ok preNodes
  | i + 1, preNodes =>
    match getIdx preNodes ((i : Int) + 1) with
    | .error e => .error e
    | .ok p =>
      match nextOf h p i with
      | .error e => .error e
      | .ok none =>
        match setIdx preNodes i p with
        | .error e => .error e
        | .ok preNodes1 => insertSearchWith h score fuel i preNodes1
      | .ok (some _) =>
        match advance h i score fuel p with
        | .error e => .error e
        | .ok q =>
          match setIdx preNodes i q with
          | .error e => .error e
          | .ok preNodes1 => insertSearchWith h score fuel i preNodes1

/-- The search loop of `Delete` as in `deleteLoop`, recording the value of `level` at every
test of the loop condition `level >= 0`. -/
def deleteLoopTrace (h : List (Node α)) (score : Int) :
    Nat → Option Nat → Int → List (Option Nat) →
      Except Fault (List (Option Nat) × List Int)
  | 0, _, _, _ => .error .outOfFuel
  | fuel + 1, p, level, preNodes =>
    if level < 0 then .ok (preNodes, [level])
    else
      match nextOf h p level with
      | .error e => .error e
      | .ok none =>
        match setIdx preNodes level none with
        | .error e => .error e
        | .ok preNodes1 =>
          match deleteLoopTrace h score fuel p (level - 1) preNodes1 with
          | .error e => .error e
          | .ok r => .ok (r.1, level :: r.2)
      | .ok (some b) =>
        match deref h (some b) with
        | .error e => .error e
        | .ok nb =>
          if nb.score = score then
            match setIdx preNodes level p with
            | .error e => .error e
            | .ok preNodes1 =>
              match deleteLoopTrace h score fuel p (level - 1) preNodes1 with
              | .error e => .error e
              | .ok r => .ok (r.1, level :: r.2)
          else if nb.score > score then
            match setIdx preNodes level none with
            | .error e => .error e
            | .ok preNodes1 =>
              match deleteLoopTrace h score fuel p (level - 1) preNodes1 with
              | .error e => .error e
              | .ok r => .ok (r.1, level :: r.2)
          else if nb.score < score then
            match deleteLoopTrace h score fuel (some b) level preNodes with
            | .error e => .error e
            | .ok r => .ok (r.1, level :: r.2)
          else
            match deleteLoopTrace h score fuel p level preNodes with
            | .error e => .error e
            | .ok r => .ok (r.1, level :: r.2)

/-- The number of level descents in a trace of `level` values. -/
def descents : List Int → Nat
  | a :: b :: l => (if b < a then 1 else 0) + descents (b :: l)
  | _ => 0

/-- Two successive values of `level`: the second is the first or one less. -/
def StepDown (a b : Int) : Prop := b = a ∨ b = a - 1

/-! ## Concrete lists with `maxLevel = 1` -/

/-- The list `NewSkipList(1)`. -/
def exampleEmpty : SkipList Nat :=
  { heap := [⟨0, none, 1, [none, none]⟩], head := some 0, tail := none, maxLevel := 1 }

/-- The list `Insert(5, 1)` builds from `NewSkipList(1)` when the coin gives true: the node
of key 5 has level 1 and follows the head at the levels 0 and 1. -/
def exampleTop : SkipList Nat :=
  { heap := [⟨0, none, 1, [some 1, some 1]⟩, ⟨5, some 1, 1, [none, none]⟩],
    head := some 0, tail := none, maxLevel := 1 }

/-- The list `Insert(1, 10)`, `Insert(2, 20)` build from `NewSkipList(1)` when the coin
always gives true: both nodes have level 1. -/
def exampleTopTwo : SkipList Nat :=
  { heap := [⟨0, none, 1, [some 1, some 2]⟩, ⟨1, some 10, 1, [some 2, none]⟩,
      ⟨2, some 20, 1, [none, some 1]⟩],
    head := some 0, tail := none, maxLevel := 1 }

/-- The list `Insert(5, 1)`, `Delete(5)` build from `NewSkipList(1)` when the coin gives
true. -/
def exampleTopDeleted : SkipList Nat :=
  { heap := [⟨0, none, 1, [none, some 1]⟩, ⟨5, some 1, 1, [none, none]⟩],
    head := some 0, tail := none, maxLevel := 1 }

/-! ## Level generation -/

theorem randLevelLoop_stop (rand : Nat → Bool) :
    ∀ (n : Nat) (l : Int) (calls t : Nat), (∀ j, j < t → rand (calls + j) = true) →
      rand (calls + t) = false →
      randLevelLoop rand n l calls = (l + ((min n t : Nat) : Int), calls + min n (t + 1)) := by
  intro n
  induction n with
  | zero => intro l calls t _ _; simp [randLevelLoop]
  | succ n ih =>
    intro l calls t htrue hfalse
    cases t with
    | zero =>
      have h0 : rand calls = false := by simpa using hfalse
      simp [randLevelLoop, h0]
    | succ t =>
      have h0 : rand calls = true := by simpa using htrue 0 (by omega)
      have h1 : ∀ j, j < t → rand (calls + 1 + j) = true := by
        intro j hj
        have := htrue (j + 1) (by omega)
        rwa [show calls + (j + 1) = calls + 1 + j by omega] at this
      have h2 : rand (calls + 1 + t) = false := by
        rwa [show calls + (t + 1) = calls + 1 + t by omega] at hfalse
      rw [randLevelLoop, if_pos h0, ih (l + 1) (calls + 1) t h1 h2]
      have e1 : min (n + 1) (t + 1) = min n t + 1 := by omega
      have e2 : min (n + 1) (t + 1 + 1) = min n (t + 1) + 1 := by omega
      rw [e1, e2]
      refine Prod.ext ?_ ?_
      · simp only [Nat.cast_add, Nat.cast_one]; omega
      · simp only []; omega

theorem randLevelLoop_all (rand : Nat → Bool) :
    ∀ (n : Nat) (l : Int) (calls : Nat), (∀ j, j < n → rand (calls + j) = true) →
      randLevelLoop rand n l calls = (l + (n : Int), calls + n) := by
  intro n
  induction n with
  | zero => intro l calls _; simp [randLevelLoop]
  | succ n ih =>
    intro l calls htrue
    have h0 : rand calls = true := by simpa using htrue 0 (by omega)
    have h1 : ∀ j, j < n → rand (calls + 1 + j) = true := by
      intro j hj
      have := htrue (j + 1) (by omega)
      rwa [show calls + (j + 1) = calls + 1 + j by omega] at this
    rw [randLevelLoop, if_pos h0, ih (l + 1) (calls + 1) h1]
    refine Prod.ext ?_ ?_
    · simp only [Nat.cast_add, Nat.cast_one]; omega
    · simp only []; omega

theorem randLevelLoop_bounds (rand : Nat → Bool) :
    ∀ (n : Nat) (l : Int) (calls : Nat),
      l ≤ (randLevelLoop rand n l calls).1 ∧ (randLevelLoop rand n l calls).1 ≤ l + n ∧
      calls ≤ (randLevelLoop rand n l calls).2 ∧ (randLevelLoop rand n l calls).2 ≤ calls + n := by
  intro n
  induction n with
  | zero => intro l calls; simp [randLevelLoop]
  | succ n ih =>
    intro l calls
    rw [randLevelLoop]
    split
    · have := ih (l + 1) (calls + 1)
      simp only [Nat.cast_add, Nat.cast_one]
      omega
    · simp only [Nat.cast_add, Nat.cast_one]
      omega

/-- C8. For `max ≥ 0`, `randLevel max rand` returns `min max t` after exactly
`min max (t + 1)` draws when the first `false` outcome is the `t`-th one, returns `max`
after `max` draws when the first `max` outcomes are all `true`, and in every case returns a
level in `[0, max]` having drawn at most `max` outcomes. -/
theorem randLevel_spec (max : Int) (rand : Nat → Bool) (calls : Nat) (hmax : 0 ≤ max) :
    (∀ t : Nat, (∀ j, j < t → rand (calls + j) = true) → rand (calls + t) = false →
      randLevel max rand calls = (min max t, calls + (min max (t + 1)).toNat)) ∧
    ((∀ j : Nat, (j : Int) < max → rand (calls + j) = true) →
      randLevel max rand calls = (max, calls + max.toNat)) ∧
    0 ≤ (randLevel max rand calls).1 ∧ (randLevel max rand calls).1 ≤ max ∧
    calls ≤ (randLevel max rand calls).2 ∧
    (randLevel max rand calls).2 ≤ calls + max.toNat := by
  obtain ⟨m, rfl⟩ := Int.eq_ofNat_of_zero_le hmax
  have hm : ((m : Int) - 0).toNat = m := by simp
  refine ⟨?_, ?_, ?_⟩
  · intro t htrue hfalse
    rw [randLevel, hm, randLevelLoop_stop rand m 0 calls t htrue hfalse]
    refine Prod.ext ?_ ?_
    · simp only []; omega
    · simp only []; omega
  · intro htrue
    rw [randLevel, hm, randLevelLoop_all rand m 0 calls (fun j hj => htrue j (by omega))]
    simp
  · have := randLevelLoop_bounds rand m 0 calls
    rw [randLevel, hm]
    simp only [Int.toNat_ofNat]
    omega

theorem randLevel_spec_witness :
    (0 : Int) ≤ 3 ∧ randLevel 3 (fun n => decide (n < 2)) 0 = (2, 3) ∧
      randLevel 3 (fun n => decide (n < 7)) 0 = (3, 3) :=
  ⟨by decide,
   (randLevel_spec 3 (fun n => decide (n < 2)) 0 (by decide)).1 2 (by decide) (by decide),
   (randLevel_spec 3 (fun n => decide (n < 7)) 0 (by decide)).2.1
     (by intro j hj; have : j < 3 := by omega
         interval_cases j <;> decide)⟩

/-! ## Reading and writing the heap -/

theorem getIdx_nat {β : Type} (l : List β) (i : Nat) (x : β) (hx : l[i]? = some x) :
    getIdx l (i : Int) = .ok x := by
  simp [getIdx, hx]

theorem setIdx_nat {β : Type} (l : List β) (i : Nat) (x : β) (hi : i < l.length) :
    setIdx l (i : Int) x = .ok (l.set i x) := by
  simp [setIdx, hi]

theorem link_lt {h : List (Node α)} {i a : Nat} {q : Option Nat} (hl : link h i a = some q) :
    a < h.length := by
  unfold link at hl
  cases hn : h[a]? with
  | none => simp [hn] at hl
  | some n => exact (List.getElem?_eq_some_iff.mp hn).1

theorem deref_of_link {h : List (Node α)} {i a : Nat} {q : Option Nat}
    (hl : link h i a = some q) :
    ∃ n, deref h (some a) = .ok n ∧ n.score = key h a ∧ n.obj = val h a := by
  unfold link at hl
  cases hn : h[a]? with
  | none => simp [hn] at hl
  | some n => exact ⟨n, by simp [deref, hn], by simp [key, hn], by simp [val, hn]⟩

theorem nextOf_of_link {h : List (Node α)} {i a : Nat} {q : Option Nat}
    (hl : link h i a = some q) : nextOf h (some a) (i : Int) = .ok q := by
  unfold link at hl
  cases hn : h[a]? with
  | none => simp [hn] at hl
  | some n =>
    simp only [hn] at hl
    simp [nextOf, deref, hn, getIdx_nat _ _ _ hl]

theorem setNext_of_link {h : List (Node α)} {i a : Nat} {q : Option Nat}
    (hl : link h i a = some q) (r : Option Nat) :
    setNext h (some a) (i : Int) r = .ok (setLink h a i r) := by
  unfold link at hl
  cases hn : h[a]? with
  | none => simp [hn] at hl
  | some n =>
    simp only [hn] at hl
    have hi : i < n.nextNodeByLevel.length := (List.getElem?_eq_some_iff.mp hl).1
    simp [setNext, setLink, hn, setIdx_nat _ _ _ hi]

theorem setObj_of_link {h : List (Node α)} {i a : Nat} {q : Option Nat}
    (hl : link h i a = some q) (v : Option α) :
    setObj h (some a) v = .ok (setVal h a v) := by
  unfold link at hl
  cases hn : h[a]? with
  | none => simp [hn] at hl
  | some n => simp [setObj, setVal, hn]

@[simp] theorem length_setLink (h : List (Node α)) (a i : Nat) (q : Option Nat) :
    (setLink h a i q).length = h.length := by
  unfold setLink; split <;> simp

@[simp] theorem length_setVal (h : List (Node α)) (a : Nat) (v : Option α) :
    (setVal h a v).length = h.length := by
  unfold setVal; split <;> simp

theorem link_setLink (h : List (Node α)) (a i : Nat) (r : Option Nat) (j b : Nat) :
    link (setLink h a i r) j b =
      if b = a ∧ j = i ∧ (link h i a).isSome then some r else link h j b := by
  unfold setLink
  cases hn : h[a]? with
  | none =>
    have : link h i a = none := by simp [link, hn]
    simp [this]
  | some n =>
    have ha : a < h.length := (List.getElem?_eq_some_iff.mp hn).1
    simp only
    by_cases hb : b = a
    · subst hb
      by_cases hj : j = i
      · subst hj
        simp only [link, hn, List.getElem?_set_self ha, true_and]
        by_cases hi : j < n.nextNodeByLevel.length
        · simp [List.getElem?_set_self hi, List.getElem?_eq_getElem hi]
        · have h1 : n.nextNodeByLevel[j]? = none := List.getElem?_eq_none (by omega)
          simp [h1, List.getElem?_eq_none]
          omega
      · simp only [link, hn, List.getElem?_set_self ha]
        rw [List.getElem?_set_ne (Ne.symm hj)]
        simp [hj]
    · simp only [link]
      rw [List.getElem?_set_ne (Ne.symm hb)]
      simp [hb]

theorem key_setLink (h : List (Node α)) (a i : Nat) (r : Option Nat) (b : Nat) :
    key (setLink h a i r) b = key h b := by
  unfold setLink
  cases hn : h[a]? with
  | none => rfl
  | some n =>
    have ha : a < h.length := (List.getElem?_eq_some_iff.mp hn).1
    simp only [key]
    by_cases hb : b = a
    · subst hb; simp [hn, List.getElem?_set_self ha]
    · rw [List.getElem?_set_ne (Ne.symm hb)]

theorem val_setLink (h : List (Node α)) (a i : Nat) (r : Option Nat) (b : Nat) :
    val (setLink h a i r) b = val h b := by
  unfold setLink
  cases hn : h[a]? with
  | none => rfl
  | some n =>
    have ha : a < h.length := (List.getElem?_eq_some_iff.mp hn).1
    simp only [val]
    by_cases hb : b = a
    · subst hb; simp [hn, List.getElem?_set_self ha]
    · rw [List.getElem?_set_ne (Ne.symm hb)]

theorem link_setVal (h : List (Node α)) (a : Nat) (v : Option α) (j b : Nat) :
    link (setVal h a v) j b = link h j b := by
  unfold setVal
  cases hn : h[a]? with
  | none => rfl
  | some n =>
    have ha : a < h.length := (List.getElem?_eq_some_iff.mp hn).1
    simp only [link]
    by_cases hb : b = a
    · subst hb; simp [hn, List.getElem?_set_self ha]
    · rw [List.getElem?_set_ne (Ne.symm hb)]

theorem key_setVal (h : List (Node α)) (a : Nat) (v : Option α) (b : Nat) :
    key (setVal h a v) b = key h b := by
  unfold setVal
  cases hn : h[a]? with
  | none => rfl
  | some n =>
    have ha : a < h.length := (List.getElem?_eq_some_iff.mp hn).1
    simp only [key]
    by_cases hb : b = a
    · subst hb; simp [hn, List.getElem?_set_self ha]
    · rw [List.getElem?_set_ne (Ne.symm hb)]

theorem val_setVal (h : List (Node α)) (a : Nat) (v : Option α) (b : Nat) :
    val (setVal h a v) b = if b = a ∧ a < h.length then v else val h b := by
  unfold setVal
  cases hn : h[a]? with
  | none =>
    have : ¬ a < h.length := by
      intro hlt
      rw [List.getElem?_eq_getElem hlt] at hn
      exact Option.noConfusion hn
    simp [this]
  | some n =>
    have ha : a < h.length := (List.getElem?_eq_some_iff.mp hn).1
    simp only [val]
    by_cases hb : b = a
    · subst hb; simp [List.getElem?_set_self ha, ha]
    · rw [List.getElem?_set_ne (Ne.symm hb)]
      simp [hb]

/-! ## Chains -/

theorem below_append_notBelow (h : List (Node α)) (score : Int) (l : List Nat) :
    below h score l ++ notBelow h score l = l :=
  List.takeWhile_append_dropWhile _ l

theorem lastFrom_append (a b : Nat) (l1 l2 : List Nat) :
    lastFrom a (l1 ++ b :: l2) = lastFrom b l2 := by
  induction l1 generalizing a with
  | nil => rfl
  | cons c l1 ih => exact ih c

theorem lastFrom_mem (a : Nat) (l : List Nat) : lastFrom a l ∈ a :: l := by
  induction l generalizing a with
  | nil => simp [lastFrom]
  | cons b l ih =>
    have := ih b
    simp only [lastFrom]
    exact List.mem_cons_of_mem _ this

theorem path_link {h : List (Node α)} {i : Nat} :
    ∀ {l : List Nat} {a : Nat}, Path h i a l →
      ∀ b, b ∈ a :: l → ∃ q, link h i b = some q := by
  intro l
  induction l with
  | nil =>
    intro a hp b hb
    simp only [List.mem_singleton] at hb
    subst hb
    exact ⟨none, hp⟩
  | cons c l ih =>
    intro a hp b hb
    rcases List.mem_cons.mp hb with hb | hb
    · subst hb
      exact ⟨some c, hp.1⟩
    · exact ih hp.2 b hb

theorem path_lt {h : List (Node α)} {i : Nat} {l : List Nat} {a : Nat} (hp : Path h i a l) :
    ∀ b, b ∈ a :: l → b < h.length := by
  intro b hb
  obtain ⟨q, hq⟩ := path_link hp b hb
  exact link_lt hq

theorem path_congr {h h1 : List (Node α)} {i : Nat} :
    ∀ {l : List Nat} {a : Nat}, (∀ b, b ∈ a :: l → link h1 i b = link h i b) →
      Path h i a l → Path h1 i a l := by
  intro l
  induction l with
  | nil =>
    intro a heq hp
    show link h1 i a = some none
    rw [heq a (List.mem_singleton.mpr rfl)]
    exact hp
  | cons c l ih =>
    intro a heq hp
    refine ⟨?_, ih (fun b hb => heq b (List.mem_cons_of_mem _ hb)) hp.2⟩
    rw [heq a (List.mem_cons_self _ _)]
    exact hp.1

theorem path_suffix {h : List (Node α)} {i : Nat} :
    ∀ {l1 : List Nat} {a b : Nat} {l2 : List Nat},
      Path h i a (l1 ++ b :: l2) → Path h i b l2 := by
  intro l1
  induction l1 with
  | nil => intro a b l2 hp; exact hp.2
  | cons c l1 ih => intro a b l2 hp; exact ih hp.2

theorem path_last_link {h : List (Node α)} {i : Nat} :
    ∀ {l1 : List Nat} {a : Nat} {l2 : List Nat},
      Path h i a (l1 ++ l2) → link h i (lastFrom a l1) = some l2.head? := by
  intro l1
  induction l1 with
  | nil =>
    intro a l2 hp
    cases l2 with
    | nil => exact hp
    | cons b l2 => exact hp.1
  | cons c l1 ih => intro a l2 hp; exact ih hp.2

theorem path_unique {h : List (Node α)} {i : Nat} :
    ∀ {l1 l2 : List Nat} {a : Nat}, Path h i a l1 → Path h i a l2 → l1 = l2 := by
  intro l1
  induction l1 with
  | nil =>
    intro l2 a h1 h2
    cases l2 with
    | nil => rfl
    | cons b l2 =>
      have := h1.symm.trans h2.1
      simp at this
  | cons c l1 ih =>
    intro l2 a h1 h2
    cases l2 with
    | nil =>
      have := h1.1.symm.trans h2
      simp at this
    | cons b l2 =>
      have hcb : some (some c) = some (some b) := h1.1.symm.trans h2.1
      have hcb1 : c = b := by simpa using hcb
      subst hcb1
      rw [ih h1.2 h2.2]

/-- Splicing a fresh node `nw` after the last node of `a :: l1`. -/
theorem path_splice {h h1 : List (Node α)} {i nw : Nat} :
    ∀ {l1 : List Nat} {a : Nat} {l2 : List Nat}, Path h i a (l1 ++ l2) →
      (a :: (l1 ++ l2)).Nodup → nw ∉ a :: (l1 ++ l2) →
      link h1 i (lastFrom a l1) = some (some nw) →
      link h1 i nw = link h i (lastFrom a l1) →
      (∀ b, b ∈ a :: (l1 ++ l2) → b ≠ lastFrom a l1 → link h1 i b = link h i b) →
      Path h1 i a (l1 ++ nw :: l2) := by
  intro l1
  induction l1 with
  | nil =>
    intro a l2 hp hnd hnw hpred hnew hframe
    simp only [lastFrom, List.nil_append] at *
    refine ⟨hpred, ?_⟩
    have ha : a ∉ l2 := (List.nodup_cons.mp hnd).1
    cases l2 with
    | nil =>
      show link h1 i nw = some none
      rw [hnew]; exact hp
    | cons b l2 =>
      refine ⟨by rw [hnew]; exact hp.1, ?_⟩
      refine path_congr (fun c hc => hframe c (List.mem_cons_of_mem _ hc) ?_) hp.2
      rintro rfl; exact ha hc
  | cons c l1 ih =>
    intro a l2 hp hnd hnw hpred hnew hframe
    simp only [lastFrom, List.cons_append] at *
    have hnd1 := List.nodup_cons.mp hnd
    refine ⟨?_, ih hp.2 hnd1.2 (fun hm => hnw (List.mem_cons_of_mem _ hm)) hpred hnew
      (fun b hb => hframe b (List.mem_cons_of_mem _ hb))⟩
    rw [hframe a (List.mem_cons_self _ _) ?_]
    · exact hp.1
    · intro hal
      apply hnd1.1
      have hm := lastFrom_mem c l1
      rw [← hal] at hm
      rcases List.mem_cons.mp hm with hm | hm
      · rw [hm]; exact List.mem_cons_self _ _
      · exact List.mem_cons_of_mem _ (List.mem_append_left _ hm)

/-- Unlinking the node `t` that follows the last node of `a :: l1`. -/
theorem path_unlink {h h1 : List (Node α)} {i t : Nat} :
    ∀ {l1 : List Nat} {a : Nat} {l2 : List Nat}, Path h i a (l1 ++ t :: l2) →
      (a :: (l1 ++ t :: l2)).Nodup →
      link h1 i (lastFrom a l1) = link h i t →
      (∀ b, b ∈ a :: (l1 ++ t :: l2) → b ≠ lastFrom a l1 → link h1 i b = link h i b) →
      Path h1 i a (l1 ++ l2) := by
  intro l1
  induction l1 with
  | nil =>
    intro a l2 hp hnd hpred hframe
    simp only [lastFrom, List.nil_append] at *
    have hnd1 := List.nodup_cons.mp hnd
    have ha : a ∉ l2 := fun hm => hnd1.1 (List.mem_cons_of_mem _ hm)
    cases l2 with
    | nil =>
      show link h1 i a = some none
      rw [hpred]; exact hp.2
    | cons b l2 =>
      refine ⟨by rw [hpred]; exact hp.2.1, ?_⟩
      refine path_congr (fun c hc => hframe c
        (List.mem_cons_of_mem _ (List.mem_cons_of_mem _ hc)) ?_) hp.2.2
      rintro rfl; exact ha hc
  | cons c l1 ih =>
    intro a l2 hp hnd hpred hframe
    simp only [lastFrom, List.cons_append] at *
    have hnd1 := List.nodup_cons.mp hnd
    refine ⟨?_, ih hp.2 hnd1.2 hpred (fun b hb => hframe b (List.mem_cons_of_mem _ hb))⟩
    rw [hframe a (List.mem_cons_self _ _) ?_]
    · exact hp.1
    · intro hal
      apply hnd1.1
      have hm := lastFrom_mem c l1
      rw [← hal] at hm
      rcases List.mem_cons.mp hm with hm | hm
      · rw [hm]; exact List.mem_cons_self _ _
      · exact List.mem_cons_of_mem _ (List.mem_append_left _ hm)

theorem length_le_of_nodup_lt {l : List Nat} {n : Nat} (hnd : l.Nodup)
    (hlt : ∀ b, b ∈ l → b < n) : l.length ≤ n := by
  have h1 : l.toFinset ⊆ Finset.range n := by
    intro b hb
    exact Finset.mem_range.mpr (hlt b (List.mem_toFinset.mp hb))
  have h2 := Finset.card_le_card h1
  rwa [List.toFinset_card_of_nodup hnd, Finset.card_range] at h2

theorem path_length_le {h : List (Node α)} {i : Nat} {l : List Nat} {a : Nat}
    (hp : Path h i a l) (hnd : (a :: l).Nodup) : l.length + 1 ≤ h.length :=
  length_le_of_nodup_lt hnd (path_lt hp)

/-- The inner loop of `Insert` stops at the last node of the chain whose key is below
`score`. -/
theorem advance_path {h : List (Node α)} {i : Nat} (score : Int) :
    ∀ {l : List Nat} {a : Nat} (fuel : Nat), Path h i a l → l.length < fuel →
      advance h (i : Int) score fuel (some a) = .ok (some (lastFrom a (below h score l))) := by
  intro l
  induction l with
  | nil =>
    intro a fuel hp hf
    obtain ⟨f, rfl⟩ : ∃ f, fuel = f + 1 := ⟨fuel - 1, by simp at hf; omega⟩
    have hp1 : link h i a = some none := hp
    simp [advance, nextOf_of_link hp1, below, lastFrom]
  | cons b l ih =>
    intro a fuel hp hf
    obtain ⟨f, rfl⟩ : ∃ f, fuel = f + 1 := ⟨fuel - 1, by simp at hf; omega⟩
    obtain ⟨q, hq⟩ := path_link hp.2 b (List.mem_cons_self _ _)
    obtain ⟨nb, hnb, hsc, _⟩ := deref_of_link hq
    simp only [advance, nextOf_of_link hp.1, hnb, hsc]
    by_cases hlt : key h b < score
    · rw [if_pos hlt, ih f hp.2 (by simp at hf; omega)]
      simp [below, List.takeWhile_cons, hlt, lastFrom]
    · rw [if_neg hlt]
      simp [below, List.takeWhile_cons, hlt, lastFrom]

/-! ## Sorted chains -/

theorem mem_below {h : List (Node α)} {score : Int} {l : List Nat} {x : Nat}
    (hx : x ∈ below h score l) : x ∈ l ∧ key h x < score := by
  refine ⟨(List.takeWhile_sublist _).subset hx, ?_⟩
  have := List.mem_takeWhile_imp hx
  simpa using this

theorem below_eq_filter {h : List (Node α)} {score : Int} {l : List Nat} (hs : Sorted h l) :
    below h score l = l.filter (fun a => decide (key h a < score)) := by
  induction l with
  | nil => rfl
  | cons a l ih =>
    have hs1 := List.pairwise_cons.mp hs
    by_cases hlt : key h a < score
    · simp only [below, List.takeWhile_cons, hlt, decide_True, List.filter_cons, if_true]
      rw [← ih hs1.2]; rfl
    · simp only [below, List.takeWhile_cons, hlt, decide_False, List.filter_cons]
      symm
      simp only [Bool.false_eq_true, if_false]
      rw [List.filter_eq_nil_iff]
      intro b hb
      have := hs1.1 b hb
      simp only [decide_eq_true_eq]
      omega

theorem notBelow_eq_filter {h : List (Node α)} {score : Int} {l : List Nat} (hs : Sorted h l) :
    notBelow h score l = l.filter (fun a => decide (score ≤ key h a)) := by
  induction l with
  | nil => rfl
  | cons a l ih =>
    have hs1 := List.pairwise_cons.mp hs
    by_cases hlt : key h a < score
    · have hle : ¬ score ≤ key h a := by omega
      simp only [notBelow, List.dropWhile_cons, hlt, decide_True, List.filter_cons, if_true, hle,
        decide_False, Bool.false_eq_true, if_false]
      rw [← ih hs1.2]; rfl
    · have hle : score ≤ key h a := by omega
      simp only [notBelow, List.dropWhile_cons, hlt, decide_False, List.filter_cons, hle,
        decide_True, if_true, Bool.false_eq_true, if_false]
      congr 1
      symm
      rw [List.filter_eq_self]
      intro b hb
      have := hs1.1 b hb
      simp only [decide_eq_true_eq]
      omega

theorem mem_notBelow {h : List (Node α)} {score : Int} {l : List Nat} (hs : Sorted h l) {x : Nat}
    (hx : x ∈ notBelow h score l) : x ∈ l ∧ score ≤ key h x := by
  rw [notBelow_eq_filter hs, List.mem_filter] at hx
  simpa using hx

theorem sorted_nodup {h : List (Node α)} {l : List Nat} (hs : Sorted h l) : l.Nodup := by
  refine List.Pairwise.imp ?_ hs
  intro a b hab heq
  rw [heq] at hab
  omega

theorem sorted_unique {h : List (Node α)} {l : List Nat} (hs : Sorted h l) {x y : Nat}
    (hx : x ∈ l) (hy : y ∈ l) (hk : key h x = key h y) : x = y := by
  induction l with
  | nil => simp at hx
  | cons a l ih =>
    have hs1 := List.pairwise_cons.mp hs
    rcases List.mem_cons.mp hx with hx | hx <;> rcases List.mem_cons.mp hy with hy | hy
    · rw [hx, hy]
    · have := hs1.1 y hy; rw [← hx] at this; omega
    · have := hs1.1 x hx; rw [← hy] at this; omega
    · exact ih hs1.2 hx hy

theorem sorted_congr {h h1 : List (Node α)} {l : List Nat}
    (hk : ∀ b, b ∈ l → key h1 b = key h b) (hs : Sorted h l) : Sorted h1 l := by
  induction l with
  | nil => exact List.Pairwise.nil
  | cons a l ih =>
    have hs1 := List.pairwise_cons.mp hs
    refine List.pairwise_cons.mpr ⟨?_, ih (fun b hb => hk b (List.mem_cons_of_mem _ hb)) hs1.2⟩
    intro b hb
    rw [hk a (List.mem_cons_self _ _), hk b (List.mem_cons_of_mem _ hb)]
    exact hs1.1 b hb

theorem below_congr {h h1 : List (Node α)} {score : Int} {l : List Nat}
    (hk : ∀ b, b ∈ l → key h1 b = key h b) : below h1 score l = below h score l := by
  induction l with
  | nil => rfl
  | cons a l ih =>
    have ha := hk a (List.mem_cons_self _ _)
    have ih1 := ih (fun b hb => hk b (List.mem_cons_of_mem _ hb))
    simp only [below, List.takeWhile_cons, ha] at ih1 ⊢
    rw [ih1]

theorem notBelow_congr {h h1 : List (Node α)} {score : Int} {l : List Nat}
    (hk : ∀ b, b ∈ l → key h1 b = key h b) : notBelow h1 score l = notBelow h score l := by
  induction l with
  | nil => rfl
  | cons a l ih =>
    have ha := hk a (List.mem_cons_self _ _)
    have ih1 := ih (fun b hb => hk b (List.mem_cons_of_mem _ hb))
    simp only [notBelow, List.dropWhile_cons, ha] at ih1 ⊢
    rw [ih1]

/-- In a sorted chain, the walk from a node whose key is below `score` ends where the walk
from the head ends. -/
theorem below_split {h : List (Node α)} {score : Int} {l1 l2 : List Nat} {p : Nat}
    (hs : Sorted h (l1 ++ p :: l2)) (hp : key h p < score) :
    below h score (l1 ++ p :: l2) = l1 ++ p :: below h score l2 ∧
      notBelow h score (l1 ++ p :: l2) = notBelow h score l2 := by
  induction l1 with
  | nil =>
    simp [below, notBelow, List.takeWhile_cons, List.dropWhile_cons, hp]
  | cons a l1 ih =>
    have hs1 := List.pairwise_cons.mp hs
    have ha : key h a < score := by
      have := hs1.1 p (by simp)
      omega
    have ih1 := ih hs1.2
    simp only [below, notBelow, List.cons_append, List.takeWhile_cons, List.dropWhile_cons, ha,
      decide_True, if_true] at ih1 ⊢
    exact ⟨by rw [ih1.1], ih1.2⟩

/-- The facts about the walk of level `i` that starts at `p`, the head or a node of the
sorted chain with a key below `score`. -/
theorem start_path {h : List (Node α)} {i : Nat} {score : Int} {l : List Nat} {p : Nat}
    (hp : Path h i 0 l) (hstart : p = 0 ∨ (Sorted h l ∧ p ∈ l ∧ key h p < score)) :
    ∃ l2, Path h i p l2 ∧ l2.length ≤ l.length ∧
      lastFrom p (below h score l2) = lastFrom 0 (below h score l) ∧
      notBelow h score l2 = notBelow h score l := by
  rcases hstart with rfl | ⟨hs, hmem, hlt⟩
  · exact ⟨l, hp, le_refl _, rfl, rfl⟩
  · obtain ⟨l1, l2, rfl⟩ := List.append_of_mem hmem
    refine ⟨l2, path_suffix hp, by simp; omega, ?_, ?_⟩
    · rw [(below_split hs hlt).1, lastFrom_append]
    · rw [(below_split hs hlt).2]

/-! ## The search of `Insert` -/

theorem nextOf_path_head {h : List (Node α)} {i : Nat} {a : Nat} {l : List Nat}
    (hp : Path h i a l) : nextOf h (some a) (i : Int) = .ok l.head? := by
  cases l with
  | nil => exact nextOf_of_link hp
  | cons b l => exact nextOf_of_link hp.1

theorem insertSearch_spec {h : List (Node α)} {c : Nat → List Nat} {score : Int} (K : Nat) :
    ∀ (n : Nat) (pre : List (Option Nat)) (p : Nat),
      (∀ i, i < n → Path h i 0 (c i)) → (∀ i, i < n → (0 :: c i).Nodup) →
      (∀ i, i < n → Sorted h (c i)) → (∀ i, i + 1 < n → (c (i + 1)).Sublist (c i)) →
      pre.length = K → n < K → pre[n]? = some (some p) →
      (∀ i, i + 1 = n → (p = 0 ∨ (p ∈ c i ∧ key h p < score))) →
      ∃ pre1, insertSearch h score n pre = .ok pre1 ∧ pre1.length = K ∧
        (∀ j, n ≤ j → pre1[j]? = pre[j]?) ∧
        (∀ j, j < n → pre1[j]? = some (some (lastFrom 0 (below h score (c j))))) := by
  intro n
  induction n with
  | zero =>
    intro pre p _ _ _ _ hlen _ _ _
    exact ⟨pre, rfl, hlen, fun _ _ => rfl, fun j hj => absurd hj (Nat.not_lt_zero j)⟩
  | succ n ih =>
    intro pre p hpath hnd hsort hsub hlen hK hpre hstart
    obtain ⟨l2, hp2, hlen2, hlast, _⟩ :=
      start_path (hpath n (Nat.lt_succ_self n))
        ((hstart n rfl).imp id (fun x => ⟨hsort n (Nat.lt_succ_self n), x⟩))
    have hcast : ((n : Int) + 1) = ((n + 1 : Nat) : Int) := by push_cast; rfl
    have hfuel : l2.length < h.length + 1 := by
      have := path_length_le (hpath n (Nat.lt_succ_self n)) (hnd n (Nat.lt_succ_self n))
      omega
    have hq : ∃ q, q = lastFrom 0 (below h score (c n)) := ⟨_, rfl⟩
    obtain ⟨q, hqdef⟩ := hq
    have hset : setIdx pre (n : Int) (some q) = .ok (pre.set n (some q)) :=
      setIdx_nat _ _ _ (by omega)
    have hstep : insertSearch h score (n + 1) pre = insertSearch h score n (pre.set n (some q)) := by
      rw [insertSearch, hcast, getIdx_nat _ _ _ hpre]
      simp only [nextOf_path_head hp2]
      cases l2 with
      | nil =>
        have : q = p := by rw [hqdef, ← hlast]; rfl
        rw [this] at hset
        simp only [List.head?_nil, hset, this]
      | cons b l2 =>
        have hadv := advance_path score (h.length + 1) hp2 hfuel
        rw [hlast, ← hqdef] at hadv
        simp only [List.head?_cons, hadv, hset]
    have hqmem : q ∈ 0 :: below h score (c n) := by rw [hqdef]; exact lastFrom_mem _ _
    obtain ⟨pre1, hrun, hlen1, hhi, hlo⟩ := ih (pre.set n (some q)) q
      (fun i hi => hpath i (by omega)) (fun i hi => hnd i (by omega))
      (fun i hi => hsort i (by omega)) (fun i hi => hsub i (by omega))
      (by simp [hlen]) (by omega)
      (by rw [List.getElem?_set_self (by omega)])
      (by
        intro i hi
        rcases List.mem_cons.mp hqmem with h0 | hm
        · exact Or.inl h0
        · have := mem_below hm
          refine Or.inr ⟨?_, this.2⟩
          have hs := hsub i (by omega)
          rw [hi] at hs
          exact hs.subset this.1)
    refine ⟨pre1, by rw [hstep, hrun], hlen1, ?_, ?_⟩
    · intro j hj
      rw [hhi j (by omega), List.getElem?_set_ne (by omega)]
    · intro j hj
      rcases Nat.lt_succ_iff_lt_or_eq.mp hj with hlt | heq
      · exact hlo j hlt
      · subst heq
        rw [hhi j (le_refl _), List.getElem?_set_self (by omega), hqdef]

/-! ## Allocation and the splice loop of `Insert` -/

theorem shape_setLink {M : Nat} {h : List (Node α)} (hs : Shape M h) (a i : Nat)
    (q : Option Nat) : Shape M (setLink h a i q) := by
  unfold setLink
  cases hn : h[a]? with
  | none => exact hs
  | some n =>
    intro m hm
    rcases List.mem_or_eq_of_mem_set hm with hm | hm
    · exact hs m hm
    · have := hs n (List.getElem?_mem hn)
      subst hm
      simpa using this

theorem shape_setVal {M : Nat} {h : List (Node α)} (hs : Shape M h) (a : Nat)
    (v : Option α) : Shape M (setVal h a v) := by
  unfold setVal
  cases hn : h[a]? with
  | none => exact hs
  | some n =>
    intro m hm
    rcases List.mem_or_eq_of_mem_set hm with hm | hm
    · exact hs m hm
    · have := hs n (List.getElem?_mem hn)
      subst hm
      simpa using this

theorem shape_append {M : Nat} {h : List (Node α)} (hs : Shape M h) (n : Node α)
    (hn : 0 ≤ n.level ∧ n.level ≤ (M : Int) ∧ n.nextNodeByLevel.length = n.level.toNat + 1) :
    Shape M (h ++ [n]) := by
  intro m hm
  rcases List.mem_append.mp hm with hm | hm
  · exact hs m hm
  · rw [List.mem_singleton.mp hm]; exact hn

theorem link_append_old (h : List (Node α)) (n : Node α) (j : Nat) {b : Nat}
    (hb : b < h.length) : link (h ++ [n]) j b = link h j b := by
  simp only [link, List.getElem?_append_left hb]

theorem key_append_old (h : List (Node α)) (n : Node α) {b : Nat}
    (hb : b < h.length) : key (h ++ [n]) b = key h b := by
  simp only [key, List.getElem?_append_left hb]

theorem val_append_old (h : List (Node α)) (n : Node α) {b : Nat}
    (hb : b < h.length) : val (h ++ [n]) b = val h b := by
  simp only [val, List.getElem?_append_left hb]

theorem link_append_new (h : List (Node α)) (n : Node α) (j : Nat) :
    link (h ++ [n]) j h.length = n.nextNodeByLevel[j]? := by
  simp [link]

theorem key_append_new (h : List (Node α)) (n : Node α) : key (h ++ [n]) h.length = n.score := by
  simp [key]

theorem val_append_new (h : List (Node α)) (n : Node α) : val (h ++ [n]) h.length = n.obj := by
  simp [val]

theorem spliceLoop_spec {pre : List (Option Nat)} {nw : Nat} (P : Nat → Nat) :
    ∀ (n i : Nat) (h : List (Node α)),
      (∀ j, i ≤ j → j < i + n → pre[j]? = some (some (P j)) ∧ (link h j (P j)).isSome ∧
        (link h j nw).isSome ∧ P j ≠ nw) →
      ∃ h1, spliceLoop pre (some nw) n (i : Int) h = .ok h1 ∧ h1.length = h.length ∧
        (∀ b, key h1 b = key h b) ∧ (∀ b, val h1 b = val h b) ∧
        (∀ M, Shape M h → Shape M h1) ∧
        ∀ j b, link h1 j b =
          if i ≤ j ∧ j < i + n then
            (if b = P j then some (some nw) else if b = nw then link h j (P j) else link h j b)
          else link h j b := by
  intro n
  induction n with
  | zero =>
    intro i h _
    refine ⟨h, rfl, rfl, fun _ => rfl, fun _ => rfl, fun _ hs => hs, ?_⟩
    intro j b
    rw [if_neg (by omega)]
  | succ n ih =>
    intro i h hpre
    obtain ⟨hget, hlp, hln, hne⟩ := hpre i (le_refl _) (by omega)
    obtain ⟨old, hold⟩ := Option.isSome_iff_exists.mp hlp
    have hln1 : (link (setLink h (P i) i (some nw)) i nw).isSome := by
      rw [link_setLink, if_neg (fun hc => hne hc.1.symm)]
      exact hln
    obtain ⟨oldn, holdn⟩ := Option.isSome_iff_exists.mp hln1
    have hcast : ((i : Int) + 1) = ((i + 1 : Nat) : Int) := by push_cast; rfl
    have hstep : spliceLoop pre (some nw) (n + 1) (i : Int) h =
        spliceLoop pre (some nw) n ((i + 1 : Nat) : Int)
          (setLink (setLink h (P i) i (some nw)) nw i old) := by
      rw [spliceLoop, getIdx_nat _ _ _ hget]
      simp only [nextOf_of_link hold, setNext_of_link hold, setNext_of_link holdn, hcast]
    have hlink2 : ∀ j b, link (setLink (setLink h (P i) i (some nw)) nw i old) j b =
        if j = i then
          (if b = P i then some (some nw) else if b = nw then some old else link h j b)
        else link h j b := by
      intro j b
      have e1 : link (setLink (setLink h (P i) i (some nw)) nw i old) j b =
          if b = nw ∧ j = i then some old else link (setLink h (P i) i (some nw)) j b := by
        rw [link_setLink]; simp only [hln1, and_true]
      have e2 : link (setLink h (P i) i (some nw)) j b =
          if b = P i ∧ j = i then some (some nw) else link h j b := by
        rw [link_setLink]; simp only [hlp, and_true]
      rw [e1, e2]
      by_cases hj : j = i
      · by_cases hb : b = P i
        · have : b ≠ nw := by rw [hb]; exact hne
          simp [hj, hb, hne]
        · by_cases hb2 : b = nw
          · simp [hj, hb2, Ne.symm hne]
          · simp [hj, hb, hb2]
      · simp [hj]
    obtain ⟨h1, hrun, hlen, hkey, hval, hshape, hlink⟩ :=
      ih (i + 1) (setLink (setLink h (P i) i (some nw)) nw i old) (by
        intro j hj1 hj2
        obtain ⟨a1, a2, a3, a4⟩ := hpre j (by omega) (by omega)
        refine ⟨a1, ?_, ?_, a4⟩
        · rw [hlink2, if_neg (by omega)]; exact a2
        · rw [hlink2, if_neg (by omega)]; exact a3)
    refine ⟨h1, by rw [hstep, hrun], by simp [hlen], ?_, ?_, ?_, ?_⟩
    · intro b; rw [hkey, key_setLink, key_setLink]
    · intro b; rw [hval, val_setLink, val_setLink]
    · intro M hs; exact hshape M (shape_setLink (shape_setLink hs _ _ _) _ _ _)
    · intro j b
      rw [hlink]
      by_cases hj : j = i
      · subst hj
        rw [if_neg (by omega), if_pos (by omega), hlink2, if_pos rfl, hold]
      · by_cases hr : i + 1 ≤ j ∧ j < i + 1 + n
        · have hr2 : i ≤ j ∧ j < i + (n + 1) := by omega
          rw [if_pos hr, if_pos hr2, hlink2, if_neg hj, hlink2, if_neg hj]
        · have hr2 : ¬ (i ≤ j ∧ j < i + (n + 1)) := by omega
          rw [if_neg hr, if_neg hr2, hlink2, if_neg hj]

/-! ## `Insert` keeps the invariant -/

theorem left_append_right (M : Nat) (h : List (Node α)) (c : Nat → List Nat) (score : Int)
    (j : Nat) : leftAt M h c score j ++ rightAt M h c score j = c j := by
  unfold leftAt rightAt
  split
  · exact below_append_notBelow h score (c j)
  · rfl

theorem predAt_eq (M : Nat) (h : List (Node α)) (c : Nat → List Nat) (score : Int) (j : Nat) :
    predAt M h c score j = lastFrom 0 (leftAt M h c score j) := by
  unfold predAt leftAt
  split <;> rfl

theorem predAt_mem (M : Nat) (h : List (Node α)) (c : Nat → List Nat) (score : Int) (j : Nat) :
    predAt M h c score j ∈ 0 :: c j := by
  rw [predAt_eq, ← left_append_right M h c score j]
  rcases List.mem_cons.mp (lastFrom_mem 0 (leftAt M h c score j)) with hm | hm
  · rw [hm]; exact List.mem_cons_self _ _
  · exact List.mem_cons_of_mem _ (List.mem_append_left _ hm)

theorem Inv.heap_pos {s : SkipList α} {M : Nat} {c : Nat → List Nat} (hinv : Inv s M c) :
    0 < s.heap.length := by
  obtain ⟨q, hq⟩ := hinv.top
  exact link_lt hq

theorem Inv.link_pred {s : SkipList α} {M : Nat} {c : Nat → List Nat} (hinv : Inv s M c)
    (score : Int) {j : Nat} (hj : j ≤ M) :
    ∃ q, link s.heap j (predAt M s.heap c score j) = some q := by
  exact path_link (hinv.path j hj) _ (predAt_mem M s.heap c score j)

theorem Inv.link_right {s : SkipList α} {M : Nat} {c : Nat → List Nat} (hinv : Inv s M c)
    (score : Int) {j : Nat} (hj : j ≤ M) :
    link s.heap j (predAt M s.heap c score j) = some (rightAt M s.heap c score j).head? := by
  rw [predAt_eq]
  apply path_last_link
  rw [left_append_right]
  exact hinv.path j hj

/-- The search of `Insert` fills `preNodes[j]` with `predAt j` for every `j ≤ M`. -/
theorem insert_pre {s : SkipList α} {M : Nat} {c : Nat → List Nat} (hinv : Inv s M c)
    (score : Int) :
    ∃ pre0 pre1 pre, (∀ j, j ≤ M → pre[j]? = some (some (predAt M s.heap c score j))) ∧
      makeSlice (none : Option Nat) (s.maxLevel + 1) = .ok pre0 ∧
      setIdx pre0 s.maxLevel s.head = .ok pre1 ∧
      insertSearch s.heap score s.maxLevel.toNat pre1 = .ok pre := by
  have hmk : makeSlice (none : Option Nat) (s.maxLevel + 1) =
      .ok (List.replicate (M + 1) none) := by
    rw [hinv.maxLevel_eq]
    have h1 : ¬ ((M : Int) + 1 < 0) := by omega
    have h2 : ((M : Int) + 1).toNat = M + 1 := by omega
    simp only [makeSlice, h1, if_false, h2]
  have hset : setIdx (List.replicate (M + 1) (none : Option Nat)) s.maxLevel s.head =
      .ok ((List.replicate (M + 1) none).set M (some 0)) := by
    rw [hinv.maxLevel_eq, hinv.head_eq]
    exact setIdx_nat _ _ _ (by simp)
  obtain ⟨pre, hrun, _, hhi, hlo⟩ := @insertSearch_spec α s.heap c score
    (M + 1) M ((List.replicate (M + 1) none).set M (some 0)) 0
    (fun i hi => hinv.path i (by omega)) (fun i hi => hinv.nodup i (by omega))
    (fun i hi => hinv.sorted i hi) (fun i hi => hinv.sub i hi)
    (by simp) (by omega) (by rw [List.getElem?_set_self (by simp)])
    (fun i _ => Or.inl rfl)
  have htn : s.maxLevel.toNat = M := by rw [hinv.maxLevel_eq]; simp
  refine ⟨_, _, pre, ?_, hmk, hset, by rw [htn]; exact hrun⟩
  · intro j hj
    rcases Nat.lt_or_ge j M with hlt | hge
    · rw [hlo j hlt]; simp [predAt, hlt]
    · have : j = M := by omega
      subst this
      rw [hhi j (le_refl _), List.getElem?_set_self (by simp)]
      simp [predAt]

theorem Inv.set_val {s : SkipList α} {M : Nat} {c : Nat → List Nat} (hinv : Inv s M c)
    (b : Nat) (v : Option α) : Inv { s with heap := setVal s.heap b v } M c where
  maxLevel_eq := hinv.maxLevel_eq
  head_eq := hinv.head_eq
  tail_eq := hinv.tail_eq
  shape := shape_setVal hinv.shape b v
  top := by
    obtain ⟨q, hq⟩ := hinv.top
    exact ⟨q, by simp only [link_setVal]; exact hq⟩
  path := fun i hi => path_congr (fun _ _ => link_setVal _ _ _ _ _) (hinv.path i hi)
  nodup := hinv.nodup
  sorted := fun i hi => sorted_congr (fun _ _ => key_setVal _ _ _ _) (hinv.sorted i hi)
  sub := hinv.sub

/-- `Insert` of a key that the node after `preNodes[0]` carries: only that node's value
changes, and no coin is drawn. -/
theorem insert_overwrite {s : SkipList α} {M : Nat} {c : Nat → List Nat} (hinv : Inv s M c)
    (score : Int) (v : Option α) (rand : Nat → Bool) (calls : Nat) {b : Nat}
    (hb : (rightAt M s.heap c score 0).head? = some b) (hk : key s.heap b = score) :
    Insert s score v rand calls = .ok ({ s with heap := setVal s.heap b v }, calls) ∧
      Inv { s with heap := setVal s.heap b v } M c := by
  refine ⟨?_, hinv.set_val b v⟩
  obtain ⟨pre0, pre1, pre, hpre, hmk, hset, hsearch⟩ := insert_pre hinv score
  have h0 := hpre 0 (Nat.zero_le _)
  have hnx := hinv.link_right score (j := 0) (by omega)
  rw [hb] at hnx
  have hbmem : b ∈ 0 :: c 0 := by
    refine List.mem_cons_of_mem _ ?_
    rw [← left_append_right M s.heap c score 0]
    exact List.mem_append_right _ (List.mem_of_mem_head? hb)
  obtain ⟨q, hq⟩ := path_link (hinv.path 0 (by omega)) b hbmem
  obtain ⟨nb, hnb, hsc, _⟩ := deref_of_link hq
  have hg : getIdx pre 0 = .ok (some (predAt M s.heap c score 0)) := getIdx_nat _ 0 _ h0
  have hn0 : nextOf s.heap (some (predAt M s.heap c score 0)) 0 = .ok (some b) :=
    nextOf_of_link hnx
  unfold Insert
  simp only [hmk, hset, hsearch, hg, hn0, hnb, hsc, hk, if_true, setObj_of_link hq]

theorem Inv.sub_zero {s : SkipList α} {M : Nat} {c : Nat → List Nat} (hinv : Inv s M c) :
    ∀ j, j < M → (c j).Sublist (c 0) := by
  intro j
  induction j with
  | zero => intro _; exact List.Sublist.refl _
  | succ j ih => intro hj; exact (hinv.sub j hj).trans (ih (by omega))

/-- When the node after `preNodes[0]` does not carry `score`, no node of a sorted chain
does. -/
theorem absent_of_head {h : List (Node α)} {score : Int} {l : List Nat} (hs : Sorted h l)
    (hfresh : ∀ b, (notBelow h score l).head? = some b → key h b ≠ score) :
    ∀ x, x ∈ l → key h x ≠ score := by
  intro x hx hk
  have hxm : x ∈ notBelow h score l := by
    rw [notBelow_eq_filter hs, List.mem_filter]
    exact ⟨hx, by simp [hk]⟩
  have hsn : Sorted h (notBelow h score l) := List.Pairwise.sublist (List.dropWhile_sublist _) hs
  cases hnb : notBelow h score l with
  | nil => rw [hnb] at hxm; simp at hxm
  | cons b r =>
    rw [hnb] at hxm hsn
    have hb1 := hfresh b (by rw [hnb]; rfl)
    have hb2 : score ≤ key h b := (mem_notBelow hs (by rw [hnb]; exact List.mem_cons_self _ _)).2
    rcases List.mem_cons.mp hxm with hxb | hxr
    · rw [hxb] at hk; exact hb1 hk
    · have := (List.pairwise_cons.mp hsn).1 x hxr
      omega

theorem Inv.absent {s : SkipList α} {M : Nat} {c : Nat → List Nat} (hinv : Inv s M c)
    {score : Int}
    (hfresh : ∀ b, (rightAt M s.heap c score 0).head? = some b → key s.heap b ≠ score) :
    ∀ j, j < M → ∀ x, x ∈ c j → key s.heap x ≠ score := by
  intro j hj x hx
  have hM : 0 < M := by omega
  refine absent_of_head (hinv.sorted 0 hM) ?_ x ((hinv.sub_zero j hj).subset hx)
  intro b hb
  apply hfresh b
  simpa [rightAt, hM] using hb

theorem sorted_splice {h h2 : List (Node α)} {score : Int} {l : List Nat} {nw : Nat}
    (hs : Sorted h l) (habs : ∀ x, x ∈ l → key h x ≠ score)
    (hkey : ∀ b, b ∈ l → key h2 b = key h b) (hnew : key h2 nw = score) :
    Sorted h2 (below h score l ++ nw :: notBelow h score l) := by
  have hs2 : Sorted h2 l := sorted_congr hkey hs
  unfold Sorted
  rw [List.pairwise_append]
  refine ⟨List.Pairwise.sublist (List.takeWhile_sublist _) hs2, ?_, ?_⟩
  · refine List.pairwise_cons.mpr ⟨?_, List.Pairwise.sublist (List.dropWhile_sublist _) hs2⟩
    intro b hb
    have hb1 := mem_notBelow hs hb
    have := habs b hb1.1
    rw [hnew, hkey b hb1.1]
    omega
  · intro a ha b hb
    have ha1 := mem_below ha
    rw [hkey a ha1.1]
    rcases List.mem_cons.mp hb with hb | hb
    · rw [hb, hnew]; exact ha1.2
    · have hb1 := mem_notBelow hs hb
      rw [hkey b hb1.1]
      omega

theorem nodup_splice {l1 l2 : List Nat} {nw : Nat} (hnd : (0 :: (l1 ++ l2)).Nodup)
    (hnw : nw ∉ 0 :: (l1 ++ l2)) : (0 :: (l1 ++ nw :: l2)).Nodup := by
  have hperm : (0 :: (l1 ++ nw :: l2)).Perm (nw :: 0 :: (l1 ++ l2)) :=
    ((List.perm_middle : (l1 ++ nw :: l2).Perm (nw :: (l1 ++ l2))).cons 0).trans (List.Perm.swap _ _ _)
  rw [hperm.nodup_iff]
  exact List.nodup_cons.mpr ⟨hnw, hnd⟩

/-- The invariant after a fresh node at address `s.heap.length` has been spliced in at the
levels `0 .. lv`. -/
theorem Inv.splice {s : SkipList α} {M : Nat} {c : Nat → List Nat} (hinv : Inv s M c)
    {score : Int} {h2 : List (Node α)} {lv : Nat}
    (habs : ∀ j, j < M → ∀ x, x ∈ c j → key s.heap x ≠ score)
    (hshape : Shape M h2)
    (hkey : ∀ b, b < s.heap.length → key h2 b = key s.heap b)
    (hknew : key h2 s.heap.length = score)
    (hlink : ∀ j b, b < s.heap.length → link h2 j b =
      if j ≤ lv ∧ b = predAt M s.heap c score j then some (some s.heap.length)
      else link s.heap j b)
    (hlnew : ∀ j, j ≤ lv → link h2 j s.heap.length = link s.heap j (predAt M s.heap c score j)) :
    Inv { s with heap := h2 } M (fun j =>
      if j ≤ lv then
        leftAt M s.heap c score j ++ s.heap.length :: rightAt M s.heap c score j
      else c j) := by
  have hlt : ∀ j, j ≤ M → ∀ b, b ∈ 0 :: c j → b < s.heap.length :=
    fun j hj => path_lt (hinv.path j hj)
  have hnw : ∀ j, j ≤ M → s.heap.length ∉ 0 :: c j :=
    fun j hj hm => Nat.lt_irrefl _ (hlt j hj _ hm)
  refine ⟨hinv.maxLevel_eq, hinv.head_eq, hinv.tail_eq, hshape, ?_, ?_, ?_, ?_, ?_⟩
  · -- top
    obtain ⟨q, hq⟩ := hinv.top
    rw [hlink M 0 hinv.heap_pos]
    split
    · exact ⟨_, rfl⟩
    · exact ⟨q, hq⟩
  · -- path
    intro j hj
    show Path h2 j 0 (if j ≤ lv then
        leftAt M s.heap c score j ++ s.heap.length :: rightAt M s.heap c score j
      else c j)
    by_cases hjl : j ≤ lv
    · rw [if_pos hjl]
      have hpm := predAt_mem M s.heap c score j
      have hplt := hlt j hj _ hpm
      refine path_splice (h := s.heap) ?_ ?_ ?_ ?_ ?_ ?_
      · rw [left_append_right]; exact hinv.path j hj
      · rw [left_append_right]; exact hinv.nodup j hj
      · rw [left_append_right]; exact hnw j hj
      · rw [← predAt_eq, hlink j _ hplt, if_pos ⟨hjl, rfl⟩]
      · rw [← predAt_eq]; exact hlnew j hjl
      · intro b hbm hb1
        rw [← predAt_eq] at hb1
        rw [left_append_right] at hbm
        rw [hlink j b (hlt j hj b hbm), if_neg (fun hc => hb1 hc.2)]
    · rw [if_neg hjl]
      refine path_congr ?_ (hinv.path j hj)
      intro b hb
      rw [hlink j b (hlt j hj b hb), if_neg (fun hc => hjl hc.1)]
  · -- nodup
    intro j hj
    show (0 :: (if j ≤ lv then
        leftAt M s.heap c score j ++ s.heap.length :: rightAt M s.heap c score j
      else c j)).Nodup
    split
    · refine nodup_splice ?_ ?_
      · rw [left_append_right]; exact hinv.nodup j hj
      · rw [left_append_right]; exact hnw j hj
    · exact hinv.nodup j hj
  · -- sorted
    intro j hj
    have hkj : ∀ b, b ∈ c j → key h2 b = key s.heap b :=
      fun b hb => hkey b (hlt j (by omega) b (List.mem_cons_of_mem _ hb))
    show Sorted h2 (if j ≤ lv then
        leftAt M s.heap c score j ++ s.heap.length :: rightAt M s.heap c score j
      else c j)
    split
    · simp only [leftAt, rightAt, hj, if_true]
      exact sorted_splice (hinv.sorted j hj) (habs j hj) hkj hknew
    · exact sorted_congr hkj (hinv.sorted j hj)
  · -- sub
    intro j hj
    have hj0 : j < M := by omega
    have hsub := hinv.sub j hj
    have hb := @below_eq_filter α s.heap score (c j) (hinv.sorted j hj0)
    have hb1 := @below_eq_filter α s.heap score (c (j + 1)) (hinv.sorted (j + 1) hj)
    have hn := @notBelow_eq_filter α s.heap score (c j) (hinv.sorted j hj0)
    have hn1 := @notBelow_eq_filter α s.heap score (c (j + 1)) (hinv.sorted (j + 1) hj)
    simp only [leftAt, rightAt, hj, hj0, if_true]
    by_cases h1 : j + 1 ≤ lv
    · have h0 : j ≤ lv := by omega
      rw [if_pos h1, if_pos h0, hb, hb1, hn, hn1]
      exact (hsub.filter _).append ((hsub.filter _).cons₂ _)
    · rw [if_neg h1]
      split
      · have : (c j).Sublist
            (below s.heap score (c j) ++ s.heap.length :: notBelow s.heap score (c j)) := by
          conv_lhs => rw [← below_append_notBelow s.heap score (c j)]
          exact (List.Sublist.refl _).append (List.sublist_cons_self _ _)
        exact hsub.trans this
      · exact hsub

/-- `Insert` of a key that the node after `preNodes[0]` does not carry: a node is allocated
at the end of the heap and spliced in at the levels `0 .. randLevel`. -/
theorem insert_fresh {s : SkipList α} {M : Nat} {c : Nat → List Nat} (hinv : Inv s M c)
    (score : Int) (v : Option α) (rand : Nat → Bool) (calls : Nat)
    (hfresh : ∀ b, (rightAt M s.heap c score 0).head? = some b → key s.heap b ≠ score) :
    ∃ (s1 : SkipList α) (lv : Nat), (randLevel (M : Int) rand calls).1 = (lv : Int) ∧ lv ≤ M ∧
      Insert s score v rand calls = .ok (s1, (randLevel (M : Int) rand calls).2) ∧
      s1.heap.length = s.heap.length + 1 ∧
      (∀ b, b < s.heap.length → key s1.heap b = key s.heap b ∧ val s1.heap b = val s.heap b) ∧
      key s1.heap s.heap.length = score ∧ val s1.heap s.heap.length = v ∧
      Inv s1 M (fun j =>
        if j ≤ lv then
          leftAt M s.heap c score j ++ s.heap.length :: rightAt M s.heap c score j
        else c j) := by
  obtain ⟨pre0, pre1, pre, hpre, hmk, hset, hsearch⟩ := insert_pre hinv score
  have h0 := hpre 0 (Nat.zero_le _)
  have hnx := hinv.link_right score (j := 0) (by omega)
  have hg : getIdx pre 0 = .ok (some (predAt M s.heap c score 0)) := getIdx_nat _ 0 _ h0
  have hn0 : nextOf s.heap (some (predAt M s.heap c score 0)) 0 =
      .ok (rightAt M s.heap c score 0).head? := nextOf_of_link hnx
  -- the level
  have hbnd := randLevelLoop_bounds rand M 0 calls
  have hrl : randLevel (M : Int) rand calls = randLevelLoop rand M 0 calls := by
    simp [randLevel]
  obtain ⟨lv, hlv⟩ := Int.eq_ofNat_of_zero_le hbnd.1
  rw [← hrl] at hlv hbnd
  have hlvM : lv ≤ M := by omega
  have hsr : s.randLevel rand calls = ((lv : Int), (randLevel (M : Int) rand calls).2) := by
    rw [SkipList.randLevel, hinv.maxLevel_eq, ← hlv]
  -- the allocation
  have hnn : NewNode s.heap score v (lv : Int) =
      .ok (s.heap ++ [(⟨score, v, (lv : Int), List.replicate (lv + 1) none⟩ : Node α)], some s.heap.length) := by
    have h1 : ¬ ((lv : Int) + 1 < 0) := by omega
    have h2 : ((lv : Int) + 1).toNat = lv + 1 := by omega
    simp only [NewNode, makeSlice, h1, if_false, h2]
  -- the splice loop
  have hH := hinv.heap_pos
  obtain ⟨h2, hrun, hlen, hkey, hval, hshape, hlink⟩ :=
    @spliceLoop_spec α pre s.heap.length (predAt M s.heap c score) (lv + 1) 0
      (s.heap ++ [(⟨score, v, (lv : Int), List.replicate (lv + 1) none⟩ : Node α)]) (by
      intro j _ hj
      obtain ⟨q, hq⟩ := hinv.link_pred score (j := j) (by omega)
      have hplt := link_lt hq
      refine ⟨hpre j (by omega), ?_, ?_, by omega⟩
      · rw [link_append_old _ _ _ hplt, hq]; rfl
      · rw [link_append_new]
        simp only [List.getElem?_replicate]
        rw [if_pos (by omega)]; rfl)
  have hsplice : spliceLoop pre (some s.heap.length) ((lv : Int) + 1).toNat 0
      (s.heap ++ [(⟨score, v, (lv : Int), List.replicate (lv + 1) none⟩ : Node α)]) = .ok h2 := by
    have h3 : ((lv : Int) + 1).toNat = lv + 1 := by omega
    rw [h3]
    exact hrun
  refine ⟨{ s with heap := h2 }, lv, hlv, hlvM, ?_, ?_, ?_, ?_, ?_, ?_⟩
  · unfold Insert
    simp only [hmk, hset, hsearch, hg, hn0, hsr, hnn, hsplice]
    cases hr : (rightAt M s.heap c score 0).head? with
    | none => rfl
    | some b =>
      have hbmem : b ∈ 0 :: c 0 := by
        refine List.mem_cons_of_mem _ ?_
        rw [← left_append_right M s.heap c score 0]
        exact List.mem_append_right _ (List.mem_of_mem_head? hr)
      obtain ⟨q, hq⟩ := path_link (hinv.path 0 (by omega)) b hbmem
      obtain ⟨nb, hnb, hsc, _⟩ := deref_of_link hq
      simp only [hnb, hsc, hfresh b hr, if_false]
  · simp [hlen]
  · intro b hb
    rw [hkey, hval, key_append_old _ _ hb, val_append_old _ _ hb]
    exact ⟨rfl, rfl⟩
  · show key h2 s.heap.length = score
    rw [hkey, key_append_new]
  · show val h2 s.heap.length = v
    rw [hval, val_append_new]
  · refine Inv.splice hinv (hinv.absent hfresh) ?_ ?_ ?_ ?_ ?_
    · refine hshape M (shape_append hinv.shape _ ?_)
      refine ⟨by simp, by simp [hlvM], by simp⟩
    · intro b hb
      rw [hkey, key_append_old _ _ hb]
    · rw [hkey, key_append_new]
    · intro j b hb
      rw [hlink]
      by_cases hj : j ≤ lv
      · rw [if_pos ⟨Nat.zero_le _, by omega⟩]
        by_cases hbp : b = predAt M s.heap c score j
        · rw [if_pos hbp, if_pos ⟨hj, hbp⟩]
        · rw [if_neg hbp, if_neg (by omega), if_neg (fun hc => hbp hc.2),
            link_append_old _ _ _ hb]
      · rw [if_neg (by omega), if_neg (fun hc => hj hc.1), link_append_old _ _ _ hb]
    · intro j hj
      obtain ⟨q, hq⟩ := hinv.link_pred score (j := j) (by omega)
      have hplt := link_lt hq
      rw [hlink, if_pos ⟨Nat.zero_le _, by omega⟩, if_neg (by omega), if_pos rfl,
        link_append_old _ _ _ hplt]

/-! ## `Level` -/

theorem topLevel_le (c : Nat → List Nat) : ∀ n, topLevel c n ≤ n := by
  intro n
  induction n with
  | zero => exact le_refl _
  | succ n ih =>
    simp only [topLevel]
    split
    · omega
    · exact le_refl _

theorem topLevel_empty (c : Nat → List Nat) :
    ∀ n i, topLevel c n < i → i ≤ n → c i = [] := by
  intro n
  induction n with
  | zero => intro i h1 h2; simp [topLevel] at h1; omega
  | succ n ih =>
    intro i h1 h2
    simp only [topLevel] at h1
    split at h1
    · rename_i he
      rcases Nat.lt_or_ge i (n + 1) with hlt | hge
      · exact ih i h1 (by omega)
      · have : i = n + 1 := by omega
        rw [this]
        exact List.isEmpty_iff.mp he
    · omega

theorem topLevel_nonempty (c : Nat → List Nat) :
    ∀ n, 0 < topLevel c n → c (topLevel c n) ≠ [] := by
  intro n
  induction n with
  | zero => intro h; simp [topLevel] at h
  | succ n ih =>
    intro h
    simp only [topLevel] at h ⊢
    split
    · rename_i he
      rw [if_pos he] at h
      exact ih h
    · rename_i he
      intro hc
      exact he (List.isEmpty_iff.mpr hc)

theorem levelLoop_spec {h : List (Node α)} {c : Nat → List Nat} :
    ∀ n, (∀ i, 1 ≤ i → i ≤ n → Path h i 0 (c i)) →
      levelLoop h (some 0) n = .ok ((topLevel c n : Nat) : Int) := by
  intro n
  induction n with
  | zero => intro _; rfl
  | succ n ih =>
    intro hp
    have hcast : ((n : Int) + 1) = ((n + 1 : Nat) : Int) := by push_cast; rfl
    have hn := nextOf_path_head (hp (n + 1) (by omega) (le_refl _))
    rw [levelLoop, hcast, hn]
    cases hc : c (n + 1) with
    | nil =>
      simp only [List.head?_nil, topLevel, hc, List.isEmpty_nil, if_true]
      exact ih (fun i h1 h2 => hp i h1 (by omega))
    | cons b l =>
      simp [topLevel, hc]

theorem Inv.level_eq {s : SkipList α} {M : Nat} {c : Nat → List Nat} (hinv : Inv s M c) :
    Level s = .ok ((topLevel c (M - 1) : Nat) : Int) := by
  have h1 : (s.maxLevel - 1).toNat = M - 1 := by rw [hinv.maxLevel_eq]; omega
  rw [Level, h1, hinv.head_eq]
  exact levelLoop_spec (M - 1) (fun i hi1 hi2 => hinv.path i (by omega))

/-! ## The search of `Delete` -/

theorem foundAt_some {h : List (Node α)} {score : Int} {l : List Nat} {b : Nat}
    (hf : foundAt h score l = some b) :
    (notBelow h score l).head? = some b ∧ key h b = score := by
  unfold foundAt at hf
  cases hh : (notBelow h score l).head? with
  | none => simp [hh] at hf
  | some x =>
    simp only [hh] at hf
    by_cases hk : key h x = score
    · simp only [hk, if_true, Option.some.injEq] at hf
      subst hf
      exact ⟨rfl, hk⟩
    · simp [hk] at hf

/-- One level of the search loop of `Delete`: the walk along the chain after `p`, then the
descent to the level below. -/
theorem deleteLoop_level {h : List (Node α)} {i : Nat} (score : Int) :
    ∀ {l : List Nat} {p : Nat} (fuel : Nat) (pre : List (Option Nat)), Path h i p l →
      (below h score l).length < fuel → i < pre.length →
      deleteLoop h score fuel (some p) (i : Int) pre =
        deleteLoop h score (fuel - ((below h score l).length + 1))
          (some (lastFrom p (below h score l))) ((i : Int) - 1)
          (pre.set i (if (foundAt h score l).isSome then some (lastFrom p (below h score l))
            else none)) := by
  intro l
  induction l with
  | nil =>
    intro p fuel pre hp hf hi
    obtain ⟨f, rfl⟩ : ∃ f, fuel = f + 1 := ⟨fuel - 1, by omega⟩
    have hp1 : link h i p = some none := hp
    have hneg : ¬ ((i : Int) < 0) := by omega
    simp [deleteLoop, hneg, nextOf_of_link hp1, below, notBelow, foundAt, lastFrom,
      setIdx_nat _ _ _ hi]
  | cons b l ih =>
    intro p fuel pre hp hf hi
    obtain ⟨f, rfl⟩ : ∃ f, fuel = f + 1 := ⟨fuel - 1, by omega⟩
    obtain ⟨q, hq⟩ := path_link hp.2 b (List.mem_cons_self _ _)
    obtain ⟨nb, hnb, hsc, _⟩ := deref_of_link hq
    have hneg : ¬ ((i : Int) < 0) := by omega
    rw [deleteLoop, if_neg hneg]
    simp only [nextOf_of_link hp.1, hnb, hsc]
    by_cases heq : key h b = score
    · have hlt : ¬ key h b < score := by omega
      simp [heq, below, notBelow, foundAt, lastFrom, List.takeWhile_cons, List.dropWhile_cons,
        setIdx_nat _ _ _ hi]
    · by_cases hgt : key h b > score
      · have hlt : ¬ key h b < score := by omega
        simp [heq, hgt, hlt, below, notBelow, foundAt, lastFrom, List.takeWhile_cons,
          List.dropWhile_cons, setIdx_nat _ _ _ hi]
      · have hlt : key h b < score := by omega
        have hb : below h score (b :: l) = b :: below h score l := by
          simp [below, List.takeWhile_cons, hlt]
        have hnb2 : notBelow h score (b :: l) = notBelow h score l := by
          simp [notBelow, List.dropWhile_cons, hlt]
        have hfa : foundAt h score (b :: l) = foundAt h score l := by
          simp only [foundAt, hnb2]
        rw [hb] at hf
        simp only [List.length_cons] at hf
        rw [if_neg heq, if_neg hgt, if_pos hlt, ih f pre hp.2 (by omega) hi, hb, hfa]
        simp only [lastFrom, List.length_cons]
        congr 1
        omega

theorem foundAt_congr {h : List (Node α)} {score : Int} {l l2 : List Nat}
    (hn : notBelow h score l2 = notBelow h score l) : foundAt h score l2 = foundAt h score l := by
  simp only [foundAt, hn]

theorem length_below_le (h : List (Node α)) (score : Int) (l : List Nat) :
    (below h score l).length ≤ l.length :=
  (List.takeWhile_sublist _).length_le

/-- One level of the search of `Delete`, started at the head or at a node of the sorted
chain with a key below `score`. -/
theorem deleteLoop_step {h : List (Node α)} {c : Nat → List Nat} {score : Int} {n p : Nat}
    (hpath : Path h n 0 (c n)) (hnd : (0 :: c n).Nodup)
    (hstart : p = 0 ∨ (Sorted h (c n) ∧ p ∈ c n ∧ key h p < score))
    (fuel : Nat) (pre : List (Option Nat)) (hfuel : h.length < fuel) (hn : n < pre.length) :
    ∃ fuel1, fuel ≤ fuel1 + h.length ∧
      deleteLoop h score fuel (some p) (n : Int) pre =
        deleteLoop h score fuel1 (some (lastFrom 0 (below h score (c n)))) ((n : Int) - 1)
          (pre.set n (if (foundAt h score (c n)).isSome
            then some (lastFrom 0 (below h score (c n))) else none)) := by
  obtain ⟨l2, hp2, hlen2, hlast, hnb⟩ := @start_path α h n score (c n) p hpath hstart
  have hH := path_length_le hpath hnd
  have hb := length_below_le h score l2
  refine ⟨fuel - ((below h score l2).length + 1), by omega, ?_⟩
  rw [deleteLoop_level score fuel pre hp2 (by omega) hn, hlast, foundAt_congr hnb]

theorem deleteLoop_done (h : List (Node α)) (score : Int) (fuel : Nat) (p : Option Nat)
    (pre : List (Option Nat)) (hf : 0 < fuel) :
    deleteLoop h score fuel p ((0 : Nat) - 1 : Int) pre = .ok pre := by
  obtain ⟨f, rfl⟩ : ∃ f, fuel = f + 1 := ⟨fuel - 1, by omega⟩
  simp [deleteLoop]

theorem deleteLoop_spec {h : List (Node α)} {c : Nat → List Nat} {score : Int} (K : Nat) :
    ∀ (n p : Nat) (pre : List (Option Nat)) (fuel : Nat),
      (∀ i, i ≤ n → Path h i 0 (c i)) → (∀ i, i ≤ n → (0 :: c i).Nodup) →
      (1 ≤ n → ∀ i, i ≤ n → Sorted h (c i)) → (∀ i, i + 1 ≤ n → (c (i + 1)).Sublist (c i)) →
      pre.length = K → n < K →
      (p = 0 ∨ (Sorted h (c n) ∧ p ∈ c n ∧ key h p < score)) →
      (n + 1) * (h.length + 1) + 1 ≤ fuel →
      ∃ pre1, deleteLoop h score fuel (some p) (n : Int) pre = .ok pre1 ∧ pre1.length = K ∧
        (∀ j, n < j → pre1[j]? = pre[j]?) ∧
        (∀ j, j ≤ n → pre1[j]? = some (if (foundAt h score (c j)).isSome
          then some (lastFrom 0 (below h score (c j))) else none)) := by
  intro n
  induction n with
  | zero =>
    intro p pre fuel hpath hnd _ _ hlen hK hstart hfuel
    obtain ⟨fuel1, hf1, hstep⟩ := deleteLoop_step (hpath 0 (le_refl _)) (hnd 0 (le_refl _)) hstart
      fuel pre (by simp at hfuel; omega) (by omega)
    refine ⟨_, by rw [hstep]; exact deleteLoop_done _ _ _ _ _ (by simp at hfuel; omega),
      by simp [hlen], ?_, ?_⟩
    · intro j hj
      rw [List.getElem?_set_ne (by omega)]
    · intro j hj
      have : j = 0 := by omega
      subst this
      rw [List.getElem?_set_self (by omega)]
  | succ n ih =>
    intro p pre fuel hpath hnd hsort hsub hlen hK hstart hfuel
    obtain ⟨fuel1, hf1, hstep⟩ := deleteLoop_step (hpath (n + 1) (le_refl _))
      (hnd (n + 1) (le_refl _)) hstart fuel pre
      (by
        have : (n + 1 + 1) * (h.length + 1) = (n + 1) * (h.length + 1) + (h.length + 1) := by ring
        omega) (by omega)
    have hcast : (((n + 1 : Nat) : Int) - 1) = (n : Int) := by push_cast; ring
    rw [hcast] at hstep
    have hqmem := lastFrom_mem 0 (below h score (c (n + 1)))
    obtain ⟨pre1, hrun, hlen1, hhi, hlo⟩ := ih (lastFrom 0 (below h score (c (n + 1))))
      (pre.set (n + 1) (if (foundAt h score (c (n + 1))).isSome
        then some (lastFrom 0 (below h score (c (n + 1)))) else none)) fuel1
      (fun i hi => hpath i (by omega)) (fun i hi => hnd i (by omega))
      (fun _ i hi => hsort (by omega) i (by omega)) (fun i hi => hsub i (by omega))
      (by simp [hlen]) (by omega)
      (by
        rcases List.mem_cons.mp hqmem with h0 | hm
        · exact Or.inl h0
        · have := mem_below hm
          exact Or.inr ⟨hsort (by omega) n (by omega), (hsub n (le_refl _)).subset this.1,
            this.2⟩)
      (by
        have : (n + 1 + 1) * (h.length + 1) = (n + 1) * (h.length + 1) + (h.length + 1) := by ring
        omega)
    refine ⟨pre1, by rw [hstep, hrun], hlen1, ?_, ?_⟩
    · intro j hj
      rw [hhi j (by omega), List.getElem?_set_ne (by omega)]
    · intro j hj
      rcases Nat.lt_succ_iff_lt_or_eq.mp (Nat.lt_succ_of_le hj) with hlt | heq
      · exact hlo j (by omega)
      · subst heq
        rw [hhi _ (by omega), List.getElem?_set_self (by omega)]

/-! ## The relink loop of `Delete` -/

theorem skipLink_setLink_ne (h : List (Node α)) (a i : Nat) (r : Option Nat) (j b : Nat)
    (hj : j ≠ i) : skipLink (setLink h a i r) j b = skipLink h j b := by
  have e : ∀ x, link (setLink h a i r) j x = link h j x := by
    intro x
    rw [link_setLink, if_neg (fun hc => hj hc.2.1)]
  simp only [skipLink, e]

theorem relinkLoop_spec :
    ∀ (rest : List (Option Nat)) (i : Nat) (h : List (Node α)),
      (∀ k a, rest[k]? = some (some a) →
        ∃ t q, link h (i + k) a = some (some t) ∧ link h (i + k) t = some q) →
      ∃ h1, relinkLoop rest (i : Int) h = .ok h1 ∧ h1.length = h.length ∧
        (∀ b, key h1 b = key h b) ∧ (∀ b, val h1 b = val h b) ∧
        (∀ M, Shape M h → Shape M h1) ∧
        ∀ j b, link h1 j b =
          if i ≤ j ∧ rest[j - i]? = some (some b) then skipLink h j b else link h j b := by
  intro rest
  induction rest with
  | nil =>
    intro i h _
    refine ⟨h, rfl, rfl, fun _ => rfl, fun _ => rfl, fun _ hs => hs, ?_⟩
    intro j b
    simp
  | cons x rest ih =>
    intro i h hyp
    have hcast : ((i : Int) + 1) = ((i + 1 : Nat) : Int) := by push_cast; rfl
    cases x with
    | none =>
      obtain ⟨h1, hrun, hlen, hkey, hval, hshape, hlink⟩ := ih (i + 1) h (by
        intro k a hk
        have := hyp (k + 1) a (by simpa using hk)
        rwa [show i + (k + 1) = i + 1 + k by omega] at this)
      refine ⟨h1, by rw [relinkLoop, hcast]; exact hrun, hlen, hkey, hval, hshape, ?_⟩
      intro j b
      rw [hlink]
      by_cases hj : i + 1 ≤ j
      · have e : (none :: rest)[j - i]? = rest[j - (i + 1)]? := by
          rw [show j - i = (j - (i + 1)) + 1 by omega]; exact List.getElem?_cons_succ
        rw [e]
        have e1 : (i ≤ j ∧ rest[j - (i + 1)]? = some (some b)) ↔
            (i + 1 ≤ j ∧ rest[j - (i + 1)]? = some (some b)) :=
          ⟨fun hc => ⟨hj, hc.2⟩, fun hc => ⟨by omega, hc.2⟩⟩
        simp only [e1]
      · rw [if_neg (fun hc => hj hc.1)]
        by_cases hji : i ≤ j
        · have : j - i = 0 := by omega
          rw [this]
          simp
        · rw [if_neg (fun hc => hji hc.1)]
    | some a =>
      obtain ⟨t, q, hat, htq⟩ := hyp 0 a (by simp)
      simp only [Nat.add_zero] at hat htq
      have hlk : ∀ j b, link (setLink h a i q) j b =
          if b = a ∧ j = i then some q else link h j b := by
        intro j b
        rw [link_setLink]
        simp only [hat, Option.isSome_some, and_true]
      obtain ⟨h1, hrun, hlen, hkey, hval, hshape, hlink⟩ := ih (i + 1) (setLink h a i q) (by
        intro k a1 hk
        obtain ⟨t1, q1, h1, h2⟩ := hyp (k + 1) a1 (by simpa using hk)
        rw [show i + (k + 1) = i + 1 + k by omega] at h1 h2
        refine ⟨t1, q1, ?_, ?_⟩
        · rw [hlk, if_neg (fun hc => by omega)]; exact h1
        · rw [hlk, if_neg (fun hc => by omega)]; exact h2)
      refine ⟨h1, ?_, by simp [hlen], ?_, ?_, ?_, ?_⟩
      · rw [relinkLoop]
        simp only [nextOf_of_link hat, nextOf_of_link htq, setNext_of_link hat, hcast]
        exact hrun
      · intro b; rw [hkey, key_setLink]
      · intro b; rw [hval, val_setLink]
      · intro M hs; exact hshape M (shape_setLink hs _ _ _)
      · intro j b
        rw [hlink, hlk]
        by_cases hj : i + 1 ≤ j
        · have e : (some a :: rest)[j - i]? = rest[j - (i + 1)]? := by
            rw [show j - i = (j - (i + 1)) + 1 by omega]; exact List.getElem?_cons_succ
          have e1 : (i ≤ j ∧ rest[j - (i + 1)]? = some (some b)) ↔
              (i + 1 ≤ j ∧ rest[j - (i + 1)]? = some (some b)) :=
            ⟨fun hc => ⟨hj, hc.2⟩, fun hc => ⟨by omega, hc.2⟩⟩
          have e2 : ¬ (b = a ∧ j = i) := fun hc => by omega
          rw [e, skipLink_setLink_ne _ _ _ _ _ _ (by omega), if_neg e2]
          simp only [e1]
        · rw [if_neg (fun hc => hj hc.1)]
          by_cases hji : i ≤ j
          · have hji2 : j = i := by omega
            subst hji2
            simp only [Nat.sub_self, List.getElem?_cons_zero, Option.some.injEq, le_refl,
              true_and, and_true]
            by_cases hb : b = a
            · subst hb
              simp [skipLink, hat, htq]
            · rw [if_neg hb, if_neg (fun hc => hb hc.symm)]
          · have e2 : ¬ (b = a ∧ j = i) := fun hc => by omega
            rw [if_neg e2, if_neg (fun hc => hji hc.1)]

/-! ## `Delete` keeps the invariant -/

theorem foundAt_none_of_nil (h : List (Node α)) (score : Int) : foundAt h score [] = none := rfl

theorem unlinked_of_none {h : List (Node α)} {score : Int} {l : List Nat}
    (hf : foundAt h score l = none) : unlinked h score l = l := by
  simp only [unlinked, hf, Option.isSome_none, Bool.false_eq_true, if_false]
  exact below_append_notBelow h score l

theorem split_of_found {h : List (Node α)} {score : Int} {l : List Nat} {t : Nat}
    (hf : foundAt h score l = some t) :
    l = below h score l ++ t :: (notBelow h score l).tail ∧
      unlinked h score l = below h score l ++ (notBelow h score l).tail := by
  have hh := (foundAt_some hf).1
  constructor
  · conv_lhs => rw [← below_append_notBelow h score l]
    congr 1
    cases hn : notBelow h score l with
    | nil => rw [hn] at hh; simp at hh
    | cons b r =>
      rw [hn] at hh
      simp only [List.head?_cons, Option.some.injEq] at hh
      rw [hh]; rfl
  · simp only [unlinked, hf, Option.isSome_some, if_true]

theorem unlinked_sublist (h : List (Node α)) (score : Int) (l : List Nat) :
    (unlinked h score l).Sublist l := by
  cases hf : foundAt h score l with
  | none => rw [unlinked_of_none hf]
  | some t =>
    have := split_of_found hf
    rw [this.2]
    conv_rhs => rw [this.1]
    exact (List.Sublist.refl _).append (List.sublist_cons_self _ _)

theorem foundAt_of_mem {h : List (Node α)} {score : Int} {l : List Nat} (hs : Sorted h l)
    {b : Nat} (hb : b ∈ l) (hk : key h b = score) : foundAt h score l = some b := by
  cases hf : foundAt h score l with
  | none =>
    exfalso
    refine absent_of_head hs ?_ b hb hk
    intro x hx hkx
    simp [foundAt, hx, hkx] at hf
  | some t =>
    have ht := foundAt_some hf
    have htm : t ∈ l := (List.dropWhile_sublist _).subset (List.mem_of_mem_head? ht.1)
    rw [sorted_unique hs htm hb (by rw [ht.2, hk])]

theorem unlinked_eq_filter {h : List (Node α)} {score : Int} {l : List Nat} (hs : Sorted h l) :
    unlinked h score l = l.filter (fun a => decide (key h a ≠ score)) := by
  cases hf : foundAt h score l with
  | none =>
    rw [unlinked_of_none hf]
    symm
    rw [List.filter_eq_self]
    intro a ha
    simp only [decide_eq_true_eq]
    intro hk
    rw [foundAt_of_mem hs ha hk] at hf
    exact Option.noConfusion hf
  | some t =>
    have hsp := split_of_found hf
    have ht := foundAt_some hf
    rw [hsp.2]
    conv_rhs => rw [hsp.1]
    have hs2 : Sorted h (below h score l ++ t :: (notBelow h score l).tail) := by
      rw [← hsp.1]; exact hs
    have hs3 := List.pairwise_append.mp hs2
    rw [List.filter_append, List.filter_cons]
    simp only [ht.2, ne_eq, not_true_eq_false, decide_False, Bool.false_eq_true, if_false]
    congr 1
    · symm
      rw [List.filter_eq_self]
      intro a ha
      have := (mem_below ha).2
      simp only [decide_eq_true_eq]
      omega
    · symm
      rw [List.filter_eq_self]
      intro a ha
      have := (List.pairwise_cons.mp hs3.2.1).1 a ha
      rw [ht.2] at this
      simp only [decide_eq_true_eq]
      omega

theorem relinkLoop_none :
    ∀ (rest : List (Option Nat)) (i : Int) (h : List (Node α)),
      (∀ x, x ∈ rest → x = none) → relinkLoop rest i h = .ok h := by
  intro rest
  induction rest with
  | nil => intro i h _; rfl
  | cons x rest ih =>
    intro i h hx
    have := hx x (List.mem_cons_self _ _)
    subst this
    rw [relinkLoop]
    exact ih (i + 1) h (fun y hy => hx y (List.mem_cons_of_mem _ hy))

theorem searchFuel_ge (h : List (Node α)) (n : Nat) :
    (n + 1) * (h.length + 1) + 1 ≤ searchFuel h (n : Int) := by
  simp [searchFuel]

/-- The search of `Delete` on a list that satisfies the invariant. -/
theorem Inv.delete_search {s : SkipList α} {M : Nat} {c : Nat → List Nat} (hinv : Inv s M c)
    (score : Int) :
    ∃ pre, Level s = .ok ((topLevel c (M - 1) : Nat) : Int) ∧
      makeSlice (none : Option Nat) (((topLevel c (M - 1) : Nat) : Int) + 1) =
        .ok (List.replicate (topLevel c (M - 1) + 1) none) ∧
      deleteLoop s.heap score (searchFuel s.heap ((topLevel c (M - 1) : Nat) : Int)) s.head
        ((topLevel c (M - 1) : Nat) : Int) (List.replicate (topLevel c (M - 1) + 1) none) =
        .ok pre ∧
      pre.length = topLevel c (M - 1) + 1 ∧
      ∀ j, j ≤ topLevel c (M - 1) → pre[j]? = some (if (foundAt s.heap score (c j)).isSome
        then some (lastFrom 0 (below s.heap score (c j))) else none) := by
  have hL := topLevel_le c (M - 1)
  have hmk : makeSlice (none : Option Nat) (((topLevel c (M - 1) : Nat) : Int) + 1) =
      .ok (List.replicate (topLevel c (M - 1) + 1) none) := by
    have h1 : ¬ (((topLevel c (M - 1) : Nat) : Int) + 1 < 0) := by omega
    have h2 : (((topLevel c (M - 1) : Nat) : Int) + 1).toNat = topLevel c (M - 1) + 1 := by omega
    simp only [makeSlice, h1, if_false, h2]
  obtain ⟨pre, hrun, hlen, _, hlo⟩ := @deleteLoop_spec α s.heap c score
    (topLevel c (M - 1) + 1) (topLevel c (M - 1)) 0
    (List.replicate (topLevel c (M - 1) + 1) none) (searchFuel s.heap (topLevel c (M - 1) : Nat))
    (fun i hi => hinv.path i (by omega)) (fun i hi => hinv.nodup i (by omega))
    (fun h1 i hi => hinv.sorted i (by omega)) (fun i hi => hinv.sub i (by omega))
    (by simp) (by omega) (Or.inl rfl) (searchFuel_ge _ _)
  refine ⟨pre, hinv.level_eq, hmk, ?_, hlen, hlo⟩
  rw [hinv.head_eq]
  exact hrun

/-- `Delete` on a list that satisfies the invariant: it returns, keeps every key and value,
turns the chain `c j` of every level below `max M 1` into `unlinked (c j)`, leaves the chain
of level `M` alone when `M ≥ 1`, and changes nothing when its search finds the key at no
level. -/
theorem Inv.delete_ok {s : SkipList α} {M : Nat} {c : Nat → List Nat} (hinv : Inv s M c)
    (score : Int) :
    ∃ s1, Delete s score = .ok s1 ∧ s1.heap.length = s.heap.length ∧
      (∀ b, key s1.heap b = key s.heap b) ∧ (∀ b, val s1.heap b = val s.heap b) ∧
      Inv s1 M (fun j => if j < max M 1 then unlinked s.heap score (c j) else c j) ∧
      ((∀ j, j ≤ topLevel c (M - 1) → foundAt s.heap score (c j) = none) → s1 = s) := by
  obtain ⟨pre, hlevel, hmk, hloop, hplen, hpre⟩ := hinv.delete_search score
  have hL := topLevel_le c (M - 1)
  have hchain : ∀ j, j < max M 1 → topLevel c (M - 1) < j → c j = [] :=
    fun j hj1 hj2 => topLevel_empty c (M - 1) j hj2 (by omega)
  obtain ⟨h1, hrun, hlen, hkey, hval, hshape, hlink⟩ := relinkLoop_spec pre 0 s.heap (by
    intro k a hk
    have hkL : k ≤ topLevel c (M - 1) := by
      have := (List.getElem?_eq_some_iff.mp hk).1
      omega
    rw [hpre k hkL] at hk
    cases hf : foundAt s.heap score (c k) with
    | none => simp [hf] at hk
    | some t =>
      simp only [hf, Option.isSome_some, if_true, Option.some.injEq] at hk
      have hsp := split_of_found hf
      have hp := hinv.path k (by omega)
      have hl : link s.heap k (lastFrom 0 (below s.heap score (c k))) =
          some (notBelow s.heap score (c k)).head? := by
        apply path_last_link
        rw [below_append_notBelow]
        exact hp
      rw [(foundAt_some hf).1] at hl
      have htm : t ∈ 0 :: c k := by
        refine List.mem_cons_of_mem _ ?_
        rw [hsp.1]
        exact List.mem_append_right _ (List.mem_cons_self _ _)
      obtain ⟨q, hq⟩ := path_link hp t htm
      refine ⟨t, q, ?_, ?_⟩
      · rw [Nat.zero_add, ← hk]; exact hl
      · rw [Nat.zero_add]; exact hq)
  have hlink0 : ∀ j b, link h1 j b =
      if pre[j]? = some (some b) then skipLink s.heap j b else link s.heap j b := by
    intro j b
    rw [hlink]
    simp only [Nat.zero_le, true_and, Nat.sub_zero]
  have hpath0 : ∀ j, j < max M 1 → Path h1 j 0 (unlinked s.heap score (c j)) := by
    intro j hj0
    have hj : j ≤ M := by omega
    by_cases hjL : j ≤ topLevel c (M - 1)
    · have hpj := hpre j hjL
      cases hf : foundAt s.heap score (c j) with
      | none =>
        rw [unlinked_of_none hf]
        refine path_congr ?_ (hinv.path j hj)
        intro b _
        rw [hlink0, hpj, hf]
        simp
      | some t =>
        have hsp := split_of_found hf
        rw [hf] at hpj
        simp only [Option.isSome_some, if_true] at hpj
        have hl : link s.heap j (lastFrom 0 (below s.heap score (c j))) = some (some t) := by
          have : link s.heap j (lastFrom 0 (below s.heap score (c j))) =
              some (notBelow s.heap score (c j)).head? := by
            apply path_last_link
            rw [below_append_notBelow]
            exact hinv.path j hj
          rw [this, (foundAt_some hf).1]
        rw [hsp.2]
        refine path_unlink (h := s.heap) (t := t) ?_ ?_ ?_ ?_
        · rw [← hsp.1]; exact hinv.path j hj
        · rw [← hsp.1]; exact hinv.nodup j hj
        · rw [hlink0, hpj, if_pos rfl]
          simp only [skipLink, hl]
        · intro b _ hb
          rw [hlink0, hpj, if_neg]
          intro hc
          simp only [Option.some.injEq] at hc
          exact hb hc.symm
    · have hcj := hchain j hj0 (by omega)
      rw [hcj, unlinked_of_none (foundAt_none_of_nil _ _), ← hcj]
      refine path_congr ?_ (hinv.path j hj)
      intro b _
      have hnone : pre[j]? = none := List.getElem?_eq_none (by omega)
      rw [hlink0, hnone]
      simp
  have hpath : ∀ j, j ≤ M →
      Path h1 j 0 (if j < max M 1 then unlinked s.heap score (c j) else c j) := by
    intro j hj
    by_cases hj0 : j < max M 1
    · rw [if_pos hj0]; exact hpath0 j hj0
    · rw [if_neg hj0]
      refine path_congr ?_ (hinv.path j hj)
      intro b _
      have hnone : pre[j]? = none := List.getElem?_eq_none (by omega)
      rw [hlink0, hnone]
      simp
  refine ⟨{ s with heap := h1 }, ?_, by simp [hlen], hkey, hval, ?_, ?_⟩
  · unfold Delete
    simp only [hlevel, hmk, hloop, show (0 : Int) = ((0 : Nat) : Int) from rfl, hrun]
  · refine ⟨hinv.maxLevel_eq, hinv.head_eq, hinv.tail_eq, hshape M hinv.shape, ?_, hpath, ?_, ?_,
      ?_⟩
    · exact path_link (hpath M (le_refl _)) 0 (List.mem_cons_self _ _)
    · intro j hj
      show (0 :: (if j < max M 1 then unlinked s.heap score (c j) else c j)).Nodup
      split
      · exact List.Nodup.sublist ((unlinked_sublist _ _ _).cons₂ 0) (hinv.nodup j hj)
      · exact hinv.nodup j hj
    · intro j hj
      show Sorted h1 (if j < max M 1 then unlinked s.heap score (c j) else c j)
      rw [if_pos (by omega)]
      refine sorted_congr (fun b _ => hkey b) ?_
      exact List.Pairwise.sublist (unlinked_sublist _ _ _) (hinv.sorted j hj)
    · intro j hj
      show (if j + 1 < max M 1 then unlinked s.heap score (c (j + 1)) else c (j + 1)).Sublist
        (if j < max M 1 then unlinked s.heap score (c j) else c j)
      rw [if_pos (by omega), if_pos (by omega), unlinked_eq_filter (hinv.sorted j (by omega)), unlinked_eq_filter (hinv.sorted (j + 1) hj)]
      exact (hinv.sub j hj).filter _
  · intro hnone
    have hall : ∀ x, x ∈ pre → x = none := by
      intro x hx
      obtain ⟨k, hk⟩ := List.getElem?_of_mem hx
      have hkL : k ≤ topLevel c (M - 1) := by
        have := (List.getElem?_eq_some_iff.mp hk).1
        omega
      rw [hpre k hkL, hnone k hkL] at hk
      simpa using hk.symm
    have hrun2 := relinkLoop_none pre ((0 : Nat) : Int) s.heap hall
    rw [hrun] at hrun2
    have : h1 = s.heap := by injection hrun2
    rw [this]

/-! ## `Find`, `Len` and the level walks -/

/-- One level of the loop of `Find`. -/
theorem findLoop_level {h : List (Node α)} {i : Nat} (score : Int) :
    ∀ {l : List Nat} {p : Nat} (fuel : Nat), Path h i p l →
      (below h score l).length < fuel →
      findLoop h score fuel (some p) (i : Int) =
        match foundAt h score l with
        | some b => .ok (val h b)
        | none => findLoop h score (fuel - ((below h score l).length + 1))
            (some (lastFrom p (below h score l))) ((i : Int) - 1) := by
  intro l
  induction l with
  | nil =>
    intro p fuel hp hf
    obtain ⟨f, rfl⟩ : ∃ f, fuel = f + 1 := ⟨fuel - 1, by omega⟩
    have hp1 : link h i p = some none := hp
    have hneg : ¬ ((i : Int) < 0) := by omega
    simp [findLoop, hneg, nextOf_of_link hp1, below, notBelow, foundAt, lastFrom]
  | cons b l ih =>
    intro p fuel hp hf
    obtain ⟨f, rfl⟩ : ∃ f, fuel = f + 1 := ⟨fuel - 1, by omega⟩
    obtain ⟨q, hq⟩ := path_link hp.2 b (List.mem_cons_self _ _)
    obtain ⟨nb, hnb, hsc, hob⟩ := deref_of_link hq
    have hneg : ¬ ((i : Int) < 0) := by omega
    rw [findLoop, if_neg hneg]
    simp only [nextOf_of_link hp.1, hnb, hsc, hob]
    by_cases heq : key h b = score
    · have hlt : ¬ key h b < score := by omega
      have hgt : ¬ key h b > score := by omega
      simp [heq, below, notBelow, foundAt, lastFrom, List.takeWhile_cons, List.dropWhile_cons]
    · by_cases hgt : key h b > score
      · have hlt : ¬ key h b < score := by omega
        simp [heq, hgt, hlt, below, notBelow, foundAt, lastFrom, List.takeWhile_cons,
          List.dropWhile_cons]
      · have hlt : key h b < score := by omega
        have hb : below h score (b :: l) = b :: below h score l := by
          simp [below, List.takeWhile_cons, hlt]
        have hnb2 : notBelow h score (b :: l) = notBelow h score l := by
          simp [notBelow, List.dropWhile_cons, hlt]
        have hfa : foundAt h score (b :: l) = foundAt h score l := by
          simp only [foundAt, hnb2]
        rw [hb] at hf
        simp only [List.length_cons] at hf
        rw [if_neg hgt, if_neg heq, if_pos hlt, ih f hp.2 (by omega), hb, hfa]
        simp only [lastFrom, List.length_cons]
        have : f + 1 - ((below h score l).length + 1 + 1) = f - ((below h score l).length + 1) := by
          omega
        rw [this]

theorem findLoop_step {h : List (Node α)} {c : Nat → List Nat} {score : Int} {n p : Nat}
    (hpath : Path h n 0 (c n)) (hnd : (0 :: c n).Nodup)
    (hstart : p = 0 ∨ (Sorted h (c n) ∧ p ∈ c n ∧ key h p < score))
    (fuel : Nat) (hfuel : h.length < fuel) :
    ∃ fuel1, fuel ≤ fuel1 + h.length ∧
      findLoop h score fuel (some p) (n : Int) =
        match foundAt h score (c n) with
        | some b => .ok (val h b)
        | none => findLoop h score fuel1 (some (lastFrom 0 (below h score (c n))))
            ((n : Int) - 1) := by
  obtain ⟨l2, hp2, hlen2, hlast, hnb⟩ := @start_path α h n score (c n) p hpath hstart
  have hH := path_length_le hpath hnd
  have hb := length_below_le h score l2
  refine ⟨fuel - ((below h score l2).length + 1), by omega, ?_⟩
  rw [findLoop_level score fuel hp2 (by omega), hlast, foundAt_congr hnb]

theorem findLoop_done (h : List (Node α)) (score : Int) (fuel : Nat) (p : Option Nat)
    (hf : 0 < fuel) : findLoop h score fuel p ((0 : Nat) - 1 : Int) = .ok none := by
  obtain ⟨f, rfl⟩ : ∃ f, fuel = f + 1 := ⟨fuel - 1, by omega⟩
  simp [findLoop]

theorem sublist_zero {c : Nat → List Nat} :
    ∀ n, (∀ i, i + 1 ≤ n → (c (i + 1)).Sublist (c i)) → (c n).Sublist (c 0) := by
  intro n
  induction n with
  | zero => intro _; exact List.Sublist.refl _
  | succ n ih =>
    intro hsub
    exact (hsub n (le_refl _)).trans (ih (fun i hi => hsub i (by omega)))

theorem findLoop_spec {h : List (Node α)} {c : Nat → List Nat} {score : Int} :
    ∀ (n p : Nat) (fuel : Nat),
      (∀ i, i ≤ n → Path h i 0 (c i)) → (∀ i, i ≤ n → (0 :: c i).Nodup) →
      (1 ≤ n → ∀ i, i ≤ n → Sorted h (c i)) → (∀ i, i + 1 ≤ n → (c (i + 1)).Sublist (c i)) →
      (p = 0 ∨ (Sorted h (c n) ∧ p ∈ c n ∧ key h p < score)) →
      (n + 1) * (h.length + 1) + 1 ≤ fuel →
      findLoop h score fuel (some p) (n : Int) = .ok (lookup h score (c 0)) := by
  intro n
  induction n with
  | zero =>
    intro p fuel hpath hnd _ _ hstart hfuel
    obtain ⟨fuel1, hf1, hstep⟩ := findLoop_step (hpath 0 (le_refl _)) (hnd 0 (le_refl _)) hstart
      fuel (by simp at hfuel; omega)
    rw [hstep, lookup]
    cases hf : foundAt h score (c 0) with
    | some b => rfl
    | none => exact findLoop_done _ _ _ _ (by simp at hfuel; omega)
  | succ n ih =>
    intro p fuel hpath hnd hsort hsub hstart hfuel
    have hmul : (n + 1 + 1) * (h.length + 1) = (n + 1) * (h.length + 1) + (h.length + 1) := by
      ring
    obtain ⟨fuel1, hf1, hstep⟩ := findLoop_step (hpath (n + 1) (le_refl _))
      (hnd (n + 1) (le_refl _)) hstart fuel (by omega)
    have hcast : (((n + 1 : Nat) : Int) - 1) = (n : Int) := by push_cast; ring
    rw [hcast] at hstep
    rw [hstep]
    cases hf : foundAt h score (c (n + 1)) with
    | some b =>
      have hb := foundAt_some hf
      have hbm : b ∈ c (n + 1) :=
        (List.dropWhile_sublist _).subset (List.mem_of_mem_head? hb.1)
      have hb0 : b ∈ c 0 := (sublist_zero (n + 1) hsub).subset hbm
      simp only [lookup, foundAt_of_mem (hsort (by omega) 0 (by omega)) hb0 hb.2]
    | none =>
      have hqmem := lastFrom_mem 0 (below h score (c (n + 1)))
      exact ih (lastFrom 0 (below h score (c (n + 1)))) fuel1
        (fun i hi => hpath i (by omega)) (fun i hi => hnd i (by omega))
        (fun _ i hi => hsort (by omega) i (by omega)) (fun i hi => hsub i (by omega))
        (by
          rcases List.mem_cons.mp hqmem with h0 | hm
          · exact Or.inl h0
          · have := mem_below hm
            exact Or.inr ⟨hsort (by omega) n (by omega), (hsub n (le_refl _)).subset this.1,
              this.2⟩)
        (by omega)

/-- `Find` on a list that satisfies the invariant. -/
theorem Inv.find_eq {s : SkipList α} {M : Nat} {c : Nat → List Nat} (hinv : Inv s M c)
    (score : Int) : Find s score = .ok (lookup s.heap score (c 0)) := by
  have hL := topLevel_le c (M - 1)
  unfold Find
  rw [hinv.level_eq, hinv.head_eq]
  exact findLoop_spec (topLevel c (M - 1)) 0 _
    (fun i hi => hinv.path i (by omega)) (fun i hi => hinv.nodup i (by omega))
    (fun h1 i hi => hinv.sorted i (by omega)) (fun i hi => hinv.sub i (by omega))
    (Or.inl rfl) (searchFuel_ge _ _)

theorem lenLoop_spec {h : List (Node α)} :
    ∀ {l : List Nat} {a : Nat} (fuel : Nat) (acc : Int), Path h 0 a l → l.length < fuel →
      lenLoop h fuel l.head? acc = .ok (acc + l.length) := by
  intro l
  induction l with
  | nil =>
    intro a fuel acc _ hf
    obtain ⟨f, rfl⟩ : ∃ f, fuel = f + 1 := ⟨fuel - 1, by simp at hf; omega⟩
    simp [lenLoop]
  | cons b l ih =>
    intro a fuel acc hp hf
    obtain ⟨f, rfl⟩ : ∃ f, fuel = f + 1 := ⟨fuel - 1, by simp at hf; omega⟩
    have hn := nextOf_path_head hp.2
    simp only [Nat.cast_zero] at hn
    simp only [List.head?_cons, lenLoop, hn]
    rw [ih f (acc + 1) hp.2 (by simp at hf; omega)]
    simp only [List.length_cons, Nat.cast_add, Nat.cast_one]
    congr 1
    ring

/-- `Len` on a list that satisfies the invariant. -/
theorem Inv.len_eq {s : SkipList α} {M : Nat} {c : Nat → List Nat} (hinv : Inv s M c) :
    Len s = .ok ((c 0).length : Int) := by
  have hp := hinv.path 0 (by omega)
  have hH := path_length_le hp (hinv.nodup 0 (by omega))
  have hn := nextOf_path_head hp
  simp only [Nat.cast_zero] at hn
  unfold Len
  rw [hinv.head_eq, hn]
  simp only []
  rw [lenLoop_spec _ 0 hp (by omega)]
  simp

theorem walkLevel_spec {h : List (Node α)} {i : Nat} :
    ∀ {l : List Nat} {a : Nat} (fuel : Nat), Path h i a l → l.length < fuel →
      walkLevel h i fuel l.head? = .ok l := by
  intro l
  induction l with
  | nil =>
    intro a fuel _ hf
    obtain ⟨f, rfl⟩ : ∃ f, fuel = f + 1 := ⟨fuel - 1, by simp at hf; omega⟩
    simp [walkLevel]
  | cons b l ih =>
    intro a fuel hp hf
    obtain ⟨f, rfl⟩ : ∃ f, fuel = f + 1 := ⟨fuel - 1, by simp at hf; omega⟩
    simp only [List.head?_cons, walkLevel, nextOf_path_head hp.2]
    rw [ih f hp.2 (by simp at hf; omega)]

/-- Walking a level of a list that satisfies the invariant yields its chain. -/
theorem Inv.chainOf_eq {s : SkipList α} {M : Nat} {c : Nat → List Nat} (hinv : Inv s M c)
    {i : Nat} (hi : i ≤ M) : chainOf s i = .ok (c i) := by
  have hp := hinv.path i hi
  have hH := path_length_le hp (hinv.nodup i hi)
  unfold chainOf
  rw [hinv.head_eq, nextOf_path_head hp]
  exact walkLevel_spec _ hp (by omega)

theorem Inv.entries_eq {s : SkipList α} {M : Nat} {c : Nat → List Nat} (hinv : Inv s M c) :
    entries s = .ok (pairsAt s.heap (c 0)) := by
  unfold entries
  rw [hinv.chainOf_eq (i := 0) (by omega)]

/-! ## Reachable lists satisfy the invariant -/

theorem newSkipList_eq (M : Nat) :
    @NewSkipList α (M : Int) = .ok
      { heap := [(⟨0, none, (M : Int), List.replicate (M + 1) none⟩ : Node α)],
        head := some 0, tail := none, maxLevel := (M : Int) } := by
  have h1 : ¬ ((M : Int) + 1 < 0) := by omega
  have h2 : ((M : Int) + 1).toNat = M + 1 := by omega
  simp [NewSkipList, NewNode, makeSlice, h1, h2]

theorem newSkipList_inv (M : Nat) :
    ∃ s : SkipList α, NewSkipList (M : Int) = .ok s ∧ Inv s M (fun _ => []) := by
  refine ⟨_, newSkipList_eq M, ?_⟩
  have hl : ∀ i, i ≤ M →
      link [(⟨0, none, (M : Int), List.replicate (M + 1) none⟩ : Node α)] i 0 = some none := by
    intro i hi
    simp only [link, List.getElem?_cons_zero, List.getElem?_replicate]
    rw [if_pos (by omega)]
  refine ⟨rfl, rfl, rfl, ?_, ⟨none, hl M (le_refl _)⟩, ?_, ?_, ?_, ?_⟩
  · intro n hn
    rw [List.mem_singleton.mp hn]
    simp
  · intro i hi
    exact hl i (by omega)
  · intro i _
    simp
  · intro i _
    exact List.Pairwise.nil
  · intro i _
    exact List.Sublist.refl _

theorem step_inv {M : Nat} (rand : Nat → Bool) {s : SkipList α} {c : Nat → List Nat}
    (hinv : Inv s M c) (calls : Nat) (op : Op α) :
    ∃ s1 calls1 c1, step rand (s, calls) op = .ok (s1, calls1) ∧ Inv s1 M c1 := by
  cases op with
  | insert k v =>
    cases hh : (rightAt M s.heap c k 0).head? with
    | none =>
      obtain ⟨s1, lv, _, _, hrun, _, _, _, _, hinv1⟩ := insert_fresh hinv k v rand calls
        (fun b hb => by rw [hh] at hb; exact Option.noConfusion hb)
      exact ⟨s1, _, _, hrun, hinv1⟩
    | some b =>
      by_cases hk : key s.heap b = k
      · obtain ⟨hrun, hinv1⟩ := insert_overwrite hinv k v rand calls hh hk
        exact ⟨_, _, _, hrun, hinv1⟩
      · obtain ⟨s1, lv, _, _, hrun, _, _, _, _, hinv1⟩ := insert_fresh hinv k v rand calls
          (fun b1 hb1 => by
            rw [hh] at hb1
            simp only [Option.some.injEq] at hb1
            rw [← hb1]; exact hk)
        exact ⟨s1, _, _, hrun, hinv1⟩
  | delete k =>
    obtain ⟨s1, hrun, _, _, _, hinv1, _⟩ := hinv.delete_ok k
    refine ⟨s1, calls, _, ?_, hinv1⟩
    simp [step, hrun]

theorem runFrom_inv {M : Nat} (rand : Nat → Bool) :
    ∀ (ops : List (Op α)) (s : SkipList α) (c : Nat → List Nat) (calls : Nat), Inv s M c →
      ∃ s1 calls1 c1, runFrom rand ops (s, calls) = .ok (s1, calls1) ∧ Inv s1 M c1 := by
  intro ops
  induction ops with
  | nil => intro s c calls hinv; exact ⟨s, calls, c, rfl, hinv⟩
  | cons op ops ih =>
    intro s c calls hinv
    obtain ⟨s1, calls1, c1, hstep, hinv1⟩ := step_inv rand hinv calls op
    obtain ⟨s2, calls2, c2, hrun, hinv2⟩ := ih s1 c1 calls1 hinv1
    exact ⟨s2, calls2, c2, by simp [runFrom, hstep, hrun], hinv2⟩

/-- Every sequence of calls on `NewSkipList(M)` returns a list, and the list satisfies the
invariant. -/
theorem run_inv (M : Nat) (rand : Nat → Bool) (ops : List (Op α)) :
    ∃ s calls c, run (M : Int) rand ops = .ok (s, calls) ∧ Inv s M c := by
  obtain ⟨s0, h0, hinv0⟩ := @newSkipList_inv α M
  obtain ⟨s, calls, c, hrun, hinv⟩ := runFrom_inv rand ops s0 _ 0 hinv0
  exact ⟨s, calls, c, by simp [run, h0, hrun], hinv⟩

theorem reachable_inv {maxLevel : Int} (hM : 0 ≤ maxLevel) {s : SkipList α}
    (hs : Reachable maxLevel s) : ∃ c, Inv s maxLevel.toNat c := by
  obtain ⟨M, rfl⟩ := Int.eq_ofNat_of_zero_le hM
  obtain ⟨rand, ops, calls, hrun⟩ := hs
  obtain ⟨s1, calls1, c, hrun1, hinv⟩ := @run_inv α M rand ops
  rw [hrun] at hrun1
  have : s = s1 := by
    injection hrun1 with h
    exact (Prod.mk.inj h).1
  rw [this]
  exact ⟨c, by simpa using hinv⟩

/-! ## The effect of `Insert` and `Delete` on the level-0 sequence of pairs -/

theorem pairsAt_congr {h h1 : List (Node α)} {l : List Nat}
    (hk : ∀ b, b ∈ l → key h1 b = key h b ∧ val h1 b = val h b) :
    pairsAt h1 l = pairsAt h l := by
  unfold pairsAt
  refine List.map_congr_left ?_
  intro b hb
  rw [(hk b hb).1, (hk b hb).2]

theorem pairsAt_append (h : List (Node α)) (l1 l2 : List Nat) :
    pairsAt h (l1 ++ l2) = pairsAt h l1 ++ pairsAt h l2 := by
  simp [pairsAt]

theorem filter_pairsAt (h : List (Node α)) (q : Int → Bool) (l : List Nat) :
    (pairsAt h l).filter (fun p => q p.1) = pairsAt h (l.filter (fun a => q (key h a))) := by
  unfold pairsAt
  rw [List.filter_map]
  rfl

theorem keys_pairsAt (h : List (Node α)) (l : List Nat) :
    (pairsAt h l).map Prod.fst = l.map (key h) := by
  simp [pairsAt]

theorem sorted_iff_keys (h : List (Node α)) (l : List Nat) :
    Sorted h l ↔ ((pairsAt h l).map Prod.fst).Pairwise (fun a b => a < b) := by
  rw [keys_pairsAt, List.pairwise_map]
  rfl

theorem above_eq_filter {h : List (Node α)} {score : Int} {l : List Nat} (hs : Sorted h l) :
    above h score l = l.filter (fun a => decide (score < key h a)) := by
  cases hf : foundAt h score l with
  | none =>
    simp only [above, hf, Option.isSome_none, Bool.false_eq_true, if_false]
    rw [notBelow_eq_filter hs]
    refine List.filter_congr ?_
    intro a ha
    have hne : key h a ≠ score := by
      intro hk
      rw [foundAt_of_mem hs ha hk] at hf
      exact Option.noConfusion hf
    simp only [decide_eq_decide]
    omega
  | some t =>
    have hsp := split_of_found hf
    have ht := foundAt_some hf
    simp only [above, hf, Option.isSome_some, if_true]
    conv_rhs => rw [hsp.1]
    have hs2 : Sorted h (below h score l ++ t :: (notBelow h score l).tail) := by
      rw [← hsp.1]; exact hs
    have hs3 := List.pairwise_append.mp hs2
    rw [List.filter_append, List.filter_cons]
    have e1 : (below h score l).filter (fun a => decide (score < key h a)) = [] := by
      rw [List.filter_eq_nil_iff]
      intro a ha
      have := (mem_below ha).2
      simp only [decide_eq_true_eq]
      omega
    have e2 : (notBelow h score l).tail.filter (fun a => decide (score < key h a)) =
        (notBelow h score l).tail := by
      rw [List.filter_eq_self]
      intro a ha
      have := (List.pairwise_cons.mp hs3.2.1).1 a ha
      rw [ht.2] at this
      simp only [decide_eq_true_eq]
      exact this
    rw [e1, e2]
    simp [ht.2]

theorem putPair_pairsAt {h : List (Node α)} {l : List Nat} (hs : Sorted h l) (k : Int)
    (v : Option α) :
    putPair (pairsAt h l) k v =
      pairsAt h (below h k l) ++ (k, v) :: pairsAt h (above h k l) := by
  unfold putPair
  rw [filter_pairsAt h (fun x => decide (x < k)), filter_pairsAt h (fun x => decide (k < x)),
    ← below_eq_filter hs, ← above_eq_filter hs]

theorem dropKey_pairsAt {h : List (Node α)} {l : List Nat} (hs : Sorted h l) (k : Int) :
    dropKey (pairsAt h l) k = pairsAt h (unlinked h k l) := by
  unfold dropKey
  rw [filter_pairsAt h (fun x => decide (x ≠ k)), ← unlinked_eq_filter hs]

/-- `Insert` on a list with `maxLevel ≥ 1` that satisfies the invariant: the level-0 pairs
afterwards are those before with `(k, v)` put at its sorted position. -/
theorem Inv.insert_entries {s : SkipList α} {M : Nat} {c : Nat → List Nat} (hinv : Inv s M c)
    (hM : 1 ≤ M) (k : Int) (v : Option α) (rand : Nat → Bool) (calls : Nat) :
    ∃ s1 calls1 c1, Insert s k v rand calls = .ok (s1, calls1) ∧ Inv s1 M c1 ∧
      pairsAt s1.heap (c1 0) = putPair (pairsAt s.heap (c 0)) k v := by
  have hs0 := hinv.sorted 0 (by omega)
  have hlt : ∀ b, b ∈ c 0 → b < s.heap.length :=
    fun b hb => path_lt (hinv.path 0 (by omega)) b (List.mem_cons_of_mem _ hb)
  have hr : rightAt M s.heap c k 0 = notBelow s.heap k (c 0) := by
    simp [rightAt, show 0 < M by omega]
  have hl : leftAt M s.heap c k 0 = below s.heap k (c 0) := by
    simp [leftAt, show 0 < M by omega]
  rw [putPair_pairsAt hs0]
  cases hf : foundAt s.heap k (c 0) with
  | some b =>
    have hb := foundAt_some hf
    have hsp := split_of_found hf
    obtain ⟨hrun, hinv1⟩ := insert_overwrite hinv k v rand calls (by rw [hr]; exact hb.1) hb.2
    refine ⟨_, _, _, hrun, hinv1, ?_⟩
    have hnd : (below s.heap k (c 0) ++ b :: (notBelow s.heap k (c 0)).tail).Nodup := by
      rw [← hsp.1]; exact sorted_nodup hs0
    have hnd1 := List.nodup_append.mp hnd
    have hbm : b ∈ c 0 := by
      rw [hsp.1]; exact List.mem_append_right _ (List.mem_cons_self _ _)
    have hab : above s.heap k (c 0) = (notBelow s.heap k (c 0)).tail := by
      simp [above, hf]
    show pairsAt (setVal s.heap b v) (c 0) = _
    rw [hab]
    conv_lhs => rw [hsp.1]
    rw [pairsAt_append]
    congr 1
    · refine pairsAt_congr ?_
      intro x hx
      have hxb : x ≠ b := fun hc => hnd1.2.2 hx (by rw [hc]; exact List.mem_cons_self _ _)
      rw [key_setVal, val_setVal, if_neg (fun hc => hxb hc.1)]
      exact ⟨rfl, rfl⟩
    · show (key (setVal s.heap b v) b, val (setVal s.heap b v) b) ::
          pairsAt (setVal s.heap b v) (notBelow s.heap k (c 0)).tail = _
      rw [key_setVal, val_setVal, if_pos ⟨rfl, hlt b hbm⟩, hb.2]
      congr 1
      refine pairsAt_congr ?_
      intro x hx
      have hxb : x ≠ b := fun hc => (List.nodup_cons.mp hnd1.2.1).1 (hc ▸ hx)
      rw [key_setVal, val_setVal, if_neg (fun hc => hxb hc.1)]
      exact ⟨rfl, rfl⟩
  | none =>
    have hfresh : ∀ b, (rightAt M s.heap c k 0).head? = some b → key s.heap b ≠ k := by
      intro b hb hk
      rw [hr] at hb
      simp [foundAt, hb, hk] at hf
    obtain ⟨s1, lv, _, _, hrun, _, hold, hknew, hvnew, hinv1⟩ :=
      insert_fresh hinv k v rand calls hfresh
    refine ⟨s1, _, _, hrun, hinv1, ?_⟩
    have hab : above s.heap k (c 0) = notBelow s.heap k (c 0) := by
      simp [above, hf]
    simp only [Nat.zero_le, true_and, show 0 < max M 1 by omega, if_true, hl, hr, hab]
    rw [pairsAt_append]
    congr 1
    · exact pairsAt_congr (fun x hx => hold x (hlt x (mem_below hx).1))
    · show (key s1.heap s.heap.length, val s1.heap s.heap.length) ::
          pairsAt s1.heap (notBelow s.heap k (c 0)) = _
      rw [hknew, hvnew]
      congr 1
      exact pairsAt_congr (fun x hx => hold x (hlt x (mem_notBelow hs0 hx).1))

/-- `Delete` on a list with `maxLevel ≥ 1` that satisfies the invariant: the level-0 pairs
afterwards are those before without the pair of key `k`. -/
theorem Inv.delete_entries {s : SkipList α} {M : Nat} {c : Nat → List Nat} (hinv : Inv s M c)
    (hM : 1 ≤ M) (k : Int) :
    ∃ s1 c1, Delete s k = .ok s1 ∧ Inv s1 M c1 ∧
      pairsAt s1.heap (c1 0) = dropKey (pairsAt s.heap (c 0)) k := by
  obtain ⟨s1, hrun, _, hkey, hval, hinv1, _⟩ := hinv.delete_ok k
  refine ⟨s1, _, hrun, hinv1, ?_⟩
  rw [dropKey_pairsAt (hinv.sorted 0 (by omega))]
  show pairsAt s1.heap (if 0 < max M 1 then unlinked s.heap k (c 0) else c 0) = _
  rw [if_pos (by omega)]
  exact pairsAt_congr (fun b _ => ⟨hkey b, hval b⟩)

/-! ## The list refines a finite map -/

theorem find_filter_imp {β : Type} (p q : β → Bool) :
    ∀ (l : List β), (∀ a, a ∈ l → p a = true → q a = true) →
      (l.filter q).find? p = l.find? p := by
  intro l
  induction l with
  | nil => intro _; rfl
  | cons a l ih =>
    intro hpq
    have ih1 := ih (fun b hb => hpq b (List.mem_cons_of_mem _ hb))
    by_cases hq : q a = true
    · rw [List.filter_cons_of_pos hq, List.find?_cons, List.find?_cons, ih1]
    · have hp : ¬ p a = true := fun hp => hq (hpq a (List.mem_cons_self _ _) hp)
      rw [List.filter_cons_of_neg hq, List.find?_cons_of_neg _ hp, ih1]

theorem find_filter_none {β : Type} (p q : β → Bool) (l : List β)
    (hpq : ∀ a, a ∈ l → p a = true → q a = false) : (l.filter q).find? p = none := by
  rw [List.find?_eq_none]
  intro a ha hp
  have := List.mem_filter.mp ha
  rw [hpq a this.1 hp] at this
  exact Bool.false_ne_true this.2

theorem assoc_putPair (m : List (Int × Option α)) (k : Int) (v : Option α) (x : Int) :
    assoc (putPair m k v) x = if x = k then some v else assoc m x := by
  unfold assoc putPair
  rw [List.find?_append]
  by_cases hx : x = k
  · subst hx
    rw [find_filter_none _ _ m (by intro a _ hp; simp at hp; simp [hp])]
    simp
  · rw [if_neg hx]
    rcases lt_or_gt_of_ne hx with hlt | hgt
    · rw [find_filter_imp _ _ m (by intro a _ hp; simp at hp; simp [hp, hlt])]
      cases hf : m.find? (fun p => decide (p.1 = x)) with
      | some p => simp
      | none =>
        have hk : ¬ (k = x) := fun hc => hx hc.symm
        simp only [Option.none_or, List.find?_cons, hk, decide_False]
        rw [find_filter_none _ _ m (by
          intro a _ hp
          simp only [decide_eq_true_eq] at hp
          simp only [hp, decide_eq_false_iff_not]
          omega)]
    · rw [find_filter_none _ _ m (by
        intro a _ hp
        simp only [decide_eq_true_eq] at hp
        simp only [hp, decide_eq_false_iff_not]
        omega)]
      have hk : ¬ (k = x) := fun hc => hx hc.symm
      simp only [Option.none_or, List.find?_cons, hk, decide_False]
      rw [find_filter_imp _ _ m (by intro a _ hp; simp at hp; simp [hp]; omega)]

theorem assoc_dropKey (m : List (Int × Option α)) (k : Int) (x : Int) :
    assoc (dropKey m k) x = if x = k then none else assoc m x := by
  unfold assoc dropKey
  by_cases hx : x = k
  · subst hx
    rw [find_filter_none _ _ m (by intro a _ hp; simp at hp; simp [hp])]
    simp
  · rw [if_neg hx, find_filter_imp _ _ m (by intro a _ hp; simp at hp; simp [hp, hx])]

theorem find_key_eq_foundAt {h : List (Node α)} {k : Int} {l : List Nat} (hs : Sorted h l) :
    l.find? (fun a => decide (key h a = k)) = foundAt h k l := by
  cases hf : foundAt h k l with
  | none =>
    rw [List.find?_eq_none]
    intro a ha hk
    simp only [decide_eq_true_eq] at hk
    rw [foundAt_of_mem hs ha hk] at hf
    exact Option.noConfusion hf
  | some b =>
    have hb := foundAt_some hf
    have hbm : b ∈ l := (List.dropWhile_sublist _).subset (List.mem_of_mem_head? hb.1)
    cases hg : l.find? (fun a => decide (key h a = k)) with
    | none =>
      rw [List.find?_eq_none] at hg
      exact absurd (by simpa using hb.2) (hg b hbm)
    | some a =>
      have ha := List.mem_of_find?_eq_some hg
      have hk : key h a = k := by simpa using List.find?_some hg
      rw [sorted_unique hs ha hbm (by rw [hk, hb.2])]

theorem assoc_pairsAt {h : List (Node α)} {k : Int} {l : List Nat} (hs : Sorted h l) :
    assoc (pairsAt h l) k = (foundAt h k l).map (val h) := by
  unfold assoc pairsAt
  rw [List.find?_map, ← find_key_eq_foundAt hs]
  cases hg : l.find? (fun a => decide (key h a = k)) with
  | none =>
    have : l.find? ((fun p : Int × Option α => decide (p.1 = k)) ∘
        fun a => (key h a, val h a)) = none := hg
    rw [this]; rfl
  | some a =>
    have : l.find? ((fun p : Int × Option α => decide (p.1 = k)) ∘
        fun a => (key h a, val h a)) = some a := hg
    rw [this]; rfl

theorem lookup_eq_assoc {h : List (Node α)} {k : Int} {l : List Nat} (hs : Sorted h l) :
    lookup h k l = match assoc (pairsAt h l) k with
      | some v => v
      | none => none := by
  rw [assoc_pairsAt hs, lookup]
  cases foundAt h k l <;> rfl

theorem length_split (h : List (Node α)) (k : Int) (l : List Nat) :
    l.length = (below h k l).length + (above h k l).length +
      (if (foundAt h k l).isSome then 1 else 0) := by
  have h1 : l.length = (below h k l).length + (notBelow h k l).length := by
    conv_lhs => rw [← below_append_notBelow h k l]
    exact List.length_append _ _
  cases hf : foundAt h k l with
  | none => simp [above, hf, h1]
  | some b =>
    have hb := (foundAt_some hf).1
    cases hn : notBelow h k l with
    | nil => rw [hn] at hb; simp at hb
    | cons t r => simp [above, hf, h1, hn]; omega

theorem length_putPair {h : List (Node α)} {l : List Nat} (hs : Sorted h l) (k : Int)
    (v : Option α) :
    (putPair (pairsAt h l) k v).length =
      l.length + (if (assoc (pairsAt h l) k).isNone then 1 else 0) := by
  rw [putPair_pairsAt hs, assoc_pairsAt hs, length_split h k l]
  simp only [List.length_append, List.length_cons, pairsAt, List.length_map]
  cases foundAt h k l <;> simp <;> omega

theorem length_dropKey {h : List (Node α)} {l : List Nat} (hs : Sorted h l) (k : Int) :
    (dropKey (pairsAt h l) k).length + (if (assoc (pairsAt h l) k).isSome then 1 else 0) =
      l.length := by
  rw [dropKey_pairsAt hs, assoc_pairsAt hs, length_split h k l]
  simp only [unlinked, above, pairsAt, List.length_map, List.length_append]
  cases foundAt h k l <;> simp

/-- A sequence of calls on a list with `maxLevel ≥ 1` that satisfies the invariant and
stands for the finite map `f`: the calls return a list that stands for the map after the
calls, and its length is the length before plus the `Insert`s of absent keys minus the
`Delete`s of present keys. -/
theorem runFrom_model {M : Nat} (hM : 1 ≤ M) (rand : Nat → Bool) :
    ∀ (ops : List (Op α)) (s : SkipList α) (c : Nat → List Nat) (calls : Nat)
      (f : Int → Option (Option α)), Inv s M c →
      (∀ x, assoc (pairsAt s.heap (c 0)) x = f x) →
      ∃ s1 calls1 c1, runFrom rand ops (s, calls) = .ok (s1, calls1) ∧ Inv s1 M c1 ∧
        (∀ x, assoc (pairsAt s1.heap (c1 0)) x = ops.foldl mapStep f x) ∧
        ((c1 0).length : Int) =
          (c 0).length + (freshInserts f ops : Int) - (presentDeletes f ops : Int) := by
  intro ops
  induction ops with
  | nil =>
    intro s c calls f hinv hf
    exact ⟨s, calls, c, rfl, hinv, hf, by simp [freshInserts, presentDeletes]⟩
  | cons op ops ih =>
    intro s c calls f hinv hf
    have hs0 := hinv.sorted 0 (by omega)
    cases op with
    | insert k v =>
      obtain ⟨s1, calls1, c1, hstep, hinv1, hent⟩ := hinv.insert_entries hM k v rand calls
      have hf1 : ∀ x, assoc (pairsAt s1.heap (c1 0)) x = mapStep f (.insert k v) x := by
        intro x
        rw [hent, assoc_putPair, hf x]
        rfl
      obtain ⟨s2, calls2, c2, hrun, hinv2, hf2, hlen2⟩ := ih s1 c1 calls1 _ hinv1 hf1
      refine ⟨s2, calls2, c2, by simp [runFrom, step, hstep, hrun], hinv2, hf2, ?_⟩
      have hl := length_putPair hs0 k v
      rw [← hent, hf k] at hl
      simp only [pairsAt, List.length_map] at hl
      rw [hlen2, hl]
      simp only [freshInserts, presentDeletes]
      push_cast
      ring
    | delete k =>
      obtain ⟨s1, c1, hstep, hinv1, hent⟩ := hinv.delete_entries hM k
      have hf1 : ∀ x, assoc (pairsAt s1.heap (c1 0)) x = mapStep f (.delete k) x := by
        intro x
        rw [hent, assoc_dropKey, hf x]
        rfl
      obtain ⟨s2, calls2, c2, hrun, hinv2, hf2, hlen2⟩ := ih s1 c1 calls _ hinv1 hf1
      refine ⟨s2, calls2, c2, by simp [runFrom, step, hstep, hrun], hinv2, hf2, ?_⟩
      have hl := length_dropKey hs0 k
      rw [← hent, hf k] at hl
      simp only [pairsAt, List.length_map] at hl
      rw [hlen2, ← hl]
      simp only [freshInserts, presentDeletes]
      push_cast
      ring

/-- Every sequence of calls on `NewSkipList(M)`, `M ≥ 1`, returns a list that stands for the
finite map of the calls. -/
theorem run_model {M : Nat} (hM : 1 ≤ M) (rand : Nat → Bool) (ops : List (Op α)) :
    ∃ s calls c, run (M : Int) rand ops = .ok (s, calls) ∧ Inv s M c ∧
      (∀ x, assoc (pairsAt s.heap (c 0)) x = mapRun ops x) ∧
      ((c 0).length : Int) =
        (freshInserts (fun _ => none) ops : Int) - (presentDeletes (fun _ => none) ops : Int) := by
  obtain ⟨s0, h0, hinv0⟩ := @newSkipList_inv α M
  obtain ⟨s, calls, c, hrun, hinv, hf, hlen⟩ :=
    runFrom_model hM rand ops s0 _ 0 (fun _ => none) hinv0 (fun _ => rfl)
  refine ⟨s, calls, c, by simp [run, h0, hrun], hinv, hf, ?_⟩
  rw [hlen]
  simp

/-! ## `String` -/

theorem deref_of_lt {h : List (Node α)} {a : Nat} (ha : a < h.length) :
    ∃ n, deref h (some a) = .ok n ∧ n.level = lvl h a ∧ n.obj = val h a ∧
      n.score = key h a := by
  have hn : h[a]? = some h[a] := List.getElem?_eq_getElem ha
  exact ⟨h[a], by simp [deref, hn], by simp [lvl, hn], by simp [val, hn], by simp [key, hn]⟩

/-- One run of the inner loop of `String`, from level `i` on: the lines of the levels
`i .. M - 1`, which are the lines `M - i` down to `1`, each get the entry of the node. -/
theorem stringRow_spec (fmtv : Option α → String) (M : Nat) (n : Node α) :
    ∀ (k i : Nat) (strs : List String), i + k = M → strs.length = M + 1 →
      ∃ strs1, stringRow fmtv (M : Int) n k (i : Int) strs = .ok strs1 ∧
        strs1.length = M + 1 ∧
        ∀ j, j ≤ M → strs1[j]? =
          if 1 ≤ j ∧ j ≤ M - i then
            (strs[j]?).map (fun x => x ++
              (if ((M - j : Nat) : Int) ≤ n.level then fmtv n.obj ++ "\t" else "-" ++ "\t"))
          else strs[j]? := by
  intro k
  induction k with
  | zero =>
    intro i strs hik _
    refine ⟨strs, rfl, by assumption, ?_⟩
    intro j _
    rw [if_neg (by omega)]
  | succ k ih =>
    intro i strs hik hlen
    have hidx : ((M : Int) - (i : Int)) = ((M - i : Nat) : Int) := by omega
    have hlt : M - i < strs.length := by omega
    have hget : strs[M - i]? = some strs[M - i] := List.getElem?_eq_getElem hlt
    have hcast : ((i : Int) + 1) = ((i + 1 : Nat) : Int) := by push_cast; rfl
    obtain ⟨strs1, hrun, hlen1, hspec⟩ := ih (i + 1)
      (strs.set (M - i) (strs[M - i] ++
        (if (i : Int) ≤ n.level then fmtv n.obj ++ "\t" else "-" ++ "\t")))
      (by omega) (by simp [hlen])
    refine ⟨strs1, ?_, hlen1, ?_⟩
    · rw [stringRow, hidx, getIdx_nat _ _ _ hget]
      simp only [setIdx_nat _ _ _ hlt, hcast]
      exact hrun
    · intro j hj
      rw [hspec j hj]
      by_cases hj1 : 1 ≤ j ∧ j ≤ M - (i + 1)
      · have hj3 : 1 ≤ j ∧ j ≤ M - i := by omega
        rw [if_pos hj1, if_pos hj3, List.getElem?_set_ne (by omega)]
      · rw [if_neg hj1]
        by_cases hj2 : j = M - i
        · subst hj2
          have hi : ((M - (M - i) : Nat) : Int) = (i : Int) := by omega
          have hj3 : 1 ≤ M - i ∧ M - i ≤ M - i := by omega
          rw [if_pos hj3, List.getElem?_set_self hlt, hget, hi]
          rfl
        · have hj3 : ¬ (1 ≤ j ∧ j ≤ M - i) := by omega
          rw [if_neg hj3, List.getElem?_set_ne (by omega)]

theorem concatAll_append_cons (x y : String) (l : List String) :
    x ++ y ++ concatAll l = x ++ concatAll (y :: l) := by
  simp [concatAll, String.append_assoc]

/-- The outer loop of `String` along the chain after `a`. -/
theorem stringLoop_spec (fmtv : Option α → String) {h : List (Node α)} (M : Nat) :
    ∀ {l : List Nat} {a : Nat} (fuel : Nat) (strs : List String), Path h 0 a l →
      l.length < fuel → strs.length = M + 1 →
      ∃ strs1, stringLoop fmtv h (M : Int) fuel l.head? strs = .ok strs1 ∧
        strs1.length = M + 1 ∧
        ∀ j, j ≤ M → strs1[j]? =
          if 1 ≤ j then (strs[j]?).map (fun x => x ++ renderLine fmtv h (M - j) l)
          else strs[j]? := by
  intro l
  induction l with
  | nil =>
    intro a fuel strs _ hf hlen
    obtain ⟨f, rfl⟩ : ∃ f, fuel = f + 1 := ⟨fuel - 1, by simp at hf; omega⟩
    refine ⟨strs, by simp [stringLoop], hlen, ?_⟩
    intro j hj
    have hj2 : j < strs.length := by omega
    split
    · simp [renderLine, concatAll, List.getElem?_eq_getElem hj2]
    · rfl
  | cons b l ih =>
    intro a fuel strs hp hf hlen
    obtain ⟨f, rfl⟩ : ∃ f, fuel = f + 1 := ⟨fuel - 1, by simp at hf; omega⟩
    have hblt : b < h.length := path_lt hp.2 b (List.mem_cons_self _ _)
    obtain ⟨n, hn, hnl, hno, _⟩ := deref_of_lt hblt
    have htn : (M : Int).toNat = M := by simp
    obtain ⟨strs1, hrow, hlen1, hspec1⟩ := stringRow_spec fmtv M n M 0 strs (by omega) hlen
    obtain ⟨strs2, hrun, hlen2, hspec2⟩ := ih f strs1 hp.2 (by simp at hf; omega) hlen1
    have hnx := nextOf_path_head hp.2
    simp only [Nat.cast_zero] at hnx hrow
    refine ⟨strs2, ?_, hlen2, ?_⟩
    · simp only [List.head?_cons, stringLoop, hn, htn, hrow, hnx]
      exact hrun
    · intro j hj
      have hj2 : j < strs.length := by omega
      rw [hspec2 j hj, hspec1 j hj]
      by_cases hj1 : 1 ≤ j
      · have hj3 : 1 ≤ j ∧ j ≤ M - 0 := ⟨hj1, by omega⟩
        rw [if_pos hj1, if_pos hj3, if_pos hj1, List.getElem?_eq_getElem hj2]
        simp only [Option.map_some', renderLine, List.map_cons, renderCell, hnl, hno]
        rw [concatAll_append_cons]
      · have hj3 : ¬ (1 ≤ j ∧ j ≤ M - 0) := fun hc => hj1 hc.1
        rw [if_neg hj1, if_neg hj3, if_neg hj1]

/-- `String` on a list that satisfies the invariant: it returns `M + 1` lines joined by
newlines; the first line is empty and, for every level `i < M`, the line `M - i` is the line
of level `i` over the chain of level 0. -/
theorem Inv.string_eq {s : SkipList α} {M : Nat} {c : Nat → List Nat} (hinv : Inv s M c)
    (fmtv : Option α → String) :
    ∃ lines : List String, SkipList.String fmtv s = .ok ("\n".intercalate lines) ∧
      lines.length = M + 1 ∧ lines[0]? = some "" ∧
      ∀ i, i < M → lines[M - i]? = some (renderLine fmtv s.heap i (c 0)) := by
  have hp := hinv.path 0 (Nat.zero_le _)
  have hH := path_length_le hp (hinv.nodup 0 (Nat.zero_le _))
  have hmk : makeSlice "" (s.maxLevel + 1) = .ok (List.replicate (M + 1) "") := by
    rw [hinv.maxLevel_eq]
    have h1 : ¬ ((M : Int) + 1 < 0) := by omega
    have h2 : ((M : Int) + 1).toNat = M + 1 := by omega
    simp only [makeSlice, h1, if_false, h2]
  have hnx := nextOf_path_head hp
  simp only [Nat.cast_zero] at hnx
  obtain ⟨lines, hrun, hlen, hspec⟩ := stringLoop_spec fmtv M (s.heap.length + 1)
    (List.replicate (M + 1) "") hp (by omega) (by simp)
  refine ⟨lines, ?_, hlen, ?_, ?_⟩
  · unfold SkipList.String
    rw [hmk]
    simp only []
    rw [hinv.head_eq, hnx]
    simp only []
    rw [hinv.maxLevel_eq, hrun]
  · rw [hspec 0 (Nat.zero_le _), if_neg (by omega)]
    simp
  · intro i hi
    rw [hspec (M - i) (by omega), if_pos (by omega)]
    have : M - (M - i) = i := by omega
    rw [this, List.getElem?_replicate, if_pos (by omega)]
    simp

/-! ## More fuel gives the same result -/

theorem advance_mono {h : List (Node α)} {i : Int} {score : Int} :
    ∀ (fuel : Nat) (p q : Option Nat) (fuel1 : Nat), advance h i score fuel p = .ok q →
      fuel ≤ fuel1 → advance h i score fuel1 p = .ok q := by
  intro fuel
  induction fuel with
  | zero => intro p q fuel1 hr _; simp [advance] at hr
  | succ f ih =>
    intro p q fuel1 hr hle
    obtain ⟨f1, rfl⟩ : ∃ f1, fuel1 = f1 + 1 := ⟨fuel1 - 1, by omega⟩
    rw [advance] at hr ⊢
    cases hnx : nextOf h p i with
    | error e => rw [hnx] at hr; simp at hr
    | ok nx =>
      rw [hnx] at hr
      cases nx with
      | none => exact hr
      | some b =>
        simp only at hr ⊢
        cases hd : deref h (some b) with
        | error e => rw [hd] at hr; simp at hr
        | ok nb =>
          rw [hd] at hr
          simp only at hr ⊢
          by_cases hlt : nb.score < score
          · rw [if_pos hlt] at hr ⊢
            exact ih _ _ f1 hr (by omega)
          · rw [if_neg hlt] at hr ⊢
            exact hr

theorem lenLoop_mono {h : List (Node α)} :
    ∀ (fuel : Nat) (p : Option Nat) (acc r : Int) (fuel1 : Nat), lenLoop h fuel p acc = .ok r →
      fuel ≤ fuel1 → lenLoop h fuel1 p acc = .ok r := by
  intro fuel
  induction fuel with
  | zero => intro p acc r fuel1 hr _; simp [lenLoop] at hr
  | succ f ih =>
    intro p acc r fuel1 hr hle
    obtain ⟨f1, rfl⟩ : ∃ f1, fuel1 = f1 + 1 := ⟨fuel1 - 1, by omega⟩
    cases p with
    | none => simpa [lenLoop] using hr
    | some a =>
      rw [lenLoop] at hr ⊢
      cases hnx : nextOf h (some a) 0 with
      | error e => rw [hnx] at hr; simp at hr
      | ok nx =>
        rw [hnx] at hr
        exact ih _ _ _ f1 hr (by omega)

theorem findLoop_mono {h : List (Node α)} {score : Int} :
    ∀ (fuel : Nat) (p : Option Nat) (level : Int) (r : Option α) (fuel1 : Nat),
      findLoop h score fuel p level = .ok r → fuel ≤ fuel1 →
      findLoop h score fuel1 p level = .ok r := by
  intro fuel
  induction fuel with
  | zero => intro p level r fuel1 hr _; simp [findLoop] at hr
  | succ f ih =>
    intro p level r fuel1 hr hle
    obtain ⟨f1, rfl⟩ : ∃ f1, fuel1 = f1 + 1 := ⟨fuel1 - 1, by omega⟩
    rw [findLoop] at hr ⊢
    by_cases hneg : level < 0
    · rw [if_pos hneg] at hr ⊢; exact hr
    · rw [if_neg hneg] at hr ⊢
      cases hnx : nextOf h p level with
      | error e => rw [hnx] at hr; simp at hr
      | ok nx =>
        rw [hnx] at hr
        cases nx with
        | none => exact ih _ _ _ f1 hr (by omega)
        | some b =>
          simp only at hr ⊢
          cases hd : deref h (some b) with
          | error e => rw [hd] at hr; simp at hr
          | ok nb =>
            rw [hd] at hr
            simp only at hr ⊢
            by_cases hgt : nb.score > score
            · rw [if_pos hgt] at hr ⊢
              exact ih _ _ _ f1 hr (by omega)
            · rw [if_neg hgt] at hr ⊢
              by_cases heq : nb.score = score
              · rw [if_pos heq] at hr ⊢; exact hr
              · rw [if_neg heq] at hr ⊢
                by_cases hlt : nb.score < score
                · rw [if_pos hlt] at hr ⊢
                  exact ih _ _ _ f1 hr (by omega)
                · rw [if_neg hlt] at hr ⊢
                  exact ih _ _ _ f1 hr (by omega)

theorem deleteLoop_mono {h : List (Node α)} {score : Int} :
    ∀ (fuel : Nat) (p : Option Nat) (level : Int) (pre r : List (Option Nat)) (fuel1 : Nat),
      deleteLoop h score fuel p level pre = .ok r → fuel ≤ fuel1 →
      deleteLoop h score fuel1 p level pre = .ok r := by
  intro fuel
  induction fuel with
  | zero => intro p level pre r fuel1 hr _; simp [deleteLoop] at hr
  | succ f ih =>
    intro p level pre r fuel1 hr hle
    obtain ⟨f1, rfl⟩ : ∃ f1, fuel1 = f1 + 1 := ⟨fuel1 - 1, by omega⟩
    rw [deleteLoop] at hr ⊢
    by_cases hneg : level < 0
    · rw [if_pos hneg] at hr ⊢; exact hr
    · rw [if_neg hneg] at hr ⊢
      cases hnx : nextOf h p level with
      | error e => rw [hnx] at hr; simp at hr
      | ok nx =>
        rw [hnx] at hr
        cases nx with
        | none =>
          simp only at hr ⊢
          cases hset : setIdx pre level none with
          | error e => rw [hset] at hr; simp at hr
          | ok pre1 =>
            rw [hset] at hr
            exact ih _ _ _ _ f1 hr (by omega)
        | some b =>
          simp only at hr ⊢
          cases hd : deref h (some b) with
          | error e => rw [hd] at hr; simp at hr
          | ok nb =>
            rw [hd] at hr
            simp only at hr ⊢
            by_cases heq : nb.score = score
            · rw [if_pos heq] at hr ⊢
              cases hset : setIdx pre level p with
              | error e => rw [hset] at hr; simp at hr
              | ok pre1 =>
                rw [hset] at hr
                exact ih _ _ _ _ f1 hr (by omega)
            · rw [if_neg heq] at hr ⊢
              by_cases hgt : nb.score > score
              · rw [if_pos hgt] at hr ⊢
                cases hset : setIdx pre level none with
                | error e => rw [hset] at hr; simp at hr
                | ok pre1 =>
                  rw [hset] at hr
                  exact ih _ _ _ _ f1 hr (by omega)
              · rw [if_neg hgt] at hr ⊢
                by_cases hlt : nb.score < score
                · rw [if_pos hlt] at hr ⊢
                  exact ih _ _ _ _ f1 hr (by omega)
                · rw [if_neg hlt] at hr ⊢
                  exact ih _ _ _ _ f1 hr (by omega)

theorem insertSearch_eq_with (h : List (Node α)) (score : Int) :
    ∀ (n : Nat) (pre : List (Option Nat)),
      insertSearch h score n pre = insertSearchWith h score (h.length + 1) n pre := by
  intro n
  induction n with
  | zero => intro pre; rfl
  | succ n ih =>
    intro pre
    rw [insertSearch, insertSearchWith]
    cases getIdx pre ((n : Int) + 1) with
    | error e => rfl
    | ok p =>
      simp only
      cases nextOf h p n with
      | error e => rfl
      | ok nx =>
        cases nx with
        | none =>
          simp only
          cases setIdx pre n p with
          | error e => rfl
          | ok pre1 => exact ih pre1
        | some b =>
          simp only
          cases advance h n score (h.length + 1) p with
          | error e => rfl
          | ok q =>
            simp only
            cases setIdx pre n q with
            | error e => rfl
            | ok pre1 => exact ih pre1

theorem insertSearchWith_mono {h : List (Node α)} {score : Int} {fuel fuel1 : Nat}
    (hle : fuel ≤ fuel1) :
    ∀ (n : Nat) (pre r : List (Option Nat)), insertSearchWith h score fuel n pre = .ok r →
      insertSearchWith h score fuel1 n pre = .ok r := by
  intro n
  induction n with
  | zero => intro pre r hr; exact hr
  | succ n ih =>
    intro pre r hr
    rw [insertSearchWith] at hr ⊢
    cases hg : getIdx pre ((n : Int) + 1) with
    | error e => rw [hg] at hr; simp at hr
    | ok p =>
      rw [hg] at hr
      simp only at hr ⊢
      cases hnx : nextOf h p n with
      | error e => rw [hnx] at hr; simp at hr
      | ok nx =>
        rw [hnx] at hr
        cases nx with
        | none =>
          simp only at hr ⊢
          cases hset : setIdx pre n p with
          | error e => rw [hset] at hr; simp at hr
          | ok pre1 =>
            rw [hset] at hr
            exact ih pre1 r hr
        | some b =>
          simp only at hr ⊢
          cases hadv : advance h n score fuel p with
          | error e => rw [hadv] at hr; simp at hr
          | ok q =>
            rw [hadv] at hr
            rw [advance_mono fuel p q fuel1 hadv hle]
            simp only at hr ⊢
            cases hset : setIdx pre n q with
            | error e => rw [hset] at hr; simp at hr
            | ok pre1 =>
              rw [hset] at hr
              exact ih pre1 r hr

/-! ## The trace of `level` in the search loop of `Delete` -/

/-- Dropping the trace from `deleteLoopTrace` gives `deleteLoop`. -/
theorem deleteLoopTrace_fst {h : List (Node α)} {score : Int} :
    ∀ (fuel : Nat) (p : Option Nat) (level : Int) (pre : List (Option Nat)),
      (match deleteLoopTrace h score fuel p level pre with
        | .error e => (.error e : Except Fault (List (Option Nat)))
        | .ok r => .ok r.1) = deleteLoop h score fuel p level pre := by
  intro fuel
  induction fuel with
  | zero => intro p level pre; rfl
  | succ f ih =>
    intro p level pre
    rw [deleteLoopTrace, deleteLoop]
    by_cases hneg : level < 0
    · rw [if_pos hneg, if_pos hneg]
    · rw [if_neg hneg, if_neg hneg]
      cases hnx : nextOf h p level with
      | error e => rfl
      | ok nx =>
        cases nx with
        | none =>
          simp only
          cases hset : setIdx pre level none with
          | error e => rfl
          | ok pre1 =>
            simp only
            rw [← ih p (level - 1) pre1]
            cases deleteLoopTrace h score f p (level - 1) pre1 <;> rfl
        | some b =>
          simp only
          cases hd : deref h (some b) with
          | error e => rfl
          | ok nb =>
            simp only
            by_cases heq : nb.score = score
            · rw [if_pos heq, if_pos heq]
              cases hset : setIdx pre level p with
              | error e => rfl
              | ok pre1 =>
                simp only
                rw [← ih p (level - 1) pre1]
                cases deleteLoopTrace h score f p (level - 1) pre1 <;> rfl
            · rw [if_neg heq, if_neg heq]
              by_cases hgt : nb.score > score
              · rw [if_pos hgt, if_pos hgt]
                cases hset : setIdx pre level none with
                | error e => rfl
                | ok pre1 =>
                  simp only
                  rw [← ih p (level - 1) pre1]
                  cases deleteLoopTrace h score f p (level - 1) pre1 <;> rfl
              · rw [if_neg hgt, if_neg hgt]
                by_cases hlt : nb.score < score
                · rw [if_pos hlt, if_pos hlt, ← ih (some b) level pre]
                  cases deleteLoopTrace h score f (some b) level pre <;> rfl
                · rw [if_neg hlt, if_neg hlt, ← ih p level pre]
                  cases deleteLoopTrace h score f p level pre <;> rfl

theorem descents_cons_same (a : Int) (tr : List Int) (hh : tr.head? = some a) :
    descents (a :: tr) = descents tr := by
  cases tr with
  | nil => simp at hh
  | cons b l =>
    simp only [List.head?_cons, Option.some.injEq] at hh
    subst hh
    simp [descents]

theorem descents_cons_down (a : Int) (tr : List Int) (hh : tr.head? = some (a - 1)) :
    descents (a :: tr) = descents tr + 1 := by
  cases tr with
  | nil => simp at hh
  | cons b l =>
    simp only [List.head?_cons, Option.some.injEq] at hh
    subst hh
    simp [descents]
    omega

theorem chain_cons_of_head {a x : Int} {tr : List Int} (hh : tr.head? = some x)
    (hx : StepDown a x) (hc : List.Chain' StepDown tr) : List.Chain' StepDown (a :: tr) := by
  cases tr with
  | nil => simp at hh
  | cons b l =>
    simp only [List.head?_cons, Option.some.injEq] at hh
    subst hh
    exact List.Chain'.cons hx hc

/-- Every trace of the search loop of `Delete` starts at the initial `level`, goes on by
steps that keep `level` or decrement it, and has `level + 1` descents. -/
theorem deleteLoopTrace_steps {h : List (Node α)} {score : Int} :
    ∀ (fuel : Nat) (p : Option Nat) (level : Int) (pre : List (Option Nat))
      (r : List (Option Nat) × List Int),
      deleteLoopTrace h score fuel p level pre = .ok r →
      r.2.head? = some level ∧ List.Chain' StepDown r.2 ∧
        descents r.2 = (level + 1).toNat := by
  intro fuel
  induction fuel with
  | zero => intro p level pre r hr; simp [deleteLoopTrace] at hr
  | succ f ih =>
    intro p level pre r hr
    have hdown : ∀ (x : List (Option Nat) × List Int) (q : Option Nat)
        (pre1 : List (Option Nat)), ¬ level < 0 →
        deleteLoopTrace h score f q (level - 1) pre1 = .ok x →
        (level :: x.2).head? = some level ∧ List.Chain' StepDown (level :: x.2) ∧
          descents (level :: x.2) = (level + 1).toNat := by
      intro x q pre1 hneg hx
      obtain ⟨h1, h2, h3⟩ := ih q (level - 1) pre1 x hx
      refine ⟨rfl, chain_cons_of_head h1 (Or.inr rfl) h2, ?_⟩
      rw [descents_cons_down level x.2 h1, h3]
      omega
    have hsame : ∀ (x : List (Option Nat) × List Int) (q : Option Nat), ¬ level < 0 →
        deleteLoopTrace h score f q level pre = .ok x →
        (level :: x.2).head? = some level ∧ List.Chain' StepDown (level :: x.2) ∧
          descents (level :: x.2) = (level + 1).toNat := by
      intro x q hneg hx
      obtain ⟨h1, h2, h3⟩ := ih q level pre x hx
      refine ⟨rfl, chain_cons_of_head h1 (Or.inl rfl) h2, ?_⟩
      rw [descents_cons_same level x.2 h1, h3]
    rw [deleteLoopTrace] at hr
    by_cases hneg : level < 0
    · rw [if_pos hneg] at hr
      injection hr with hr
      subst hr
      refine ⟨rfl, List.chain'_singleton _, ?_⟩
      simp only [descents]
      omega
    · rw [if_neg hneg] at hr
      cases hnx : nextOf h p level with
      | error e => rw [hnx] at hr; simp at hr
      | ok nx =>
        rw [hnx] at hr
        cases nx with
        | none =>
          simp only at hr
          cases hset : setIdx pre level none with
          | error e => rw [hset] at hr; simp at hr
          | ok pre1 =>
            rw [hset] at hr
            simp only at hr
            cases hx : deleteLoopTrace h score f p (level - 1) pre1 with
            | error e => rw [hx] at hr; simp at hr
            | ok x =>
              rw [hx] at hr
              injection hr with hr
              subst hr
              exact hdown x p pre1 hneg hx
        | some b =>
          simp only at hr
          cases hd : deref h (some b) with
          | error e => rw [hd] at hr; simp at hr
          | ok nb =>
            rw [hd] at hr
            simp only at hr
            by_cases heq : nb.score = score
            · rw [if_pos heq] at hr
              cases hset : setIdx pre level p with
              | error e => rw [hset] at hr; simp at hr
              | ok pre1 =>
                rw [hset] at hr
                simp only at hr
                cases hx : deleteLoopTrace h score f p (level - 1) pre1 with
                | error e => rw [hx] at hr; simp at hr
                | ok x =>
                  rw [hx] at hr
                  injection hr with hr
                  subst hr
                  exact hdown x p pre1 hneg hx
            · rw [if_neg heq] at hr
              by_cases hgt : nb.score > score
              · rw [if_pos hgt] at hr
                cases hset : setIdx pre level none with
                | error e => rw [hset] at hr; simp at hr
                | ok pre1 =>
                  rw [hset] at hr
                  simp only at hr
                  cases hx : deleteLoopTrace h score f p (level - 1) pre1 with
                  | error e => rw [hx] at hr; simp at hr
                  | ok x =>
                    rw [hx] at hr
                    injection hr with hr
                    subst hr
                    exact hdown x p pre1 hneg hx
              · rw [if_neg hgt] at hr
                by_cases hlt : nb.score < score
                · rw [if_pos hlt] at hr
                  cases hx : deleteLoopTrace h score f (some b) level pre with
                  | error e => rw [hx] at hr; simp at hr
                  | ok x =>
                    rw [hx] at hr
                    injection hr with hr
                    subst hr
                    exact hsame x (some b) hneg hx
                · rw [if_neg hlt] at hr
                  cases hx : deleteLoopTrace h score f p level pre with
                  | error e => rw [hx] at hr; simp at hr
                  | ok x =>
                    rw [hx] at hr
                    injection hr with hr
                    subst hr
                    exact hsame x p hneg hx

/-- When `deleteLoop` returns, `deleteLoopTrace` returns the same `preNodes` with a trace. -/
theorem deleteLoopTrace_of_ok {h : List (Node α)} {score : Int} {fuel : Nat} {p : Option Nat}
    {level : Int} {pre r : List (Option Nat)}
    (hr : deleteLoop h score fuel p level pre = .ok r) :
    ∃ tr, deleteLoopTrace h score fuel p level pre = .ok (r, tr) := by
  have hfst := @deleteLoopTrace_fst α h score fuel p level pre
  rw [hr] at hfst
  cases hx : deleteLoopTrace h score fuel p level pre with
  | error e => rw [hx] at hfst; simp at hfst
  | ok x =>
    rw [hx] at hfst
    injection hfst with hfst
    exact ⟨x.2, by rw [← hfst]⟩

/-! ## Properties of the operations -/

theorem exampleList_reachable : Reachable 2 exampleList :=
  ⟨exampleRand, exampleOps, 5, rfl⟩

theorem exampleList_entries :
    entries exampleList = .ok [(3, some 2), (5, some 1), (8, some 3)] := rfl

theorem reachable_inv_pos {maxLevel : Int} (hM : 1 ≤ maxLevel) {s : SkipList α}
    (hs : Reachable maxLevel s) :
    ∃ (M : Nat) (c : Nat → List Nat), 1 ≤ M ∧ maxLevel = (M : Int) ∧ Inv s M c := by
  obtain ⟨c, hinv⟩ := reachable_inv (by omega) hs
  exact ⟨maxLevel.toNat, c, by omega, by omega, hinv⟩

theorem mem_keys_pairsAt {h : List (Node α)} {l : List Nat} {k : Int} :
    k ∈ (pairsAt h l).map Prod.fst ↔ ∃ b, b ∈ l ∧ key h b = k := by
  rw [keys_pairsAt, List.mem_map]

theorem lookup_none_of_absent {h : List (Node α)} {k : Int} {l : List Nat}
    (habs : ∀ x, x ∈ l → key h x ≠ k) : lookup h k l = none := by
  unfold lookup
  cases hf : foundAt h k l with
  | none => rfl
  | some b =>
    have hb := foundAt_some hf
    exact absurd hb.2 (habs b ((List.dropWhile_sublist _).subset (List.mem_of_mem_head? hb.1)))

/-- C1. Membership correctness: for every `maxLevel ≥ 1`, every sequence of `Insert` and
`Delete` calls applied to `NewSkipList(maxLevel)` and every stream of coin outcomes, the
calls return a list, and `Find(k)` on it returns the value the finite map of the calls gives
to `k` (the value of the most recent `Insert(k, _)` not followed by a `Delete(k)`), and
`nil` when the map has no value for `k`. -/
theorem find_agrees_with_map (maxLevel : Int) (rand : Nat → Bool) (ops : List (Op α))
    (k : Int) (hM : 1 ≤ maxLevel) :
    ∃ s calls, run maxLevel rand ops = .ok (s, calls) ∧
      Find s k = .ok (match mapRun ops k with
        | some v => v
        | none => none) := by
  obtain ⟨M, rfl⟩ := Int.eq_ofNat_of_zero_le (by omega : 0 ≤ maxLevel)
  have hM1 : 1 ≤ M := by omega
  obtain ⟨s, calls, c, hrun, hinv, hf, _⟩ := @run_model α M hM1 rand ops
  refine ⟨s, calls, hrun, ?_⟩
  rw [hinv.find_eq, lookup_eq_assoc (hinv.sorted 0 (by omega)), hf k]

theorem find_agrees_with_map_witness :
    (1 : Int) ≤ 2 ∧ ∃ s calls, run 2 exampleRand (exampleOps ++ [.insert 3 (some 7), .delete 8])
        = .ok (s, calls) ∧
      Find s 3 = .ok (match mapRun (exampleOps ++ [.insert 3 (some 7), .delete 8]) 3 with
        | some v => v
        | none => none) :=
  ⟨by decide, find_agrees_with_map 2 exampleRand _ 3 (by decide)⟩

/-- C2. At `maxLevel = 0` the order invariant fails: after `Insert(1, 10)` and
`Insert(2, 20)` on `NewSkipList(0)` the walk of level 0 meets the key 2 before the key 1,
and `Find(1)` returns `nil` although 1 is stored. -/
theorem order_fails_at_maxLevel_zero :
    entriesAfter 0 (fun _ => false) [Op.insert 1 (some 10), Op.insert 2 (some 20)] =
        .ok [(2, some 20), (1, some 10)] ∧
      findAfter 0 (fun _ => false) [Op.insert 1 (some 10), Op.insert 2 (some 20)] 1 =
        .ok (none : Option Nat) :=
  ⟨rfl, rfl⟩

/-- For every `maxLevel ≥ 1` the keys met by walking level 0 of a reachable list are
strictly increasing. -/
theorem entries_sorted (maxLevel : Int) (s : SkipList α) (hM : 1 ≤ maxLevel)
    (hs : Reachable maxLevel s) :
    ∃ m, entries s = .ok m ∧ (m.map Prod.fst).Pairwise (fun a b => a < b) := by
  obtain ⟨M, c, hM1, _, hinv⟩ := reachable_inv_pos hM hs
  exact ⟨_, hinv.entries_eq, (sorted_iff_keys _ _).mp (hinv.sorted 0 (by omega))⟩

/-- C3. Insert postcondition: for every `maxLevel ≥ 1`, every list reachable from
`NewSkipList(maxLevel)`, every key `k`, value `v` and stream of coin outcomes, the level-0
pairs `m` of the list have strictly increasing keys, `Insert(k, v)` returns, and `m` splits
into the pairs `l1` with a key below `k` and the pairs `l2` with a key above `k`, with the
pair of `k` between them when `k` is stored, such that the level-0 pairs afterwards are
`l1`, then `(k, v)`, then `l2`. -/
theorem insert_postcondition (maxLevel : Int) (s : SkipList α) (k : Int) (v : Option α)
    (rand : Nat → Bool) (calls : Nat) (hM : 1 ≤ maxLevel) (hs : Reachable maxLevel s) :
    ∃ m l1 l2 s1 calls1, entries s = .ok m ∧ (m.map Prod.fst).Pairwise (fun a b => a < b) ∧
      (m = l1 ++ l2 ∨ ∃ v0, m = l1 ++ (k, v0) :: l2) ∧
      (∀ p, p ∈ l1 → p.1 < k) ∧ (∀ p, p ∈ l2 → k < p.1) ∧
      Insert s k v rand calls = .ok (s1, calls1) ∧
      entries s1 = .ok (l1 ++ (k, v) :: l2) := by
  obtain ⟨M, c, hM1, _, hinv⟩ := reachable_inv_pos hM hs
  have hs0 := hinv.sorted 0 (by omega)
  obtain ⟨s1, calls1, c1, hrun, hinv1, hent⟩ := hinv.insert_entries hM1 k v rand calls
  refine ⟨_, pairsAt s.heap (below s.heap k (c 0)), pairsAt s.heap (above s.heap k (c 0)),
    s1, calls1, hinv.entries_eq, (sorted_iff_keys _ _).mp hs0, ?_, ?_, ?_, hrun, ?_⟩
  · cases hf : foundAt s.heap k (c 0) with
    | none =>
      left
      have hab : above s.heap k (c 0) = notBelow s.heap k (c 0) := by simp [above, hf]
      rw [hab, ← pairsAt_append, below_append_notBelow]
    | some t =>
      right
      have hab : above s.heap k (c 0) = (notBelow s.heap k (c 0)).tail := by simp [above, hf]
      refine ⟨val s.heap t, ?_⟩
      conv_lhs => rw [(split_of_found hf).1]
      rw [hab, pairsAt_append, ← (foundAt_some hf).2]
      rfl
  · intro p hp
    obtain ⟨a, ha, rfl⟩ := List.mem_map.mp hp
    exact (mem_below ha).2
  · intro p hp
    obtain ⟨a, ha, rfl⟩ := List.mem_map.mp hp
    rw [above_eq_filter hs0, List.mem_filter] at ha
    simpa using ha.2
  · rw [hinv1.entries_eq, hent, putPair_pairsAt hs0]

theorem insert_postcondition_witness :
    (1 : Int) ≤ 2 ∧ Reachable 2 exampleList ∧
      ∃ m l1 l2 s1 calls1, entries exampleList = .ok m ∧
        (m.map Prod.fst).Pairwise (fun a b => a < b) ∧
        (m = l1 ++ l2 ∨ ∃ v0, m = l1 ++ (4, v0) :: l2) ∧
        (∀ p, p ∈ l1 → p.1 < 4) ∧ (∀ p, p ∈ l2 → 4 < p.1) ∧
        Insert exampleList 4 (some 9) exampleRand 5 = .ok (s1, calls1) ∧
        entries s1 = .ok (l1 ++ (4, some 9) :: l2) :=
  ⟨by decide, exampleList_reachable,
    insert_postcondition 2 exampleList 4 (some 9) exampleRand 5 (by decide)
      exampleList_reachable⟩

/-- C4. Delete postcondition: for every `maxLevel ≥ 1`, every list reachable from
`NewSkipList(maxLevel)` and every key `k` it stores, `Delete(k)` returns, the level-0 pairs
afterwards are those before with the pair of `k` removed and the others in the same order,
`Find(k)` afterwards returns `nil`, and `Len()` is one less. -/
theorem delete_postcondition (maxLevel : Int) (s : SkipList α) (k : Int)
    (m : List (Int × Option α)) (hM : 1 ≤ maxLevel) (hs : Reachable maxLevel s)
    (hm : entries s = .ok m) (hk : k ∈ m.map Prod.fst) :
    ∃ l1 v l2 s1 n, m = l1 ++ (k, v) :: l2 ∧ Delete s k = .ok s1 ∧
      entries s1 = .ok (l1 ++ l2) ∧ Find s1 k = .ok none ∧
      Len s = .ok n ∧ Len s1 = .ok (n - 1) := by
  obtain ⟨M, c, hM1, _, hinv⟩ := reachable_inv_pos hM hs
  have hs0 := hinv.sorted 0 (by omega)
  rw [hinv.entries_eq] at hm
  injection hm with hm
  subst hm
  obtain ⟨b, hbm, hbk⟩ := mem_keys_pairsAt.mp hk
  have hf := foundAt_of_mem hs0 hbm hbk
  have hsp := split_of_found hf
  obtain ⟨s1, hrun, _, hkey, hval, hinv1, _⟩ := hinv.delete_ok k
  refine ⟨pairsAt s.heap (below s.heap k (c 0)), val s.heap b,
    pairsAt s.heap (notBelow s.heap k (c 0)).tail, s1, ((c 0).length : Int), ?_, hrun, ?_, ?_,
    hinv.len_eq, ?_⟩
  · conv_lhs => rw [hsp.1]
    rw [pairsAt_append]
    show _ ++ (key s.heap b, val s.heap b) :: _ = _
    rw [hbk]
    rfl
  · rw [hinv1.entries_eq]
    show Except.ok (pairsAt s1.heap (if 0 < max M 1 then unlinked s.heap k (c 0) else c 0)) = _
    rw [if_pos (by omega), hsp.2, ← pairsAt_append]
    congr 1
    exact pairsAt_congr (fun x _ => ⟨hkey x, hval x⟩)
  · rw [hinv1.find_eq]
    congr 1
    refine lookup_none_of_absent ?_
    intro x hx
    have hx1 : x ∈ (if 0 < max M 1 then unlinked s.heap k (c 0) else c 0) := hx
    rw [if_pos (by omega), unlinked_eq_filter hs0, List.mem_filter] at hx1
    rw [hkey]
    simpa using hx1.2
  · rw [hinv1.len_eq]
    congr 1
    show (((if 0 < max M 1 then unlinked s.heap k (c 0) else c 0)).length : Int) = _
    rw [if_pos (by omega)]
    have h1 : (c 0).length =
        (below s.heap k (c 0)).length + ((notBelow s.heap k (c 0)).tail.length + 1) := by
      conv_lhs => rw [hsp.1]
      simp
    rw [hsp.2, List.length_append, h1]
    push_cast
    ring

theorem delete_postcondition_witness :
    (1 : Int) ≤ 2 ∧ Reachable 2 exampleList ∧
      entries exampleList = .ok [(3, some 2), (5, some 1), (8, some 3)] ∧
      (5 : Int) ∈ [((3 : Int), some 2), (5, some 1), (8, some 3)].map Prod.fst ∧
      ∃ l1 v l2 s1 n, [((3 : Int), some 2), (5, some 1), (8, some 3)] = l1 ++ (5, v) :: l2 ∧
        Delete exampleList 5 = .ok s1 ∧ entries s1 = .ok (l1 ++ l2) ∧
        Find s1 5 = .ok none ∧ Len exampleList = .ok n ∧ Len s1 = .ok (n - 1) :=
  ⟨by decide, exampleList_reachable, exampleList_entries, by decide,
    delete_postcondition 2 exampleList 5 _ (by decide) exampleList_reachable
      exampleList_entries (by decide)⟩

/-- C5. Delete of an absent key is a no-op: for every `maxLevel ≥ 0`, every list reachable
from `NewSkipList(maxLevel)` and every key `k` that no node on level 0 carries, `Delete(k)`
returns the list it was given, with every node, forward link and value unchanged, so `Len()`
and `String()` return the same results before and after. -/
theorem delete_absent_noop (maxLevel : Int) (s : SkipList α) (k : Int)
    (m : List (Int × Option α)) (hM : 0 ≤ maxLevel) (hs : Reachable maxLevel s)
    (hm : entries s = .ok m) (hk : k ∉ m.map Prod.fst) :
    Delete s k = .ok s ∧
      ∀ s1, Delete s k = .ok s1 → s1.heap = s.heap ∧ Len s1 = Len s ∧
        ∀ fmtv : Option α → String, SkipList.String fmtv s1 = SkipList.String fmtv s := by
  obtain ⟨c, hinv⟩ := reachable_inv hM hs
  rw [hinv.entries_eq] at hm
  injection hm with hm
  subst hm
  have habs : ∀ b, b ∈ c 0 → key s.heap b ≠ k :=
    fun b hb hbk => hk (mem_keys_pairsAt.mpr ⟨b, hb, hbk⟩)
  obtain ⟨s1, hrun, _, _, _, _, hsame⟩ := hinv.delete_ok k
  have hL := topLevel_le c (maxLevel.toNat - 1)
  have hs1 : s1 = s := by
    apply hsame
    intro j hj
    cases hf : foundAt s.heap k (c j) with
    | none => rfl
    | some b =>
      exfalso
      have hb := foundAt_some hf
      have hbm : b ∈ c j := (List.dropWhile_sublist _).subset (List.mem_of_mem_head? hb.1)
      rcases Nat.eq_zero_or_pos j with h0 | hpos
      · rw [h0] at hbm
        exact habs b hbm hb.2
      · exact habs b ((hinv.sub_zero j (by omega)).subset hbm) hb.2
  rw [hs1] at hrun
  refine ⟨hrun, ?_⟩
  intro s2 h2
  rw [hrun] at h2
  injection h2 with h2
  subst h2
  exact ⟨rfl, rfl, fun _ => rfl⟩

theorem exampleListZero_reachable : Reachable 0 exampleListZero :=
  ⟨fun _ => false, [.insert 1 (some 10), .insert 2 (some 20)], 0, rfl⟩

theorem delete_absent_noop_witness :
    ((0 : Int) ≤ 0 ∧ Reachable 0 exampleListZero ∧
      entries exampleListZero = .ok [(2, some 20), (1, some 10)] ∧
      (3 : Int) ∉ [((2 : Int), some 20), (1, some 10)].map Prod.fst ∧
      Delete exampleListZero 3 = .ok exampleListZero) ∧
    ((0 : Int) ≤ 2 ∧ Reachable 2 exampleList ∧
      entries exampleList = .ok [(3, some 2), (5, some 1), (8, some 3)] ∧
      (4 : Int) ∉ [((3 : Int), some 2), (5, some 1), (8, some 3)].map Prod.fst ∧
      Delete exampleList 4 = .ok exampleList ∧
      ∀ s1, Delete exampleList 4 = .ok s1 → s1.heap = exampleList.heap ∧
        Len s1 = Len exampleList ∧
        ∀ fmtv : Option Nat → String,
          SkipList.String fmtv s1 = SkipList.String fmtv exampleList) :=
  ⟨⟨by decide, exampleListZero_reachable, rfl, by decide,
      (delete_absent_noop 0 exampleListZero 3 [(2, some 20), (1, some 10)] (by decide)
        exampleListZero_reachable rfl (by decide)).1⟩,
    ⟨by decide, exampleList_reachable, exampleList_entries, by decide,
      delete_absent_noop 2 exampleList 4 _ (by decide) exampleList_reachable
        exampleList_entries (by decide)⟩⟩

/-- C6. Overwrite leaves structure alone: for every `maxLevel ≥ 1`, every list reachable
from `NewSkipList(maxLevel)` and every key `k` it stores, `Insert(k, v)` returns the list
with the same heap except that the `obj` field of one node, a node of level 0 with key `k`,
is `v`: no node is created, no forward link and no other value changes, no coin outcome is
drawn, and `Len()` is unchanged. -/
theorem overwrite_frame (maxLevel : Int) (s : SkipList α) (k : Int) (v : Option α)
    (rand : Nat → Bool) (calls : Nat) (m : List (Int × Option α)) (hM : 1 ≤ maxLevel)
    (hs : Reachable maxLevel s) (hm : entries s = .ok m) (hk : k ∈ m.map Prod.fst) :
    ∃ b n l, chainOf s 0 = .ok l ∧ b ∈ l ∧ s.heap[b]? = some n ∧ n.score = k ∧
      Insert s k v rand calls =
        .ok ({ s with heap := s.heap.set b { n with obj := v } }, calls) ∧
      Len { s with heap := s.heap.set b { n with obj := v } } = Len s := by
  obtain ⟨M, c, hM1, _, hinv⟩ := reachable_inv_pos hM hs
  have hs0 := hinv.sorted 0 (by omega)
  rw [hinv.entries_eq] at hm
  injection hm with hm
  subst hm
  obtain ⟨b, hbm, hbk⟩ := mem_keys_pairsAt.mp hk
  have hf := foundAt_some (foundAt_of_mem hs0 hbm hbk)
  have hr : rightAt M s.heap c k 0 = notBelow s.heap k (c 0) := by
    simp [rightAt, show 0 < M by omega]
  obtain ⟨hrun, hinv1⟩ := insert_overwrite hinv k v rand calls (by rw [hr]; exact hf.1) hbk
  have hblt : b < s.heap.length :=
    path_lt (hinv.path 0 (by omega)) b (List.mem_cons_of_mem _ hbm)
  have hget : s.heap[b]? = some s.heap[b] := List.getElem?_eq_getElem hblt
  have hsv : setVal s.heap b v = s.heap.set b { s.heap[b] with obj := v } := by
    simp only [setVal, hget]
  rw [hsv] at hrun hinv1
  refine ⟨b, s.heap[b], c 0, hinv.chainOf_eq (by omega), hbm, hget, ?_, hrun, ?_⟩
  · rw [← hbk]
    simp only [key, hget]
  · rw [hinv1.len_eq, hinv.len_eq]

theorem overwrite_frame_witness :
    (1 : Int) ≤ 2 ∧ Reachable 2 exampleList ∧
      entries exampleList = .ok [(3, some 2), (5, some 1), (8, some 3)] ∧
      (5 : Int) ∈ [((3 : Int), some 2), (5, some 1), (8, some 3)].map Prod.fst ∧
      ∃ b n l, chainOf exampleList 0 = .ok l ∧ b ∈ l ∧ exampleList.heap[b]? = some n ∧
        n.score = 5 ∧
        Insert exampleList 5 (some 4) exampleRand 5 =
          .ok ({ exampleList with heap := exampleList.heap.set b { n with obj := some 4 } }, 5) ∧
        Len { exampleList with heap := exampleList.heap.set b { n with obj := some 4 } } =
          Len exampleList :=
  ⟨by decide, exampleList_reachable, exampleList_entries, by decide,
    overwrite_frame 2 exampleList 5 (some 4) exampleRand 5 _ (by decide)
      exampleList_reachable exampleList_entries (by decide)⟩

theorem assoc_isSome_iff (m : List (Int × Option α)) (k : Int) :
    (assoc m k).isSome ↔ k ∈ m.map Prod.fst := by
  unfold assoc
  cases hf : m.find? (fun p => decide (p.1 = k)) with
  | none =>
    rw [List.find?_eq_none] at hf
    simp only [Option.isSome_none, Bool.false_eq_true, false_iff, List.mem_map, not_exists,
      not_and]
    intro p hp hpk
    exact hf p hp (by simpa using hpk)
  | some p =>
    have hp := List.mem_of_find?_eq_some hf
    have hpk : p.1 = k := by simpa using List.find?_some hf
    simp only [Option.isSome_some, true_iff, List.mem_map]
    exact ⟨p, hp, hpk⟩

/-- C7. Count consistency: for every `maxLevel ≥ 1` and every sequence of `Insert` and
`Delete` calls on `NewSkipList(maxLevel)`, the calls return a list whose level-0 keys are
distinct and are exactly the keys of the finite map of the calls, and `Len()` is their
number, which equals the number of `Insert` calls whose key was absent at the time of the
call minus the number of `Delete` calls whose key was present at the time of the call; for
the empty sequence of calls `Len()` is 0. -/
theorem len_counts (maxLevel : Int) (rand : Nat → Bool) (ops : List (Op α))
    (hM : 1 ≤ maxLevel) :
    ∃ s calls m, run maxLevel rand ops = .ok (s, calls) ∧ entries s = .ok m ∧
      (m.map Prod.fst).Nodup ∧ (∀ k, k ∈ m.map Prod.fst ↔ (mapRun ops k).isSome) ∧
      Len s = .ok (m.length : Int) ∧
      (m.length : Int) = (freshInserts (fun _ => none) ops : Int) -
        (presentDeletes (fun _ => none) ops : Int) ∧
      (ops = [] → Len s = .ok 0) := by
  obtain ⟨M, rfl⟩ := Int.eq_ofNat_of_zero_le (by omega : 0 ≤ maxLevel)
  have hM1 : 1 ≤ M := by omega
  obtain ⟨s, calls, c, hrun, hinv, hf, hlen⟩ := @run_model α M hM1 rand ops
  have hs0 := hinv.sorted 0 (by omega)
  have hml : (pairsAt s.heap (c 0)).length = (c 0).length := by simp [pairsAt]
  refine ⟨s, calls, pairsAt s.heap (c 0), hrun, hinv.entries_eq, ?_, ?_, ?_, ?_, ?_⟩
  · refine List.Pairwise.imp ?_ ((sorted_iff_keys _ _).mp hs0)
    intro a b hab
    omega
  · intro k
    rw [← hf k, assoc_isSome_iff]
  · rw [hinv.len_eq, hml]
  · rw [hml, hlen]
  · intro hops
    rw [hinv.len_eq]
    subst hops
    simp only [freshInserts, presentDeletes] at hlen
    rw [hlen]
    rfl

theorem len_counts_witness :
    (1 : Int) ≤ 2 ∧ ∃ s calls m,
      run 2 exampleRand (exampleOps ++ [.insert 3 (some 7), .delete 8, .delete 4]) =
        .ok (s, calls) ∧
      entries s = .ok m ∧ (m.map Prod.fst).Nodup ∧
      (∀ k, k ∈ m.map Prod.fst ↔
        (mapRun (exampleOps ++ [.insert 3 (some 7), .delete 8, .delete 4]) k).isSome) ∧
      Len s = .ok (m.length : Int) ∧
      (m.length : Int) =
        (freshInserts (fun _ => none)
          (exampleOps ++ [.insert 3 (some 7), .delete 8, .delete 4]) : Int) -
        (presentDeletes (fun _ => none)
          (exampleOps ++ [.insert 3 (some 7), .delete 8, .delete 4]) : Int) ∧
      (exampleOps ++ [.insert 3 (some 7), .delete 8, .delete 4] = [] → Len s = .ok 0) :=
  ⟨by decide, len_counts 2 exampleRand _ (by decide)⟩

/-- C9. A stored `nil` value is not told from an absent key: after `Insert(1, nil)` on
`NewSkipList(1)` the key 1 is stored, and `Find(1)` returns `nil`, the not-found result. -/
theorem find_nil_for_stored_key :
    entriesAfter 1 (fun _ => false) [Op.insert 1 (none : Option Nat)] = .ok [(1, none)] ∧
      findAfter 1 (fun _ => false) [Op.insert 1 (none : Option Nat)] 1 = .ok none :=
  ⟨rfl, rfl⟩

/-- C9, amended. For every `maxLevel ≥ 1`, every list reachable from `NewSkipList(maxLevel)`
and every key `k`, `Find(k)` returns `nil` if and only if `k` is not stored or is stored
with the value `nil`, and returns a value `v` other than `nil` if and only if `k` is stored
with `v`. -/
theorem find_nil_iff (maxLevel : Int) (s : SkipList α) (k : Int) (m : List (Int × Option α))
    (hM : 1 ≤ maxLevel) (hs : Reachable maxLevel s) (hm : entries s = .ok m) :
    (Find s k = .ok none ↔ (k ∉ m.map Prod.fst ∨ (k, none) ∈ m)) ∧
      ∀ v : α, Find s k = .ok (some v) ↔ (k, some v) ∈ m := by
  obtain ⟨M, c, hM1, _, hinv⟩ := reachable_inv_pos hM hs
  have hs0 := hinv.sorted 0 (by omega)
  rw [hinv.entries_eq] at hm
  injection hm with hm
  subst hm
  have hmem : ∀ r : Option α, (k, r) ∈ pairsAt s.heap (c 0) ↔
      ∃ b, b ∈ c 0 ∧ key s.heap b = k ∧ val s.heap b = r := by
    intro r
    simp only [pairsAt, List.mem_map, Prod.mk.injEq]
  have hfind : ∀ r : Option α, Find s k = .ok r ↔ lookup s.heap k (c 0) = r := by
    intro r
    rw [hinv.find_eq]
    exact ⟨fun h => by injection h, fun h => by rw [h]⟩
  cases hf : foundAt s.heap k (c 0) with
  | none =>
    have hl : lookup s.heap k (c 0) = none := by simp [lookup, hf]
    have habs : ∀ b, b ∈ c 0 → key s.heap b ≠ k := by
      intro b hb hbk
      rw [foundAt_of_mem hs0 hb hbk] at hf
      exact Option.noConfusion hf
    refine ⟨?_, ?_⟩
    · rw [hfind, hl]
      simp only [true_iff]
      left
      intro hc
      obtain ⟨b, hb, hbk⟩ := mem_keys_pairsAt.mp hc
      exact habs b hb hbk
    · intro v
      rw [hfind, hl, hmem]
      constructor
      · intro h; exact Option.noConfusion h
      · rintro ⟨b, hb, hbk, _⟩; exact absurd hbk (habs b hb)
  | some t =>
    have ht := foundAt_some hf
    have htm : t ∈ c 0 := (List.dropWhile_sublist _).subset (List.mem_of_mem_head? ht.1)
    have hl : lookup s.heap k (c 0) = val s.heap t := by simp [lookup, hf]
    have huniq : ∀ b, b ∈ c 0 → key s.heap b = k → b = t :=
      fun b hb hbk => sorted_unique hs0 hb htm (by rw [hbk, ht.2])
    have hin : k ∈ (pairsAt s.heap (c 0)).map Prod.fst := mem_keys_pairsAt.mpr ⟨t, htm, ht.2⟩
    refine ⟨?_, ?_⟩
    · rw [hfind, hl, hmem]
      constructor
      · intro h; exact Or.inr ⟨t, htm, ht.2, h⟩
      · rintro (h | ⟨b, hb, hbk, hbv⟩)
        · exact absurd hin h
        · rw [← huniq b hb hbk]; exact hbv
    · intro v
      rw [hfind, hl, hmem]
      constructor
      · intro h; exact ⟨t, htm, ht.2, h⟩
      · rintro ⟨b, hb, hbk, hbv⟩
        rw [← huniq b hb hbk]; exact hbv

theorem find_nil_iff_witness :
    (1 : Int) ≤ 2 ∧ Reachable 2 exampleList ∧
      entries exampleList = .ok [(3, some 2), (5, some 1), (8, some 3)] ∧
      ((Find exampleList 5 = .ok none ↔
        ((5 : Int) ∉ [((3 : Int), some 2), (5, some 1), (8, some 3)].map Prod.fst ∨
          ((5 : Int), none) ∈ [((3 : Int), some 2), (5, some 1), (8, some 3)])) ∧
      ∀ v : Nat, Find exampleList 5 = .ok (some v) ↔
        ((5 : Int), some v) ∈ [((3 : Int), some 2), (5, some 1), (8, some 3)]) :=
  ⟨by decide, exampleList_reachable, exampleList_entries,
    find_nil_iff 2 exampleList 5 _ (by decide) exampleList_reachable exampleList_entries⟩

/-- C10. `NewSkipList(-1)` does not fail: it returns a list whose head has no forward
links, and `Level` can be called on it and returns 0. -/
theorem newSkipList_minus_one :
    @NewSkipList Nat (-1) =
        .ok { heap := [⟨0, none, -1, []⟩], head := some 0, tail := none, maxLevel := -1 } ∧
      Level ({ heap := [⟨0, none, -1, []⟩], head := some 0, tail := none, maxLevel := -1 } :
        SkipList Nat) = .ok 0 :=
  ⟨rfl, rfl⟩

/-- C10, amended. `NewSkipList` does not check `maxLevel`: for `maxLevel ≤ -2` it panics in
`NewNode` on a slice of negative length and yields no list; for `maxLevel = -1` it returns
a list whose head has no forward links, on which `Level` returns 0 and `Insert`, `Delete`,
`Find` and `Len` panic with an index out of range. -/
theorem newSkipList_negative (maxLevel : Int) (hneg : maxLevel < 0) :
    (maxLevel ≤ -2 → @NewSkipList α maxLevel = .error .makeslice) ∧
      (maxLevel = -1 → ∃ s : SkipList α, NewSkipList maxLevel = .ok s ∧
        s.heap = [⟨0, none, -1, []⟩] ∧ Level s = .ok 0 ∧
        (∀ k v rand calls, Insert s k v rand calls = .error .indexOutOfRange) ∧
        (∀ k, Delete s k = .error .indexOutOfRange) ∧
        (∀ k, Find s k = .error .indexOutOfRange) ∧
        Len s = .error .indexOutOfRange) := by
  constructor
  · intro h2
    have h1 : maxLevel + 1 < 0 := by omega
    simp [NewSkipList, NewNode, makeSlice, h1]
  · intro h1
    subst h1
    refine ⟨{ heap := [⟨0, none, -1, []⟩], head := some 0, tail := none, maxLevel := -1 },
      rfl, rfl, rfl, ?_, ?_, ?_, rfl⟩
    · intro k v rand calls
      rfl
    · intro k
      rfl
    · intro k
      rfl

theorem newSkipList_negative_witness :
    ((-3 : Int) < 0 ∧ @NewSkipList Nat (-3) = .error .makeslice) ∧
      ((-1 : Int) < 0 ∧ ∃ s : SkipList Nat, NewSkipList (-1) = .ok s ∧
        s.heap = [⟨0, none, -1, []⟩] ∧ Level s = .ok 0 ∧
        (∀ k v rand calls, Insert s k v rand calls = .error .indexOutOfRange) ∧
        (∀ k, Delete s k = .error .indexOutOfRange) ∧
        (∀ k, Find s k = .error .indexOutOfRange) ∧
        Len s = .error .indexOutOfRange) :=
  ⟨⟨by decide, (newSkipList_negative (-3) (by decide)).1 (by decide)⟩,
    ⟨by decide, (newSkipList_negative (-1) (by decide)).2 rfl⟩⟩

/-! ## Properties of the levels -/

theorem exampleEmpty_reachable : Reachable 1 exampleEmpty :=
  ⟨fun _ => true, [], 0, rfl⟩

theorem exampleTop_reachable : Reachable 1 exampleTop :=
  ⟨fun _ => true, [.insert 5 (some 1)], 1, rfl⟩

theorem exampleTopTwo_reachable : Reachable 1 exampleTopTwo :=
  ⟨fun _ => true, [.insert 1 (some 10), .insert 2 (some 20)], 2, rfl⟩

theorem exampleTopDeleted_reachable : Reachable 1 exampleTopDeleted :=
  ⟨fun _ => true, [.insert 5 (some 1), .delete 5], 1, rfl⟩

/-- C11. `Level` does not look at the level `maxLevel`: in the list built by `Insert(5, 1)`
on `NewSkipList(1)` with a true coin the head has a successor at level 1, and `Level`
returns 0. -/
theorem level_skips_top_level :
    Reachable 1 exampleTop ∧ nextOf exampleTop.heap exampleTop.head 1 = .ok (some 1) ∧
      Level exampleTop = .ok 0 :=
  ⟨exampleTop_reachable, rfl, rfl⟩

/-- C11, amended. For every `maxLevel ≥ 1` and every list reachable from
`NewSkipList(maxLevel)`, `Level()` returns the largest level `i` in `[1, maxLevel - 1]` at
which the head has a successor, and 0 when there is no such level. -/
theorem level_below_top (maxLevel : Int) (s : SkipList α) (hM : 1 ≤ maxLevel)
    (hs : Reachable maxLevel s) :
    ∃ L : Nat, Level s = .ok (L : Int) ∧ (L : Int) ≤ maxLevel - 1 ∧
      (1 ≤ L → ∃ b, nextOf s.heap s.head (L : Int) = .ok (some b)) ∧
      ∀ i : Nat, L < i → (i : Int) ≤ maxLevel - 1 →
        nextOf s.heap s.head (i : Int) = .ok none := by
  obtain ⟨M, c, hM1, rfl, hinv⟩ := reachable_inv_pos hM hs
  have hL := topLevel_le c (M - 1)
  refine ⟨topLevel c (M - 1), hinv.level_eq, by omega, ?_, ?_⟩
  · intro h1
    have hne := topLevel_nonempty c (M - 1) (by omega)
    have hp := nextOf_path_head (hinv.path (topLevel c (M - 1)) (by omega))
    rw [hinv.head_eq, hp]
    cases hc : c (topLevel c (M - 1)) with
    | nil => exact absurd hc hne
    | cons b l => exact ⟨b, rfl⟩
  · intro i hi1 hi2
    have hc := topLevel_empty c (M - 1) i hi1 (by omega)
    have hp := nextOf_path_head (hinv.path i (by omega))
    rw [hinv.head_eq, hp, hc]
    rfl

theorem level_below_top_witness :
    (1 : Int) ≤ 2 ∧ Reachable 2 exampleList ∧
      ∃ L : Nat, Level exampleList = .ok (L : Int) ∧ (L : Int) ≤ 2 - 1 ∧
        (1 ≤ L → ∃ b, nextOf exampleList.heap exampleList.head (L : Int) = .ok (some b)) ∧
        ∀ i : Nat, L < i → (i : Int) ≤ 2 - 1 →
          nextOf exampleList.heap exampleList.head (i : Int) = .ok none :=
  ⟨by decide, exampleList_reachable,
    level_below_top 2 exampleList (by decide) exampleList_reachable⟩

/-- C12. At the level `maxLevel` the keys are not ordered: in the list built by
`Insert(1, 10)`, `Insert(2, 20)` on `NewSkipList(1)` with true coins the chain of level 1
from the head meets the key 2 before the key 1. -/
theorem top_level_unordered :
    Reachable 1 exampleTopTwo ∧ chainOf exampleTopTwo 1 = .ok [2, 1] ∧
      [2, 1].map (key exampleTopTwo.heap) = [2, 1] ∧
      ¬ ([2, 1].map (key exampleTopTwo.heap)).Pairwise (fun a b => a < b) :=
  ⟨exampleTopTwo_reachable, rfl, rfl, by decide⟩

/-- C13. After a `Delete` the nesting of the levels fails at the level `maxLevel`: in the
list built by `Insert(5, 1)`, `Delete(5)` on `NewSkipList(1)` with a true coin the node at
address 1 is reachable from the head at level 1 and not at level 0. -/
theorem nesting_fails_after_delete :
    Reachable 1 exampleTopDeleted ∧ chainOf exampleTopDeleted 1 = .ok [1] ∧
      chainOf exampleTopDeleted 0 = .ok [] :=
  ⟨exampleTopDeleted_reachable, rfl, rfl⟩

/-- C14. `Delete` leaves a node of level `maxLevel` linked at that level: after
`Insert(5, 1)` and `Delete(5)` on `NewSkipList(1)` with a true coin, `Find(5)` returns `nil`
and level 0 is empty, and the head's link of level 1 still leads to the node of key 5. -/
theorem delete_keeps_top_link :
    Reachable 1 exampleTop ∧ entries exampleTop = .ok [(5, some 1)] ∧
      Delete exampleTop 5 = .ok exampleTopDeleted ∧
      entries exampleTopDeleted = .ok [] ∧ Find exampleTopDeleted 5 = .ok none ∧
      nextOf exampleTopDeleted.heap exampleTopDeleted.head 1 = .ok (some 1) ∧
      key exampleTopDeleted.heap 1 = 5 :=
  ⟨exampleTop_reachable, rfl, rfl, rfl, rfl, rfl, rfl⟩

theorem Inv.insert_ok {s : SkipList α} {M : Nat} {c : Nat → List Nat} (hinv : Inv s M c)
    (k : Int) (v : Option α) (rand : Nat → Bool) (calls : Nat) :
    ∃ r, Insert s k v rand calls = .ok r := by
  obtain ⟨s1, calls1, _, hstep, _⟩ := step_inv rand hinv calls (.insert k v)
  exact ⟨(s1, calls1), hstep⟩

/-- The nodes `Delete` records in `preNodes` have a successor at their level. -/
theorem Inv.delete_pre_next {s : SkipList α} {M : Nat} {c : Nat → List Nat}
    (hinv : Inv s M c) (k : Int) :
    ∃ level pre0 pre, Level s = .ok level ∧
      makeSlice (none : Option Nat) (level + 1) = .ok pre0 ∧
      deleteLoop s.heap k (searchFuel s.heap level) s.head level pre0 = .ok pre ∧
      ∀ (i a : Nat), pre[i]? = some (some a) →
        ∃ t, nextOf s.heap (some a) (i : Int) = .ok (some t) := by
  obtain ⟨pre, hlevel, hmk, hloop, hplen, hpre⟩ := hinv.delete_search k
  have hL := topLevel_le c (M - 1)
  refine ⟨_, _, pre, hlevel, hmk, hloop, ?_⟩
  intro i a hia
  have hiL : i ≤ topLevel c (M - 1) := by
    have := (List.getElem?_eq_some_iff.mp hia).1
    omega
  rw [hpre i hiL] at hia
  cases hf : foundAt s.heap k (c i) with
  | none => simp [hf] at hia
  | some t =>
    simp only [hf, Option.isSome_some, if_true, Option.some.injEq] at hia
    have hl : link s.heap i (lastFrom 0 (below s.heap k (c i))) =
        some (notBelow s.heap k (c i)).head? := by
      apply path_last_link
      rw [below_append_notBelow]
      exact hinv.path i (by omega)
    rw [(foundAt_some hf).1, hia] at hl
    exact ⟨t, nextOf_of_link hl⟩

/-- C15. No out-of-range access: for every `maxLevel ≥ 0`, every list reachable from
`NewSkipList(maxLevel)`, every key, value and stream of coin outcomes, the calls of
`Insert`, `Delete`, `Find`, `Level`, `Len` and `String` return a result, that is, they do
not index a slice out of bounds and do not follow a `nil` pointer; and every node that the
search of `Delete` records in `preNodes[i]` has a successor at level `i`. -/
theorem no_fault (maxLevel : Int) (s : SkipList α) (k : Int) (v : Option α)
    (rand : Nat → Bool) (calls : Nat) (fmtv : Option α → String) (hM : 0 ≤ maxLevel)
    (hs : Reachable maxLevel s) :
    (∃ r, Insert s k v rand calls = .ok r) ∧ (∃ s1, Delete s k = .ok s1) ∧
      (∃ r, Find s k = .ok r) ∧ (∃ n, Level s = .ok n) ∧ (∃ n, Len s = .ok n) ∧
      (∃ str, SkipList.String fmtv s = .ok str) ∧
      ∃ level pre0 pre, Level s = .ok level ∧
        makeSlice (none : Option Nat) (level + 1) = .ok pre0 ∧
        deleteLoop s.heap k (searchFuel s.heap level) s.head level pre0 = .ok pre ∧
        ∀ (i a : Nat), pre[i]? = some (some a) →
          ∃ t, nextOf s.heap (some a) (i : Int) = .ok (some t) := by
  obtain ⟨c, hinv⟩ := reachable_inv hM hs
  obtain ⟨s1, hdel, _⟩ := hinv.delete_ok k
  obtain ⟨lines, hstr, _⟩ := hinv.string_eq fmtv
  exact ⟨hinv.insert_ok k v rand calls, ⟨s1, hdel⟩, ⟨_, hinv.find_eq k⟩, ⟨_, hinv.level_eq⟩,
    ⟨_, hinv.len_eq⟩, ⟨_, hstr⟩, hinv.delete_pre_next k⟩

theorem no_fault_witness :
    ((0 : Int) ≤ 0 ∧ Reachable 0 exampleListZero ∧
      (∃ r, Insert exampleListZero 1 (some 7) exampleRand 0 = .ok r) ∧
      (∃ s1, Delete exampleListZero 1 = .ok s1) ∧ (∃ r, Find exampleListZero 1 = .ok r) ∧
      (∃ n, Level exampleListZero = .ok n) ∧ (∃ n, Len exampleListZero = .ok n) ∧
      (∃ str, SkipList.String (fun _ => "a") exampleListZero = .ok str) ∧
      ∃ level pre0 pre, Level exampleListZero = .ok level ∧
        makeSlice (none : Option Nat) (level + 1) = .ok pre0 ∧
        deleteLoop exampleListZero.heap 1 (searchFuel exampleListZero.heap level)
          exampleListZero.head level pre0 = .ok pre ∧
        ∀ (i a : Nat), pre[i]? = some (some a) →
          ∃ t, nextOf exampleListZero.heap (some a) (i : Int) = .ok (some t)) ∧
    ((0 : Int) ≤ 2 ∧ Reachable 2 exampleList ∧
      (∃ r, Insert exampleList 5 (some 7) exampleRand 5 = .ok r) ∧
      (∃ s1, Delete exampleList 5 = .ok s1) ∧ (∃ r, Find exampleList 5 = .ok r) ∧
      (∃ n, Level exampleList = .ok n) ∧ (∃ n, Len exampleList = .ok n) ∧
      (∃ str, SkipList.String (fun _ => "a") exampleList = .ok str) ∧
      ∃ level pre0 pre, Level exampleList = .ok level ∧
        makeSlice (none : Option Nat) (level + 1) = .ok pre0 ∧
        deleteLoop exampleList.heap 5 (searchFuel exampleList.heap level) exampleList.head
          level pre0 = .ok pre ∧
        ∀ (i a : Nat), pre[i]? = some (some a) →
          ∃ t, nextOf exampleList.heap (some a) (i : Int) = .ok (some t)) :=
  ⟨⟨by decide, exampleListZero_reachable,
      no_fault 0 exampleListZero 1 (some 7) exampleRand 0 (fun _ => "a") (by decide)
        exampleListZero_reachable⟩,
    ⟨by decide, exampleList_reachable,
      no_fault 2 exampleList 5 (some 7) exampleRand 5 (fun _ => "a") (by decide)
        exampleList_reachable⟩⟩

/-- C16. Termination: for every `maxLevel ≥ 0`, every list reachable from
`NewSkipList(maxLevel)` and every key, the chain of every level up to `maxLevel` is finite
and acyclic (the walk from the head reaches `nil`, meets no node twice and does not come
back to the head), and there is a number of iterations within which the loop of `Len`, the
loop of `Find`, the search loop of `Delete` and the loops of the search of `Insert` all
return, whatever larger budget of iterations they are given. -/
theorem loops_terminate (maxLevel : Int) (s : SkipList α) (k : Int) (hM : 0 ≤ maxLevel)
    (hs : Reachable maxLevel s) :
    (∀ i : Nat, (i : Int) ≤ maxLevel →
      ∃ l, chainOf s i = .ok l ∧ l.Nodup ∧ ∀ a, a ∈ l → some a ≠ s.head) ∧
    ∃ N : Nat, ∀ fuel, N ≤ fuel →
      (∃ p n, nextOf s.heap s.head 0 = .ok p ∧ lenLoop s.heap fuel p 0 = .ok n) ∧
      (∃ level r, Level s = .ok level ∧ findLoop s.heap k fuel s.head level = .ok r) ∧
      (∃ level pre0 pre, Level s = .ok level ∧
        makeSlice (none : Option Nat) (level + 1) = .ok pre0 ∧
        deleteLoop s.heap k fuel s.head level pre0 = .ok pre) ∧
      (∃ pre0 pre1 pre, makeSlice (none : Option Nat) (s.maxLevel + 1) = .ok pre0 ∧
        setIdx pre0 s.maxLevel s.head = .ok pre1 ∧
        insertSearchWith s.heap k fuel s.maxLevel.toNat pre1 = .ok pre) := by
  obtain ⟨c, hinv⟩ := reachable_inv hM hs
  constructor
  · intro i hi
    have hiM : i ≤ maxLevel.toNat := by omega
    have hnd := hinv.nodup i hiM
    refine ⟨c i, hinv.chainOf_eq hiM, (List.nodup_cons.mp hnd).2, ?_⟩
    intro a ha hc
    rw [hinv.head_eq] at hc
    injection hc with hc
    exact (List.nodup_cons.mp hnd).1 (hc ▸ ha)
  · obtain ⟨pre, hlevel, hmk, hloop, _, _⟩ := hinv.delete_search k
    obtain ⟨ipre0, ipre1, ipre, _, himk, hiset, hisearch⟩ := insert_pre hinv k
    have hfind := hinv.find_eq k
    have hlen := hinv.len_eq
    have hp := nextOf_path_head (hinv.path 0 (Nat.zero_le _))
    simp only [Nat.cast_zero] at hp
    rw [← hinv.head_eq] at hp
    unfold Find at hfind
    rw [hlevel] at hfind
    simp only at hfind
    unfold Len at hlen
    rw [hp] at hlen
    simp only at hlen
    rw [insertSearch_eq_with] at hisearch
    refine ⟨max (searchFuel s.heap ((topLevel c (maxLevel.toNat - 1) : Nat) : Int))
      (s.heap.length + 1), ?_⟩
    intro fuel hfuel
    refine ⟨⟨_, _, hp, lenLoop_mono _ _ _ _ fuel hlen (by omega)⟩,
      ⟨_, _, hlevel, findLoop_mono _ _ _ _ fuel hfind (by omega)⟩,
      ⟨_, _, _, hlevel, hmk, deleteLoop_mono _ _ _ _ _ fuel hloop (by omega)⟩,
      ⟨_, _, _, himk, hiset, insertSearchWith_mono (by omega) _ _ _ hisearch⟩⟩

theorem loops_terminate_witness :
    ((0 : Int) ≤ 0 ∧ Reachable 0 exampleListZero ∧
      ∃ N : Nat, ∀ fuel, N ≤ fuel →
        ∃ level pre0 pre, Level exampleListZero = .ok level ∧
          makeSlice (none : Option Nat) (level + 1) = .ok pre0 ∧
          deleteLoop exampleListZero.heap 3 fuel exampleListZero.head level pre0 = .ok pre) ∧
    ((0 : Int) ≤ 2 ∧ Reachable 2 exampleList ∧
      (∀ i : Nat, (i : Int) ≤ 2 →
        ∃ l, chainOf exampleList i = .ok l ∧ l.Nodup ∧
          ∀ a, a ∈ l → some a ≠ exampleList.head) ∧
      ∃ N : Nat, ∀ fuel, N ≤ fuel →
        (∃ p n, nextOf exampleList.heap exampleList.head 0 = .ok p ∧
          lenLoop exampleList.heap fuel p 0 = .ok n) ∧
        (∃ level r, Level exampleList = .ok level ∧
          findLoop exampleList.heap 9 fuel exampleList.head level = .ok r) ∧
        (∃ level pre0 pre, Level exampleList = .ok level ∧
          makeSlice (none : Option Nat) (level + 1) = .ok pre0 ∧
          deleteLoop exampleList.heap 9 fuel exampleList.head level pre0 = .ok pre) ∧
        (∃ pre0 pre1 pre,
          makeSlice (none : Option Nat) (exampleList.maxLevel + 1) = .ok pre0 ∧
          setIdx pre0 exampleList.maxLevel exampleList.head = .ok pre1 ∧
          insertSearchWith exampleList.heap 9 fuel exampleList.maxLevel.toNat pre1 =
            .ok pre)) :=
  ⟨⟨by decide, exampleListZero_reachable,
      (loops_terminate 0 exampleListZero 3 (by decide) exampleListZero_reachable).2.imp
        (fun _ hN fuel hf => (hN fuel hf).2.2.1)⟩,
    ⟨by decide, exampleList_reachable,
      loops_terminate 2 exampleList 9 (by decide) exampleList_reachable⟩⟩

/-- C17. `Delete` does not always make `maxLevel + 1` level descents: on `NewSkipList(1)`,
where `maxLevel + 1 = 2`, the search loop of `Delete(5)` starts at level `Level() = 0` and
makes one descent, from 0 to -1. -/
theorem delete_one_descent :
    Reachable 1 exampleEmpty ∧ Level exampleEmpty = .ok 0 ∧
      deleteLoopTrace exampleEmpty.heap 5 (searchFuel exampleEmpty.heap 0) exampleEmpty.head 0
        [none] = .ok ([none], [0, -1]) ∧
      descents [0, -1] = 1 :=
  ⟨exampleEmpty_reachable, rfl, rfl, rfl⟩

/-- C17, amended. For every `maxLevel ≥ 0`, every list reachable from
`NewSkipList(maxLevel)` and every key, the search loop of `Delete` starts at the level
`Level()`, which is at most `maxLevel - 1` or 0; from one test of the loop condition to the
next `level` stays or goes down by one, so it never increases; and the loop ends after
exactly `Level() + 1` level descents. -/
theorem delete_level_walk (maxLevel : Int) (s : SkipList α) (k : Int) (hM : 0 ≤ maxLevel)
    (hs : Reachable maxLevel s) :
    ∃ (L : Nat) (pre0 pre : List (Option Nat)) (tr : List Int),
      Level s = .ok (L : Int) ∧ (L : Int) ≤ max (maxLevel - 1) 0 ∧
      makeSlice (none : Option Nat) ((L : Int) + 1) = .ok pre0 ∧
      deleteLoop s.heap k (searchFuel s.heap (L : Int)) s.head (L : Int) pre0 = .ok pre ∧
      deleteLoopTrace s.heap k (searchFuel s.heap (L : Int)) s.head (L : Int) pre0 =
        .ok (pre, tr) ∧
      tr.head? = some (L : Int) ∧ List.Chain' StepDown tr ∧ descents tr = L + 1 := by
  obtain ⟨c, hinv⟩ := reachable_inv hM hs
  obtain ⟨pre, hlevel, hmk, hloop, _, _⟩ := hinv.delete_search k
  obtain ⟨tr, htr⟩ := deleteLoopTrace_of_ok hloop
  obtain ⟨h1, h2, h3⟩ := deleteLoopTrace_steps _ _ _ _ _ htr
  have hL := topLevel_le c (maxLevel.toNat - 1)
  refine ⟨topLevel c (maxLevel.toNat - 1), _, pre, tr, hlevel, by omega, hmk, hloop, htr, h1,
    h2, ?_⟩
  rw [h3]
  omega

theorem delete_level_walk_witness :
    (0 : Int) ≤ 2 ∧ Reachable 2 exampleList ∧
      ∃ (L : Nat) (pre0 pre : List (Option Nat)) (tr : List Int),
        Level exampleList = .ok (L : Int) ∧ (L : Int) ≤ max (2 - 1) 0 ∧
        makeSlice (none : Option Nat) ((L : Int) + 1) = .ok pre0 ∧
        deleteLoop exampleList.heap 5 (searchFuel exampleList.heap (L : Int))
          exampleList.head (L : Int) pre0 = .ok pre ∧
        deleteLoopTrace exampleList.heap 5 (searchFuel exampleList.heap (L : Int))
          exampleList.head (L : Int) pre0 = .ok (pre, tr) ∧
        tr.head? = some (L : Int) ∧ List.Chain' StepDown tr ∧ descents tr = L + 1 :=
  ⟨by decide, exampleList_reachable,
    delete_level_walk 2 exampleList 5 (by decide) exampleList_reachable⟩

/-- C18. `String` has no entry in its first line, the line of the level `maxLevel`: in the
list built by `Insert(5, 1)` on `NewSkipList(1)` with a true coin the only node has level 1,
so the lines of level 1 and of level 0 would both hold its value, and `String` returns an
empty first line followed by the line of level 0. -/
theorem string_top_line_empty :
    Reachable 1 exampleTop ∧ chainOf exampleTop 0 = .ok [1] ∧ lvl exampleTop.heap 1 = 1 ∧
      renderLine (fun _ => "a") exampleTop.heap 1 [1] = "a\t" ∧
      renderLine (fun _ => "a") exampleTop.heap 0 [1] = "a\t" ∧
      SkipList.String (fun _ => "a") exampleTop = .ok "\na\t" ∧
      "\na\t" ≠ "\n".intercalate ["a\t", "a\t"] :=
  ⟨exampleTop_reachable, rfl, rfl, rfl, rfl, rfl, by decide⟩

/-- C18, amended. For every `maxLevel ≥ 1` and every list reachable from
`NewSkipList(maxLevel)` holding the nodes `l` in level-0 order, `String()` consists of
`maxLevel + 1` lines joined by newlines: the first line is empty, and for every level
`i < maxLevel` the line number `maxLevel - i` has one tab-terminated entry per node of `l`,
in that order, the entry of a node being its value if the node's level is at least `i` and
the placeholder "-" otherwise. -/
theorem string_layout (maxLevel : Int) (s : SkipList α) (fmtv : Option α → String)
    (hM : 1 ≤ maxLevel) (hs : Reachable maxLevel s) :
    ∃ (l : List Nat) (lines : List String), chainOf s 0 = .ok l ∧
      Len s = .ok (l.length : Int) ∧
      SkipList.String fmtv s = .ok ("\n".intercalate lines) ∧
      (lines.length : Int) = maxLevel + 1 ∧ lines[0]? = some "" ∧
      ∀ i : Nat, (i : Int) < maxLevel →
        lines[maxLevel.toNat - i]? = some (concatAll (l.map (renderCell fmtv s.heap i))) := by
  obtain ⟨M, c, hM1, rfl, hinv⟩ := reachable_inv_pos hM hs
  obtain ⟨lines, hstr, hlen, h0, hl⟩ := hinv.string_eq fmtv
  refine ⟨c 0, lines, hinv.chainOf_eq (Nat.zero_le _), hinv.len_eq, hstr, by omega, h0, ?_⟩
  intro i hi
  have := hl i (by omega)
  simpa [renderLine] using this

theorem string_layout_witness :
    (1 : Int) ≤ 2 ∧ Reachable 2 exampleList ∧
      ∃ (l : List Nat) (lines : List String), chainOf exampleList 0 = .ok l ∧
        Len exampleList = .ok (l.length : Int) ∧
        SkipList.String (fun _ => "a") exampleList = .ok ("\n".intercalate lines) ∧
        (lines.length : Int) = 2 + 1 ∧ lines[0]? = some "" ∧
        ∀ i : Nat, (i : Int) < 2 →
          lines[(2 : Int).toNat - i]? =
            some (concatAll (l.map (renderCell (fun _ => "a") exampleList.heap i))) :=
  ⟨by decide, exampleList_reachable,
    string_layout 2 exampleList (fun _ => "a") (by decide) exampleList_reachable⟩

theorem Inv.level_ge {s : SkipList α} {M : Nat} {c : Nat → List Nat} (hinv : Inv s M c)
    {i : Nat} (hi : i ≤ M) :
    ∀ a, a ∈ c i → ∃ n, s.heap[a]? = some n ∧ (i : Int) ≤ n.level := by
  intro a ha
  obtain ⟨q, hq⟩ := path_link (hinv.path i hi) a (List.mem_cons_of_mem _ ha)
  unfold link at hq
  cases hn : s.heap[a]? with
  | none => rw [hn] at hq; exact absurd hq (by simp)
  | some n =>
    rw [hn] at hq
    simp only at hq
    refine ⟨n, rfl, ?_⟩
    obtain ⟨h0, _, hlen⟩ := hinv.shape n (List.getElem?_mem hn)
    have hlt : i < n.nextNodeByLevel.length := by
      by_contra hc
      rw [List.getElem?_eq_none (by omega)] at hq
      exact absurd hq (by simp)
    omega

/-- C19. Below the top level: for every `maxLevel ≥ 1`, every list reachable from
`NewSkipList(maxLevel)` and every level `i` in `[0, maxLevel - 1]`, the walk from the head
along `nextNodeByLevel[i]` ends and yields a chain with strictly increasing keys, all of
whose nodes have level at least `i`, and which for `i ≥ 1` is a subsequence of the chain of
level `i - 1`. -/
theorem chains_below_top (maxLevel : Int) (s : SkipList α) (i : Nat) (hM : 1 ≤ maxLevel)
    (hs : Reachable maxLevel s) (hi : (i : Int) ≤ maxLevel - 1) :
    ∃ l, chainOf s i = .ok l ∧ (l.map (key s.heap)).Pairwise (fun a b => a < b) ∧
      (∀ a, a ∈ l → ∃ n, s.heap[a]? = some n ∧ (i : Int) ≤ n.level) ∧
      (1 ≤ i → ∃ l0, chainOf s (i - 1) = .ok l0 ∧ l.Sublist l0) := by
  obtain ⟨M, c, hM1, rfl, hinv⟩ := reachable_inv_pos hM hs
  have hiM : i < M := by omega
  refine ⟨c i, hinv.chainOf_eq (by omega), ?_, hinv.level_ge (by omega), ?_⟩
  · exact List.pairwise_map.mpr (hinv.sorted i hiM)
  · intro h1
    refine ⟨c (i - 1), hinv.chainOf_eq (by omega), ?_⟩
    have := hinv.sub (i - 1) (by omega)
    rwa [show i - 1 + 1 = i by omega] at this

theorem chains_below_top_witness :
    (1 : Int) ≤ 2 ∧ Reachable 2 exampleList ∧ ((1 : Nat) : Int) ≤ 2 - 1 ∧
      ∃ l, chainOf exampleList 1 = .ok l ∧
        (l.map (key exampleList.heap)).Pairwise (fun a b => a < b) ∧
        (∀ a, a ∈ l → ∃ n, exampleList.heap[a]? = some n ∧ ((1 : Nat) : Int) ≤ n.level) ∧
        (1 ≤ 1 → ∃ l0, chainOf exampleList (1 - 1) = .ok l0 ∧ l.Sublist l0) :=
  ⟨by decide, exampleList_reachable, by decide,
    chains_below_top 2 exampleList 1 (by decide) exampleList_reachable (by decide)⟩

theorem topLevel_congr {c c2 : Nat → List Nat} :
    ∀ n, (∀ j, j ≤ n → c2 j = c j) → topLevel c2 n = topLevel c n := by
  intro n
  induction n with
  | zero => intro _; rfl
  | succ n ih =>
    intro hc
    simp only [topLevel]
    rw [hc (n + 1) (le_refl _), ih (fun j hj => hc j (by omega))]

theorem lookup_congr {h h1 : List (Node α)} {score : Int} {l : List Nat}
    (hk : ∀ b, b ∈ l → key h1 b = key h b ∧ val h1 b = val h b) :
    lookup h1 score l = lookup h score l := by
  unfold lookup foundAt
  rw [notBelow_congr (fun b hb => (hk b hb).1)]
  cases hh : (notBelow h score l).head? with
  | none => rfl
  | some b =>
    have hbm : b ∈ l := by
      have hb1 : b ∈ notBelow h score l := List.mem_of_mem_head? hh
      exact (List.dropWhile_sublist _).subset hb1
    simp only
    rw [(hk b hbm).1]
    by_cases hkb : key h b = score
    · rw [if_pos hkb]
      exact (hk b hbm).2
    · rw [if_neg hkb]

theorem filter_splice_new {h1 : List (Node α)} {k : Int} {l r : List Nat} {a : Nat}
    (ha : key h1 a = k) (hl : ∀ x, x ∈ l ++ r → key h1 x ≠ k) :
    (l ++ a :: r).filter (fun x => decide (key h1 x ≠ k)) = l ++ r := by
  rw [List.filter_append, List.filter_cons]
  simp only [ha, ne_eq, not_true_eq_false, decide_False, Bool.false_eq_true, if_false]
  rw [← List.filter_append]
  refine List.filter_eq_self.mpr ?_
  intro x hx
  simpa using hl x hx

/-- C20. `Insert` then `Delete` of a fresh key: for every `maxLevel ≥ 1`, every list `s`
reachable from `NewSkipList(maxLevel)`, every key `k` that is not among the level-0 keys
of `s`, every value and every coin stream, `Insert(k, v)` and then `Delete(k)` both return,
and in the resulting list every level `i` in `[0, maxLevel - 1]` has exactly the chain of
nodes `s` had at level `i`, each with the key and the value it had in `s`; `Len()`,
`Level()` and `Find` of every key return what they return on `s`. -/
theorem insert_delete_roundtrip (maxLevel : Int) (s : SkipList α) (k : Int) (v : Option α)
    (rand : Nat → Bool) (calls : Nat) (m : List (Int × Option α)) (hM : 1 ≤ maxLevel)
    (hs : Reachable maxLevel s) (hm : entries s = .ok m) (hk : k ∉ m.map Prod.fst) :
    ∃ (s1 : SkipList α) (calls1 : Nat) (s2 : SkipList α),
      Insert s k v rand calls = .ok (s1, calls1) ∧ Delete s1 k = .ok s2 ∧
      (∀ i : Nat, (i : Int) ≤ maxLevel - 1 →
        ∃ l, chainOf s i = .ok l ∧ chainOf s2 i = .ok l ∧
          ∀ a, a ∈ l → key s2.heap a = key s.heap a ∧ val s2.heap a = val s.heap a) ∧
      Len s2 = Len s ∧ Level s2 = Level s ∧ ∀ k2, Find s2 k2 = Find s k2 := by
  obtain ⟨M, c, hM1, rfl, hinv⟩ := reachable_inv_pos hM hs
  rw [hinv.entries_eq] at hm
  injection hm with hm
  subst hm
  have hs0 := hinv.sorted 0 (by omega)
  have hr : rightAt M s.heap c k 0 = notBelow s.heap k (c 0) := by
    simp [rightAt, show 0 < M by omega]
  have hfresh : ∀ b, (rightAt M s.heap c k 0).head? = some b → key s.heap b ≠ k := by
    intro b hb hkb
    rw [hr] at hb
    have hb1 : b ∈ notBelow s.heap k (c 0) := List.mem_of_mem_head? hb
    exact hk (mem_keys_pairsAt.mpr ⟨b, (List.dropWhile_sublist _).subset hb1, hkb⟩)
  have habs := hinv.absent hfresh
  obtain ⟨s1, lv, _, _, hrun, _, hold, hknew, _, hinv1⟩ :=
    insert_fresh hinv k v rand calls hfresh
  obtain ⟨s2, hdel, _, hkey2, hval2, hinv2, _⟩ := hinv1.delete_ok k
  have hlt : ∀ j, j ≤ M → ∀ x, x ∈ c j → x < s.heap.length := fun j hj x hx =>
    path_lt (hinv.path j hj) x (List.mem_cons_of_mem _ hx)
  have hkv : ∀ j, j ≤ M → ∀ x, x ∈ c j →
      key s2.heap x = key s.heap x ∧ val s2.heap x = val s.heap x := by
    intro j hj x hx
    rw [hkey2, hval2]
    exact hold x (hlt j hj x hx)
  have hc2 : ∀ j, j < M →
      (if j < max M 1 then
        unlinked s1.heap k
          (if j ≤ lv then
            leftAt M s.heap c k j ++ s.heap.length :: rightAt M s.heap c k j
          else c j)
      else
        (if j ≤ lv then
          leftAt M s.heap c k j ++ s.heap.length :: rightAt M s.heap c k j
        else c j)) = c j := by
    intro j hj
    have hj1 : j < max M 1 := by omega
    have hsorted := hinv1.sorted j hj
    simp only at hsorted
    have hne : ∀ x, x ∈ c j → key s1.heap x ≠ k := by
      intro x hx
      rw [(hold x (hlt j (by omega) x hx)).1]
      exact habs j hj x hx
    rw [if_pos hj1, unlinked_eq_filter hsorted]
    by_cases hjl : j ≤ lv
    · rw [if_pos hjl]
      rw [filter_splice_new hknew]
      · exact left_append_right M s.heap c k j
      · intro x hx
        rw [left_append_right] at hx
        exact hne x hx
    · rw [if_neg hjl]
      refine List.filter_eq_self.mpr ?_
      intro x hx
      simpa using hne x hx
  have hchain : ∀ j, j < M → chainOf s2 j = .ok (c j) := by
    intro j hj
    have := hinv2.chainOf_eq (show j ≤ M by omega)
    rw [hc2 j hj] at this
    exact this
  refine ⟨s1, _, s2, hrun, hdel, ?_, ?_, ?_, ?_⟩
  · intro i hi
    have hiM : i < M := by omega
    exact ⟨c i, hinv.chainOf_eq (by omega), hchain i hiM, hkv i (by omega)⟩
  · have h2 := hinv2.len_eq
    rw [hc2 0 (by omega)] at h2
    rw [h2, hinv.len_eq]
  · rw [hinv2.level_eq, hinv.level_eq]
    rw [topLevel_congr (M - 1) (fun j hj => hc2 j (by omega))]
  · intro k2
    have h2 := hinv2.find_eq k2
    rw [hc2 0 (by omega)] at h2
    rw [h2, hinv.find_eq, lookup_congr (hkv 0 (Nat.zero_le _))]

theorem insert_delete_roundtrip_witness :
    (1 : Int) ≤ 2 ∧ Reachable 2 exampleList ∧
      entries exampleList = .ok [(3, some 2), (5, some 1), (8, some 3)] ∧
      (4 : Int) ∉ [((3 : Int), some 2), (5, some 1), (8, some 3)].map Prod.fst ∧
      ∃ (s1 : SkipList Nat) (calls1 : Nat) (s2 : SkipList Nat),
        Insert exampleList 4 (some 7) exampleRand 5 = .ok (s1, calls1) ∧
        Delete s1 4 = .ok s2 ∧
        (∀ i : Nat, (i : Int) ≤ 2 - 1 →
          ∃ l, chainOf exampleList i = .ok l ∧ chainOf s2 i = .ok l ∧
            ∀ a, a ∈ l → key s2.heap a = key exampleList.heap a ∧
              val s2.heap a = val exampleList.heap a) ∧
        Len s2 = Len exampleList ∧ Level s2 = Level exampleList ∧
        ∀ k2, Find s2 k2 = Find exampleList k2 :=
  ⟨by decide, exampleList_reachable, exampleList_entries, by decide,
    insert_delete_roundtrip 2 exampleList 4 (some 7) exampleRand 5 _ (by decide)
      exampleList_reachable exampleList_entries (by decide)⟩

end Skiplist
